import Mathlib

/-!
# Matmul_benchmark: a shallow embedding of `matmul.cpp`

The multiplication strategies of `src/matmul.cpp` are embedded as programs of a small
state-and-error monad over an explicit heap of element buffers.  A matrix is a window
(buffer, base offset, row stride, rows, cols) into a buffer, so that sub-matrix views alias
their parent exactly as in the C++ code.  Element arithmetic is exact (`Int`), except in
`matmul_naive_int32`, the naive strategy at `Dtype = int`, whose products and sums wrap to
32 bits.

Conventions.
* `assert` is modelled as active: a failing assertion ends the call with an error and
  leaves the heap as it was at that point.
* `operator[]` accesses are bounds-checked against the declared shape (the checked build of
  the spec); raw pointer accesses (`data() + offset`) are not.
* Dimensions and offsets are natural numbers: they are assumed to fit the C++ `int`.
* `#pragma omp parallel for` loops are read as sequential loop nests (one worker).
* Every buffer starts at an address aligned for the widest vector load, and elements are
  as wide as a `float` (4 bytes): a vector load of width `w` is aligned exactly when its
  element offset in the buffer is a multiple of `w`, and faults otherwise.
* `matmul_strassen` carries a fuel argument that bounds the depth of its recursion.

Besides the sequential reading, the parallel region of `matmul_openmp` is modelled as a
step relation of two workers (`omp_step`, `omp_run`) with the variables shared or private
as lines 26-27 declare them.  For the general theorems on the recursive strategy its body
is stated once more with the base case and the recursive call as parameters
(`strassen_body`); `matmul_strassen (fuel + 1)` is `strassen_body plain_base
(matmul_strassen fuel)` by definition (`matmul_strassen_succ`).
-/

namespace Matmul

/-! ## Errors, heap, execution monad -/

/-- Failure kinds of the error taxonomy, plus `misaligned` for the fault of an aligned
vector load at an unaligned address and `fuel` for a recursion that was cut off. -/
inductive Err where
  | shapeMismatch
  | invalidDimension
  | outOfBounds
  | indexOutOfRange
  | misaligned
  | fuel
  deriving DecidableEq, Repr

/-- Element buffers: `cell b o` is the element at offset `o` of buffer `b`; `next` is the
identifier the next allocation receives. -/
structure Heap where
  cell : Nat → Nat → Int
  next : Nat

/-- A program: from a heap to a result (or an error) and the heap left behind. -/
def Exec (α : Type) : Type := Heap → Except Err α × Heap

/-- Return a value, heap untouched. -/
def Exec.pure {α : Type} (a : α) : Exec α := fun h => (.ok a, h)

/-- Sequencing: an error stops the program and keeps the heap reached so far. -/
def Exec.bind {α β : Type} (x : Exec α) (f : α → Exec β) : Exec β := fun h =>
  match x h with
  | (.ok a, h1) => f a h1
  | (.error e, h1) => (.error e, h1)

instance : Monad Exec where
  pure := Exec.pure
  bind := Exec.bind

/-- Stop with error `e`. -/
def fail {α : Type} (e : Err) : Exec α := fun h => (.error e, h)

/-- The C `assert`: continue when `c` holds, stop with `e` otherwise. -/
def assert (c : Bool) (e : Err) : Exec Unit :=
  if c then Exec.pure () else fail e

deriving instance DecidableEq for Except

/-- The loop `for (i = 0; i < n; ++i) acc = body i acc`, iterations in increasing order. -/
def forLoop {α : Type} (n : Nat) (init : α) (body : Nat → α → Exec α) : Exec α :=
  match n with
  | 0 => Exec.pure init
  | k + 1 => Exec.bind (forLoop k init body) (body k)

/-- A loop without accumulator. -/
def forRange (n : Nat) (body : Nat → Exec Unit) : Exec Unit :=
  forLoop n () (fun i _ => body i)

/-! ## Pointers and matrices -/

/-- A raw element pointer: buffer and offset in it. -/
structure Ptr where
  buf : Nat
  off : Nat
  deriving DecidableEq, Repr

/-- Raw read `p[k]`. -/
def Ptr.load (p : Ptr) (k : Nat) : Exec Int := fun h => (.ok (h.cell p.buf (p.off + k)), h)

/-- The heap after storing `v` at offset `o` of buffer `b`. -/
def Heap.set (h : Heap) (b o : Nat) (v : Int) : Heap :=
  { h with cell := fun b1 o1 => if b1 = b ∧ o1 = o then v else h.cell b1 o1 }

/-- Raw write `p[k] = v`. -/
def Ptr.store (p : Ptr) (k : Nat) (v : Int) : Exec Unit := fun h =>
  (.ok (), h.set p.buf (p.off + k) v)

/-- Modelled from the spec: the `Matrix` type of `matmul.hpp`, which is not part of the
sources.  A matrix addresses element `(i, j)` at `base + i * stride + j` of its buffer;
an owning matrix is densely packed (`stride = cols`, `base = 0`), a view shares the buffer
and the stride of its parent. -/
structure Matrix where
  buf : Nat
  base : Nat
  stride : Nat
  rows : Nat
  cols : Nat
  deriving DecidableEq, Repr

/-- Modelled from the spec: `data()`, the pointer to element `(0, 0)`. -/
def Matrix.data (M : Matrix) : Ptr := ⟨M.buf, M.base⟩

/-- Modelled from the spec: the value of element `(i, j)` in heap `h`, unchecked. -/
def Matrix.get (M : Matrix) (h : Heap) (i j : Nat) : Int :=
  h.cell M.buf (M.base + i * M.stride + j)

/-- Modelled from the spec: checked element read `M[i][j]`. -/
def Matrix.read (M : Matrix) (i j : Nat) : Exec Int := fun h =>
  if i < M.rows ∧ j < M.cols then (.ok (M.get h i j), h) else (.error .indexOutOfRange, h)

/-- Modelled from the spec: checked element write `M[i][j] = v`. -/
def Matrix.write (M : Matrix) (i j : Nat) (v : Int) : Exec Unit := fun h =>
  if i < M.rows ∧ j < M.cols then (.ok (), h.set M.buf (M.base + i * M.stride + j) v)
  else (.error .indexOutOfRange, h)

/-- Modelled from the spec: the view constructor
`Matrix(parent, row-offset, col-offset, rows, cols)`; it allocates nothing and fails with
`outOfBounds` when the window exceeds the parent. -/
def Matrix.view (P : Matrix) (rowOff colOff rows cols : Nat) : Exec Matrix :=
  if rowOff + rows ≤ P.rows ∧ colOff + cols ≤ P.cols then
    Exec.pure { buf := P.buf, base := P.base + rowOff * P.stride + colOff,
                stride := P.stride, rows := rows, cols := cols }
  else fail .outOfBounds

/-- Modelled from the spec: allocation of an owning `rows x cols` matrix whose element
`(i, j)` is `f i j`. -/
def Matrix.alloc (rows cols : Nat) (f : Nat → Nat → Int) : Exec Matrix := fun h =>
  (.ok { buf := h.next, base := 0, stride := cols, rows := rows, cols := cols },
   { cell := fun b o =>
       if b = h.next then (if o < rows * cols then f (o / cols) (o % cols) else h.cell b o)
       else h.cell b o,
     next := h.next + 1 })

/-- Modelled from the spec: `A + B`, a new owning matrix; `shapeMismatch` when the shapes
differ. -/
def Matrix.add (A B : Matrix) : Exec Matrix := fun h =>
  if A.rows = B.rows ∧ A.cols = B.cols then
    Matrix.alloc A.rows A.cols (fun i j => A.get h i j + B.get h i j) h
  else (.error .shapeMismatch, h)

/-- Modelled from the spec: `A - B`, a new owning matrix; `shapeMismatch` when the shapes
differ. -/
def Matrix.sub (A B : Matrix) : Exec Matrix := fun h =>
  if A.rows = B.rows ∧ A.cols = B.cols then
    Matrix.alloc A.rows A.cols (fun i j => A.get h i j - B.get h i j) h
  else (.error .shapeMismatch, h)

/-! ## The strategies of `matmul.cpp` -/

/-- Lines 9-20. -/
def matmul_naive (A B C : Matrix) : Exec Unit := do
  assert (A.rows == C.rows && A.cols == B.rows && B.cols == C.cols) .shapeMismatch
  forRange C.rows fun i =>
    forRange C.cols fun j => do
      let tmp ← forLoop A.cols (0 : Int) fun k tmp => do
        let a ← A.read i k
        let b ← B.read k j
        pure (tmp + a * b)
      C.write i j tmp

/-- The value a 32-bit two's complement `int` keeps of `x`: the representative of `x`
modulo `2^32` in `[-2^31, 2^31)`. -/
def wrap32 (x : Int) : Int := (x + 2147483648) % 4294967296 - 2147483648

/-- Lines 9-20 at `Dtype = int` (the instantiation of line 224): as `matmul_naive`, with
the product and the sum of line 15 wrapped to 32 bits. -/
def matmul_naive_int32 (A B C : Matrix) : Exec Unit := do
  assert (A.rows == C.rows && A.cols == B.rows && B.cols == C.cols) .shapeMismatch
  forRange C.rows fun i =>
    forRange C.cols fun j => do
      let tmp ← forLoop A.cols (0 : Int) fun k tmp => do
        let a ← A.read i k
        let b ← B.read k j
        pure (wrap32 (tmp + wrap32 (a * b)))
      C.write i j tmp

/-- Lines 24-37, the parallel loop read as a sequential loop nest (one worker, so that the
counter `k`, which the pragma does not list as private, is not shared with anyone). -/
def matmul_openmp (A B C : Matrix) : Exec Unit := do
  assert (A.rows == C.rows && A.cols == B.rows && B.cols == C.cols) .shapeMismatch
  forRange C.rows fun i =>
    forRange C.cols fun j => do
      let tmp ← forLoop A.cols (0 : Int) fun k tmp => do
        let a ← A.read i k
        let b ← B.read k j
        pure (tmp + a * b)
      C.write i j tmp

/-- Lines 41-53: the second argument `B` is read as `B[j][k]`. -/
def matmul_trans (A B C : Matrix) : Exec Unit := do
  assert (A.rows == C.rows && A.cols == B.rows && B.cols == C.cols) .shapeMismatch
  forRange C.rows fun i =>
    forRange C.cols fun j => do
      let tmp ← forLoop A.cols (0 : Int) fun k tmp => do
        let a ← A.read i k
        let b ← B.read j k
        pure (tmp + a * b)
      C.write i j tmp

/-- Lines 126-141. -/
def _strassen_2x2 (a : Ptr) (stride_a : Nat) (b : Ptr) (stride_b : Nat)
    (c : Ptr) (stride_c : Nat) : Exec Unit := do
  let p1 := ((← b.load 1) - (← b.load (stride_b + 1))) * (← a.load 0)
  let p2 := ((← a.load 0) + (← a.load 1)) * (← b.load (stride_b + 1))
  let p3 := ((← a.load stride_a) + (← a.load (stride_a + 1))) * (← b.load 0)
  let p4 := ((← b.load stride_b) - (← b.load 0)) * (← a.load (stride_a + 1))
  let p5 := ((← a.load 0) + (← a.load (stride_a + 1))) * ((← b.load 0) + (← b.load (stride_b + 1)))
  let p6 := ((← a.load 1) - (← a.load (stride_a + 1))) *
    ((← b.load stride_b) + (← b.load (stride_b + 1)))
  let p7 := ((← a.load 0) - (← a.load stride_a)) * ((← b.load 0) + (← b.load 1))
  c.store 0 (p5 + p4 - p2 + p6)
  c.store 1 (p1 + p2)
  c.store stride_c (p3 + p4)
  c.store (stride_c + 1) (p1 + p5 - p3 - p7)

/-- Line 150: the test `(n & n-1) == 0` on the C `int` `n`. -/
def pow2_check (n : Nat) : Bool :=
  Int.land (n : Int) ((n : Int) - 1) == 0

/-- Lines 145-216.  `fuel` bounds the depth of the recursion; a call that needs more ends
with `Err.fuel`. -/
def matmul_strassen : Nat → Matrix → Matrix → Matrix → Exec Unit
  | 0, _, _, _ => fail .fuel
  | fuel + 1, A, B, C => do
    assert (A.rows == A.cols) .invalidDimension
    let n := A.rows
    assert (pow2_check n) .invalidDimension
    if n = 2 then
      _strassen_2x2 A.data A.stride B.data B.stride C.data C.stride
    else
      let half_n := n >>> 1
      -- split
      let A11 ← Matrix.view A 0 0 half_n half_n
      let A12 ← Matrix.view A half_n 0 half_n half_n
      let A21 ← Matrix.view A 0 half_n half_n half_n
      let A22 ← Matrix.view A half_n half_n half_n half_n
      let B11 ← Matrix.view B 0 0 half_n half_n
      let B12 ← Matrix.view B half_n 0 half_n half_n
      let B21 ← Matrix.view B 0 half_n half_n half_n
      let B22 ← Matrix.view B half_n half_n half_n half_n
      let P1 ← Matrix.sub B12 B22
      let P2 ← Matrix.add A11 A12
      let P3 ← Matrix.add A21 A22
      let P4 ← Matrix.sub B21 B11
      let P51 ← Matrix.add A11 A22
      let P52 ← Matrix.add B11 B22
      let P61 ← Matrix.sub A12 A22
      let P62 ← Matrix.add B21 B22
      let P71 ← Matrix.sub A11 A21
      let P72 ← Matrix.add B11 B12
      matmul_strassen fuel A11 P1 P1
      matmul_strassen fuel P2 B22 P2
      matmul_strassen fuel P3 B11 P3
      matmul_strassen fuel A22 P4 P4
      matmul_strassen fuel P51 P52 P52
      matmul_strassen fuel P61 P62 P62
      matmul_strassen fuel P71 P72 P72
      -- merge
      forRange half_n fun i =>
        forRange half_n fun j => do
          C.write i j ((← P52.read i j) + (← P4.read i j) - (← P2.read i j) + (← P62.read i j))
      forRange half_n fun i =>
        forRange half_n fun j => do
          C.write i (j + half_n) ((← P1.read i j) + (← P2.read i j))
      forRange half_n fun i =>
        forRange half_n fun j => do
          C.write (i + half_n) j ((← P3.read i j) + (← P4.read i j))
      forRange half_n fun i =>
        forRange half_n fun j => do
          C.write (i + half_n) (j + half_n)
            ((← P1.read i j) + (← P52.read i j) - (← P3.read i j) - (← P72.read i j))

/-! ## SIMD strategies

The vector intrinsics are modelled lane by lane over exact arithmetic: a register of width
`w` is a function from its `w` lanes to elements. -/

/-- A vector register of `w` lanes. -/
def Vec (w : Nat) : Type := Fin w → Int

/-- The intrinsics `_mm_setzero_ps` / `_mm256_setzero_ps`. -/
def mm_setzero (w : Nat) : Vec w := fun _ => 0

/-- The intrinsics `_mm_load_ps` / `_mm256_load_ps`: `w` consecutive elements from `p + off`.
They are aligned loads: the address must be a multiple of the register size (16 bytes for
`w = 4`, 32 bytes for `w = 8`), that is, with elements of 4 bytes and a buffer that starts
at an aligned address, the element offset must be a multiple of `w`; otherwise the load
faults. -/
def mm_load (w : Nat) (p : Ptr) (off : Nat) : Exec (Vec w) := fun h =>
  if (p.off + off) % w = 0 then (.ok (fun l => h.cell p.buf (p.off + off + l.val)), h)
  else (.error .misaligned, h)

/-- The intrinsics `_mm_mul_ps` / `_mm256_mul_ps`. -/
def mm_mul {w : Nat} (a b : Vec w) : Vec w := fun l => a l * b l

/-- The intrinsics `_mm_add_ps` / `_mm256_add_ps`. -/
def mm_add {w : Nat} (a b : Vec w) : Vec w := fun l => a l + b l

/-- Lines 80-99, the parallel loop read as a sequential loop nest. -/
def matmul_omp_sse (A Bt C : Matrix) : Exec Unit :=
  forRange C.rows fun i =>
    forRange C.cols fun j => do
      let partial_sum ← forLoop (A.cols / 4) (mm_setzero 4) fun k partial_sum => do
        let a ← mm_load 4 A.data (i * A.cols + 4 * k)
        let b ← mm_load 4 Bt.data (j * Bt.cols + 4 * k)
        let c := mm_mul a b
        pure (mm_add partial_sum c)
      let addr := partial_sum
      C.write i j (addr 0 + addr 1 + addr 2 + addr 3)

/-- Lines 102-123, the parallel loop read as a sequential loop nest. -/
def matmul_omp_avx (A Bt C : Matrix) : Exec Unit :=
  forRange C.rows fun i =>
    forRange C.cols fun j => do
      let partial_sum ← forLoop (A.cols / 8) (mm_setzero 8) fun k partial_sum => do
        let a ← mm_load 8 A.data (i * A.cols + 8 * k)
        let b ← mm_load 8 Bt.data (j * Bt.cols + 8 * k)
        let c := mm_mul a b
        pure (mm_add partial_sum c)
      let addr := partial_sum
      C.write i j (addr 0 + addr 1 + addr 2 + addr 3 + addr 4 + addr 5 + addr 6 + addr 7)

/-! ## Concrete heaps and matrices -/

/-- A heap whose buffer `b` holds the list `bufs[b]` (zero elsewhere). -/
def Heap.ofLists (bufs : List (List Int)) : Heap :=
  { cell := fun b o => (bufs.getD b []).getD o 0, next := bufs.length }

/-- An owning `rows x cols` matrix over buffer `b`. -/
def Matrix.dense (b rows cols : Nat) : Matrix :=
  { buf := b, base := 0, stride := cols, rows := rows, cols := cols }

/-- The offset `o` of buffer `b` is an element of `M`. -/
def Matrix.covers (M : Matrix) (b o : Nat) : Prop :=
  b = M.buf ∧ ∃ i j, i < M.rows ∧ j < M.cols ∧ o = M.base + i * M.stride + j

/-- No element of `M` is an element of `C`. -/
def Matrix.disjoint (M C : Matrix) : Prop := ∀ b o, M.covers b o → ¬ C.covers b o

/-- The loop nest shared by the strategies: every cell `(i, j)` of `C` receives `g` of the
value computed by `val i j`. -/
def fillCells {α : Type} (C : Matrix) (val : Nat → Nat → Exec α) (g : α → Int) : Exec Unit :=
  forRange C.rows fun i =>
    forRange C.cols fun j => do
      let v ← val i j
      C.write i j (g v)

/-- The inner loop of `matmul_naive` and `matmul_openmp`. -/
def naive_dot (A B : Matrix) (i j : Nat) : Exec Int :=
  forLoop A.cols (0 : Int) fun k tmp => do
    let a ← A.read i k
    let b ← B.read k j
    pure (tmp + a * b)

/-- The inner loop of `matmul_trans`. -/
def trans_dot (A B : Matrix) (i j : Nat) : Exec Int :=
  forLoop A.cols (0 : Int) fun k tmp => do
    let a ← A.read i k
    let b ← B.read j k
    pure (tmp + a * b)

/-- The inner loop of `matmul_omp_sse` (`w = 4`) and `matmul_omp_avx` (`w = 8`). -/
def simd_acc (w : Nat) (A Bt : Matrix) (i j : Nat) : Exec (Vec w) :=
  forLoop (A.cols / w) (mm_setzero w) fun k partial_sum => do
    let a ← mm_load w A.data (i * A.cols + w * k)
    let b ← mm_load w Bt.data (j * Bt.cols + w * k)
    let c := mm_mul a b
    pure (mm_add partial_sum c)

/-- Line 96: the horizontal sum of the four lanes. -/
def hsum4 (addr : Vec 4) : Int := addr 0 + addr 1 + addr 2 + addr 3

/-- Lines 119-120: the horizontal sum of the eight lanes. -/
def hsum8 (addr : Vec 8) : Int :=
  addr 0 + addr 1 + addr 2 + addr 3 + addr 4 + addr 5 + addr 6 + addr 7

/-- The 4x4 matrix whose only non-zero element is a 1 in row 0, column 2. -/
def unit02 : List Int := [0, 0, 1, 0, 0, 0, 0, 0, 0, 0, 0, 0, 0, 0, 0, 0]

/-- Sixteen zeros: the initial content of a 4x4 output. -/
def zeros16 : List Int := [0, 0, 0, 0, 0, 0, 0, 0, 0, 0, 0, 0, 0, 0, 0, 0]

/-- The 4x4 identity matrix. -/
def ident4 : List Int := [1, 0, 0, 0, 0, 1, 0, 0, 0, 0, 1, 0, 0, 0, 0, 1]

/-- Every vector load that a SIMD strategy of width `w` performs on `A`, `Bt`, `C` is
aligned (lines 81 and 103: "data must be aligned"). -/
def simd_aligned (w : Nat) (A Bt C : Matrix) : Prop :=
  ∀ i j k, i < C.rows → j < C.cols → k < A.cols / w →
    (A.base + (i * A.cols + w * k)) % w = 0 ∧ (Bt.base + (j * Bt.cols + w * k)) % w = 0

/-- No element that a SIMD strategy of width `w` loads from `A` or `Bt` while it fills `C`
is an element of `C`. -/
def simd_apart (w : Nat) (A Bt C : Matrix) : Prop :=
  ∀ i j k, i < C.rows → j < C.cols → k < w * (A.cols / w) →
    ¬ C.covers A.buf (A.base + i * A.cols + k) ∧ ¬ C.covers Bt.buf (Bt.base + j * Bt.cols + k)

/-- The shape assertion of lines 10, 25 and 42. -/
def shape_check (A B C : Matrix) : Bool :=
  A.rows == C.rows && A.cols == B.rows && B.cols == C.cols

/-! ## The parallel region of `matmul_openmp`, two workers

Line 26 declares `i`, `j`, `k` outside the parallel region and line 27 makes `i` and `j`
private; `k` is therefore one variable shared by all workers, `tmp` (declared in the body)
is private.  A worker executes the body of the outer loop for its row `i`, one of the
steps below at a time; the steps of the workers interleave. -/

/-- Program points of lines 29-35, the body of the outer loop. -/
inductive Pc where
  | jInit
  | jTest
  | tmpInit
  | kInit
  | kTest
  | acc
  | kIncr
  | store
  | jIncr
  | done
  deriving DecidableEq, Repr

/-- The private variables of a worker: its row `i`, `j`, `tmp`, and its program point. -/
structure Worker where
  i : Nat
  j : Nat
  tmp : Int
  pc : Pc

/-- What the workers share: the counter `k` and the heap. -/
structure Shared where
  k : Nat
  heap : Heap

/-- One step of a worker on lines 29-35. -/
def omp_step (A B C : Matrix) (w : Worker) (s : Shared) : Worker × Shared :=
  match w.pc with
  | .jInit => ({ w with j := 0, pc := .jTest }, s)
  | .jTest => if w.j < C.cols then ({ w with pc := .tmpInit }, s) else ({ w with pc := .done }, s)
  | .tmpInit => ({ w with tmp := 0, pc := .kInit }, s)
  | .kInit => ({ w with pc := .kTest }, { s with k := 0 })
  | .kTest => if s.k < A.cols then ({ w with pc := .acc }, s) else ({ w with pc := .store }, s)
  | .acc =>
    ({ w with tmp := w.tmp + A.get s.heap w.i s.k * B.get s.heap s.k w.j, pc := .kIncr }, s)
  | .kIncr => ({ w with pc := .kTest }, { s with k := s.k + 1 })
  | .store =>
    ({ w with pc := .jIncr },
     { s with heap := s.heap.set C.buf (C.base + w.i * C.stride + w.j) w.tmp })
  | .jIncr => ({ w with j := w.j + 1, pc := .jTest }, s)
  | .done => (w, s)

/-- Two workers and the shared state. -/
structure Team where
  w0 : Worker
  w1 : Worker
  shared : Shared

/-- The team at the start of the parallel region when worker 0 has row 0 and worker 1 has
row 1. -/
def omp_start (h : Heap) : Team :=
  { w0 := { i := 0, j := 0, tmp := 0, pc := .jInit },
    w1 := { i := 1, j := 0, tmp := 0, pc := .jInit },
    shared := { k := 0, heap := h } }

/-- Run a schedule: `false` lets worker 0 do its next step, `true` worker 1. -/
def omp_run (A B C : Matrix) : List Bool → Team → Team
  | [], t => t
  | false :: rest, t =>
    omp_run A B C rest
      { t with w0 := (omp_step A B C t.w0 t.shared).1, shared := (omp_step A B C t.w0 t.shared).2 }
  | true :: rest, t =>
    omp_run A B C rest
      { t with w1 := (omp_step A B C t.w1 t.shared).1, shared := (omp_step A B C t.w1 t.shared).2 }

/-- The schedule in which worker 0 runs its row to the end, then worker 1. -/
def sched_sequential : List Bool :=
  List.replicate 12 false ++ List.replicate 12 true

/-- A schedule in which worker 0 increments `k` between the moment worker 1 has set it to 0
and the moment worker 1 tests it. -/
def sched_racy : List Bool :=
  [false, false, false, false, false, false,
   true, true, true, true,
   false,
   true, true, true, true,
   false, false, false, false]

/-- The numbers 0 to 15: a 4x4 matrix whose element `(i, j)` is `4 * i + j`. -/
def count16 : List Int := [0, 1, 2, 3, 4, 5, 6, 7, 8, 9, 10, 11, 12, 13, 14, 15]

/-- Two rows 1,2,3,4 and 5,6,7,8 stored with row stride 8 (four elements of padding after
each row). -/
def padded2x4 : List Int := [1, 2, 3, 4, 9, 9, 9, 9, 5, 6, 7, 8, 9, 9, 9, 9]

/-- Two rows of eight (all 1, then all 2) stored with row stride 16 (padding 9). -/
def padded2x8 : List Int :=
  [1, 1, 1, 1, 1, 1, 1, 1, 9, 9, 9, 9, 9, 9, 9, 9,
   2, 2, 2, 2, 2, 2, 2, 2, 9, 9, 9, 9, 9, 9, 9, 9]

/-! ## The recursion of `matmul_strassen`, opened

`strassen_body` is the body of `matmul_strassen` (lines 148-215) with the base case of
line 152 and the recursive call as parameters; `matmul_strassen (fuel + 1)` is
`strassen_body plain_base (matmul_strassen fuel)`. -/

/-- The matrix that the view constructor returns. -/
def Matrix.window (P : Matrix) (rowOff colOff rows cols : Nat) : Matrix :=
  { buf := P.buf, base := P.base + rowOff * P.stride + colOff, stride := P.stride,
    rows := rows, cols := cols }

/-- Lines 191-215: the four merge loops. -/
def strassen_merge (C : Matrix) (half_n : Nat) (P1 P2 P3 P4 P52 P62 P72 : Matrix) :
    Exec Unit := do
  forRange half_n fun i =>
    forRange half_n fun j => do
      C.write i j ((← P52.read i j) + (← P4.read i j) - (← P2.read i j) + (← P62.read i j))
  forRange half_n fun i =>
    forRange half_n fun j => do
      C.write i (j + half_n) ((← P1.read i j) + (← P2.read i j))
  forRange half_n fun i =>
    forRange half_n fun j => do
      C.write (i + half_n) j ((← P3.read i j) + (← P4.read i j))
  forRange half_n fun i =>
    forRange half_n fun j => do
      C.write (i + half_n) (j + half_n)
        ((← P1.read i j) + (← P52.read i j) - (← P3.read i j) - (← P72.read i j))

/-- Lines 148-215, with line 152 replaced by `base` and the calls of lines 181-187 by
`rec`. -/
def strassen_body (base rec : Matrix → Matrix → Matrix → Exec Unit) (A B C : Matrix) :
    Exec Unit := do
  assert (A.rows == A.cols) .invalidDimension
  let n := A.rows
  assert (pow2_check n) .invalidDimension
  if n = 2 then
    base A B C
  else
    let half_n := n >>> 1
    let A11 ← Matrix.view A 0 0 half_n half_n
    let A12 ← Matrix.view A half_n 0 half_n half_n
    let A21 ← Matrix.view A 0 half_n half_n half_n
    let A22 ← Matrix.view A half_n half_n half_n half_n
    let B11 ← Matrix.view B 0 0 half_n half_n
    let B12 ← Matrix.view B half_n 0 half_n half_n
    let B21 ← Matrix.view B 0 half_n half_n half_n
    let B22 ← Matrix.view B half_n half_n half_n half_n
    let P1 ← Matrix.sub B12 B22
    let P2 ← Matrix.add A11 A12
    let P3 ← Matrix.add A21 A22
    let P4 ← Matrix.sub B21 B11
    let P51 ← Matrix.add A11 A22
    let P52 ← Matrix.add B11 B22
    let P61 ← Matrix.sub A12 A22
    let P62 ← Matrix.add B21 B22
    let P71 ← Matrix.sub A11 A21
    let P72 ← Matrix.add B11 B12
    rec A11 P1 P1
    rec P2 B22 P2
    rec P3 B11 P3
    rec A22 P4 P4
    rec P51 P52 P52
    rec P61 P62 P62
    rec P71 P72 P72
    strassen_merge C half_n P1 P2 P3 P4 P52 P62 P72

/-- Line 152: the base case as `matmul_strassen` calls it. -/
def plain_base (A B C : Matrix) : Exec Unit :=
  _strassen_2x2 A.data A.stride B.data B.stride C.data C.stride

/-- The recursion over `strassen_body` for a given base case. -/
def strassen_gen (base : Matrix → Matrix → Matrix → Exec Unit) :
    Nat → Matrix → Matrix → Matrix → Exec Unit
  | 0 => fun _ _ _ => fail .fuel
  | fuel + 1 => strassen_body base (strassen_gen base fuel)

/-- The element offsets that `_strassen_2x2` accesses from a base pointer with row stride
`s` (lines 129-140). -/
def raw_offsets (s : Nat) : List Nat := [0, 1, s, s + 1]

/-- The offset `k` from `M.data()` is the offset of an element of `M`. -/
def Matrix.holds (M : Matrix) (k : Nat) : Bool :=
  (List.range M.rows).any fun i => (List.range M.cols).any fun j => k == i * M.stride + j

/-- Line 152 with every raw access checked: the call stops with an index error unless all
offsets that `_strassen_2x2` accesses lie inside the matrix they are taken from. -/
def guarded_base (A B C : Matrix) : Exec Unit := do
  assert ((raw_offsets A.stride).all A.holds && (raw_offsets B.stride).all B.holds &&
    (raw_offsets C.stride).all C.holds) .indexOutOfRange
  _strassen_2x2 A.data A.stride B.data B.stride C.data C.stride

/-- The recursion of `matmul_strassen` with the raw accesses of its base case checked. -/
def matmul_strassen_checked : Nat → Matrix → Matrix → Matrix → Exec Unit :=
  strassen_gen guarded_base

/-- A grid of element values. -/
def Vals : Type := Nat → Nat → Int

/-- The recursive step on values: with `F` the result of a recursive call as a function of
the values of its two operands, the values the merge loops store, from the values `a`, `b`
of the operands of side `2 * m`.  The quadrants are the views of lines 158-166:
`a12 i j = a (i + m) j`, `a21 i j = a i (j + m)`. -/
def strassen_combine (m : Nat) (F : Vals → Vals → Vals) (a b : Vals) : Vals :=
  let a11 : Vals := fun i j => a i j
  let a12 : Vals := fun i j => a (i + m) j
  let a21 : Vals := fun i j => a i (j + m)
  let a22 : Vals := fun i j => a (i + m) (j + m)
  let b11 : Vals := fun i j => b i j
  let b12 : Vals := fun i j => b (i + m) j
  let b21 : Vals := fun i j => b i (j + m)
  let b22 : Vals := fun i j => b (i + m) (j + m)
  let p1 := F a11 (fun i j => b12 i j - b22 i j)
  let p2 := F (fun i j => a11 i j + a12 i j) b22
  let p3 := F (fun i j => a21 i j + a22 i j) b11
  let p4 := F a22 (fun i j => b21 i j - b11 i j)
  let p52 := F (fun i j => a11 i j + a22 i j) (fun i j => b11 i j + b22 i j)
  let p62 := F (fun i j => a12 i j - a22 i j) (fun i j => b21 i j + b22 i j)
  let p72 := F (fun i j => a11 i j - a21 i j) (fun i j => b11 i j + b12 i j)
  fun i j =>
    if i < m then
      if j < m then p52 i j + p4 i j - p2 i j + p62 i j
      else p1 i (j - m) + p2 i (j - m)
    else
      if j < m then p3 (i - m) j + p4 (i - m) j
      else p1 (i - m) (j - m) + p52 (i - m) (j - m) - p3 (i - m) (j - m) - p72 (i - m) (j - m)

/-- The values `_strassen_2x2` stores: the 2x2 product. -/
def base_val (a b : Vals) : Vals := fun i j => a i 0 * b 0 j + a i 1 * b 1 j

/-- The values `matmul_strassen` stores for operands of side `2 ^ (k + 1)`. -/
def strassen_val : Nat → Vals → Vals → Vals
  | 0 => base_val
  | k + 1 => strassen_combine (2 ^ (k + 1)) (strassen_val k)

/-- The exact product of two grids of side `m`. -/
def mat_prod (m : Nat) (a b : Vals) : Vals := fun i j => ∑ k in Finset.range m, a i k * b k j

/-- The contract of a multiplication `rec` on square operands of side `m`, the output `Z`
possibly being one of the operands: the call returns, `Z` holds `F` of the values the
operands had before the call, and of the cells that existed before the call only those of
`Z` may have changed. -/
def RecSpec (rec : Matrix → Matrix → Matrix → Exec Unit) (F : Vals → Vals → Vals)
    (m : Nat) : Prop :=
  ∀ (X Y Z : Matrix) (h : Heap), X.rows = m → X.cols = m → Y.rows = m → Y.cols = m →
    Z.rows = m → Z.cols = m → Z.cols ≤ Z.stride → X.buf < h.next → Y.buf < h.next →
    Z.buf < h.next →
    ∃ h1, rec X Y Z h = (.ok (), h1) ∧ h.next ≤ h1.next ∧
      (∀ i j, i < m → j < m → Z.get h1 i j = F (X.get h) (Y.get h) i j) ∧
      (∀ b o, b < h.next → ¬ Z.covers b o → h1.cell b o = h.cell b o)

/-- The result `F a b` on the square of side `m` depends only on the values of `a` and `b`
on that square. -/
def LocalOn (F : Vals → Vals → Vals) (m : Nat) : Prop :=
  ∀ (a a1 b b1 : Vals), (∀ i j, i < m → j < m → a i j = a1 i j) →
    (∀ i j, i < m → j < m → b i j = b1 i j) →
    ∀ i j, i < m → j < m → F a b i j = F a1 b1 i j

/-- The heap after the allocation of an owning `rows x cols` matrix with elements `f`. -/
def Heap.allocd (h : Heap) (rows cols : Nat) (f : Nat → Nat → Int) : Heap :=
  { cell := fun b o =>
      if b = h.next then (if o < rows * cols then f (o / cols) (o % cols) else h.cell b o)
      else h.cell b o,
    next := h.next + 1 }

/-- `P` is an auxiliary matrix of side `m` stored in another buffer than `C`. -/
def AuxOf (C : Matrix) (m : Nat) (P : Matrix) : Prop :=
  P.rows = m ∧ P.cols = m ∧ P.buf ≠ C.buf

/-- Heap `g1` keeps every cell of the buffers below `lim` as it is in `g`. -/
def KeepsBelow (lim : Nat) (g g1 : Heap) : Prop :=
  ∀ b o, b < lim → g1.cell b o = g.cell b o

/-- Heap `g1` keeps every cell of the buffers that exist in `g`, except those of buffer
`z`. -/
def OnlyBuf (z : Nat) (g g1 : Heap) : Prop :=
  ∀ b o, b < g.next → b ≠ z → g1.cell b o = g.cell b o

/-- `M` is a square matrix of side `m`. -/
def Square (m : Nat) (M : Matrix) : Prop := M.rows = m ∧ M.cols = m

/-- The cell of `C` that iteration `(i, j)` of the merge loop number `q` writes
(lines 195, 201, 207, 213). -/
def merge_target (half_n q i j : Nat) : Nat × Nat :=
  match q with
  | 0 => (i, j)
  | 1 => (i, j + half_n)
  | 2 => (i + half_n, j)
  | _ => (i + half_n, j + half_n)

/-! ## Execution lemmas -/

@[simp] theorem pure_run {α : Type} (a : α) (h : Heap) :
    (pure a : Exec α) h = (.ok a, h) := rfl

@[simp] theorem Exec_pure_run {α : Type} (a : α) (h : Heap) :
    Exec.pure a h = (.ok a, h) := rfl

@[simp] theorem fail_run {α : Type} (e : Err) (h : Heap) :
    (fail e : Exec α) h = (.error e, h) := rfl

theorem bind_run {α β : Type} (x : Exec α) (f : α → Exec β) (h : Heap) :
    (x >>= f) h = match x h with
      | (.ok a, h1) => f a h1
      | (.error e, h1) => (.error e, h1) := rfl

theorem bind_ok {α β : Type} {x : Exec α} {f : α → Exec β} {h h1 : Heap} {a : α}
    (hx : x h = (.ok a, h1)) : (x >>= f) h = f a h1 := by
  rw [bind_run, hx]

theorem Exec_bind_ok {α β : Type} {x : Exec α} {f : α → Exec β} {h h1 : Heap} {a : α}
    (hx : x h = (.ok a, h1)) : Exec.bind x f h = f a h1 := by
  unfold Exec.bind; rw [hx]

theorem bind_error {α β : Type} {x : Exec α} {f : α → Exec β} {h h1 : Heap} {e : Err}
    (hx : x h = (.error e, h1)) : (x >>= f) h = (.error e, h1) := by
  rw [bind_run, hx]

@[simp] theorem assert_true_run (e : Err) (h : Heap) : assert true e h = (.ok (), h) := rfl

@[simp] theorem assert_false_run (e : Err) (h : Heap) :
    assert false e h = (.error e, h) := rfl

@[simp] theorem load_run (p : Ptr) (k : Nat) (h : Heap) :
    p.load k h = (.ok (h.cell p.buf (p.off + k)), h) := rfl

@[simp] theorem store_run (p : Ptr) (k : Nat) (v : Int) (h : Heap) :
    p.store k v h = (.ok (), h.set p.buf (p.off + k) v) := rfl

@[simp] theorem set_next (h : Heap) (b o : Nat) (v : Int) : (h.set b o v).next = h.next := rfl

theorem set_cell (h : Heap) (b o : Nat) (v : Int) (b1 o1 : Nat) :
    (h.set b o v).cell b1 o1 = if b1 = b ∧ o1 = o then v else h.cell b1 o1 := rfl

theorem forLoop_succ {α : Type} (n : Nat) (init : α) (body : Nat → α → Exec α) :
    forLoop (n + 1) init body = Exec.bind (forLoop n init body) (body n) := rfl

@[simp] theorem forLoop_zero {α : Type} (init : α) (body : Nat → α → Exec α) (h : Heap) :
    forLoop 0 init body h = (.ok init, h) := rfl

theorem forRange_succ (n : Nat) (body : Nat → Exec Unit) :
    forRange (n + 1) body = Exec.bind (forRange n body) (fun _ => body n) := rfl

@[simp] theorem forRange_zero (body : Nat → Exec Unit) (h : Heap) :
    forRange 0 body h = (.ok (), h) := rfl

theorem matmul_naive_unfold (A B C : Matrix) :
    matmul_naive A B C =
      Exec.bind (assert (shape_check A B C) .shapeMismatch)
        (fun _ => fillCells C (naive_dot A B) id) := rfl

theorem matmul_openmp_unfold (A B C : Matrix) :
    matmul_openmp A B C =
      Exec.bind (assert (shape_check A B C) .shapeMismatch)
        (fun _ => fillCells C (naive_dot A B) id) := rfl

theorem matmul_trans_unfold (A B C : Matrix) :
    matmul_trans A B C =
      Exec.bind (assert (shape_check A B C) .shapeMismatch)
        (fun _ => fillCells C (trans_dot A B) id) := rfl

theorem read_ok (M : Matrix) (i j : Nat) (h : Heap) (hi : i < M.rows) (hj : j < M.cols) :
    M.read i j h = (.ok (M.get h i j), h) := by
  simp [Matrix.read, hi, hj]

theorem write_ok (M : Matrix) (i j : Nat) (v : Int) (h : Heap) (hi : i < M.rows)
    (hj : j < M.cols) :
    M.write i j v h = (.ok (), h.set M.buf (M.base + i * M.stride + j) v) := by
  simp [Matrix.write, hi, hj]

/-- Two cells of a matrix whose stride is at least its column count have different
offsets. -/
theorem offset_inj (stride cols i j i1 j1 : Nat) (hs : cols ≤ stride) (hj : j < cols)
    (hj1 : j1 < cols) (he : i * stride + j = i1 * stride + j1) : i = i1 ∧ j = j1 := by
  have hpos : 0 < stride := by omega
  have h1 : (i * stride + j) / stride = i := by
    rw [Nat.mul_comm, Nat.mul_add_div hpos, Nat.div_eq_of_lt (by omega)]; simp
  have h2 : (i1 * stride + j1) / stride = i1 := by
    rw [Nat.mul_comm, Nat.mul_add_div hpos, Nat.div_eq_of_lt (by omega)]; simp
  have hi : i = i1 := by rw [← h1, ← h2, he]
  subst hi
  exact ⟨rfl, by omega⟩

/-- One row of `fillCells`. -/
theorem fillRow_spec {α : Type} (C : Matrix) (val : Nat → Exec α) (g : α → Int)
    (f : Nat → Int) (i : Nat) (hi : i < C.rows) (h1 : Heap)
    (hval : ∀ h2, (∀ b o, ¬ C.covers b o → h2.cell b o = h1.cell b o) → ∀ j, j < C.cols →
      ∃ a, val j h2 = (.ok a, h2) ∧ g a = f j) :
    ∀ m, m ≤ C.cols → ∃ h2,
      forRange m (fun j => do let v ← val j; C.write i j (g v)) h1 = (.ok (), h2) ∧
      h2.next = h1.next ∧
      (∀ j, j < m → C.get h2 i j = f j) ∧
      (∀ b o, ¬ (b = C.buf ∧ ∃ j, j < m ∧ o = C.base + i * C.stride + j) →
        h2.cell b o = h1.cell b o) := by
  intro m
  induction m with
  | zero =>
    intro _
    exact ⟨h1, rfl, rfl, fun j hj => absurd hj (Nat.not_lt_zero j), fun _ _ _ => rfl⟩
  | succ m ih =>
    intro hm
    obtain ⟨h2, hrun, hnext, hvals, hframe⟩ := ih (by omega)
    have hagree : ∀ b o, ¬ C.covers b o → h2.cell b o = h1.cell b o := fun b o hb =>
      hframe b o (fun hx => hb ⟨hx.1, by
        obtain ⟨j, hj, ho⟩ := hx.2
        exact ⟨i, j, hi, by omega, ho⟩⟩)
    obtain ⟨a, hva, hga⟩ := hval h2 hagree m (by omega)
    refine ⟨h2.set C.buf (C.base + i * C.stride + m) (g a), ?_, ?_, ?_, ?_⟩
    · rw [forRange_succ, Exec_bind_ok hrun, bind_ok hva, write_ok C i m (g a) h2 hi (by omega)]
    · simpa using hnext
    · intro j hj
      by_cases hjm : j = m
      · subst hjm
        simp [Matrix.get, set_cell, hga]
      · have hne : ¬ (C.base + i * C.stride + j = C.base + i * C.stride + m) := by omega
        have := hvals j (by omega)
        simpa [Matrix.get, set_cell, hne] using this
    · intro b o hno
      have h3 : ¬ (b = C.buf ∧ o = C.base + i * C.stride + m) :=
        fun hx => hno ⟨hx.1, m, by omega, hx.2⟩
      rw [set_cell, if_neg h3]
      exact hframe b o (fun hx => hno ⟨hx.1, by
        obtain ⟨j, hj, ho⟩ := hx.2
        exact ⟨j, by omega, ho⟩⟩)

/-- What `fillCells` leaves: every cell of `C` holds its value, nothing else changed. -/
theorem fillCells_spec {α : Type} (C : Matrix) (val : Nat → Nat → Exec α) (g : α → Int)
    (f : Nat → Nat → Int) (h : Heap) (hstride : C.cols ≤ C.stride)
    (hval : ∀ h1, (∀ b o, ¬ C.covers b o → h1.cell b o = h.cell b o) → ∀ i j, i < C.rows →
      j < C.cols → ∃ a, val i j h1 = (.ok a, h1) ∧ g a = f i j) :
    ∃ h1, fillCells C val g h = (.ok (), h1) ∧ h1.next = h.next ∧
      (∀ i j, i < C.rows → j < C.cols → C.get h1 i j = f i j) ∧
      (∀ b o, ¬ C.covers b o → h1.cell b o = h.cell b o) := by
  have key : ∀ r, r ≤ C.rows → ∃ h1,
      forRange r (fun i => forRange C.cols fun j => do
        let v ← val i j
        C.write i j (g v)) h = (.ok (), h1) ∧
      h1.next = h.next ∧
      (∀ i j, i < r → j < C.cols → C.get h1 i j = f i j) ∧
      (∀ b o, ¬ (b = C.buf ∧ ∃ i j, i < r ∧ j < C.cols ∧ o = C.base + i * C.stride + j) →
        h1.cell b o = h.cell b o) := by
    intro r
    induction r with
    | zero =>
      intro _
      exact ⟨h, rfl, rfl, fun i j hi => absurd hi (Nat.not_lt_zero i), fun _ _ _ => rfl⟩
    | succ r ih =>
      intro hr
      obtain ⟨h1, hrun, hnext, hvals, hframe⟩ := ih (by omega)
      have hagree : ∀ b o, ¬ C.covers b o → h1.cell b o = h.cell b o := fun b o hb =>
        hframe b o (fun hx => hb ⟨hx.1, by
          obtain ⟨i, j, hi, hj, ho⟩ := hx.2
          exact ⟨i, j, by omega, hj, ho⟩⟩)
      obtain ⟨h2, hrun2, hnext2, hvals2, hframe2⟩ :=
        fillRow_spec C (val r) g (f r) r (by omega) h1
          (fun h2 hag j hj => hval h2 (fun b o hb => (hag b o hb).trans (hagree b o hb))
            r j (by omega) hj) C.cols (le_refl _)
      refine ⟨h2, ?_, hnext2.trans hnext, ?_, ?_⟩
      · rw [forRange_succ, Exec_bind_ok hrun]
        exact hrun2
      · intro i j hi hj
        by_cases hir : i = r
        · subst hir
          exact hvals2 j hj
        · have hlt : i < r := by omega
          have hkeep : h2.cell C.buf (C.base + i * C.stride + j) =
              h1.cell C.buf (C.base + i * C.stride + j) := by
            apply hframe2
            rintro ⟨_, j1, hj1, ho⟩
            have := offset_inj C.stride C.cols i j r j1 hstride hj hj1 (by omega)
            omega
          simpa [Matrix.get, hkeep] using hvals i j hlt hj
      · intro b o hno
        rw [hframe2 b o (fun hx => hno ⟨hx.1, by
          obtain ⟨j, hj, ho⟩ := hx.2
          exact ⟨r, j, by omega, hj, ho⟩⟩)]
        exact hframe b o (fun hx => hno ⟨hx.1, by
          obtain ⟨i, j, hi, hj, ho⟩ := hx.2
          exact ⟨i, j, by omega, hj, ho⟩⟩)
  obtain ⟨h1, hrun, hnext, hvals, hframe⟩ := key C.rows (le_refl _)
  exact ⟨h1, hrun, hnext, hvals, fun b o hno => hframe b o (fun hx => hno hx)⟩

/-- A loop whose body never fails never fails. -/
theorem forLoop_total {α : Type} (n : Nat) (init : α) (body : Nat → α → Exec α)
    (hb : ∀ k, k < n → ∀ acc h, ∃ a h1, body k acc h = (.ok a, h1)) :
    ∀ h, ∃ a h1, forLoop n init body h = (.ok a, h1) := by
  induction n with
  | zero => exact fun h => ⟨init, h, rfl⟩
  | succ n ih =>
    intro h
    obtain ⟨a, h1, hrun⟩ := ih (fun k hk => hb k (by omega)) h
    obtain ⟨a2, h2, hrun2⟩ := hb n (by omega) a h1
    exact ⟨a2, h2, by rw [forLoop_succ, Exec_bind_ok hrun, hrun2]⟩

/-- The loop nest never fails when the cell computations never fail. -/
theorem fillCells_total {α : Type} (C : Matrix) (val : Nat → Nat → Exec α) (g : α → Int)
    (hval : ∀ i j, i < C.rows → j < C.cols → ∀ h, ∃ a h1, val i j h = (.ok a, h1)) :
    ∀ h, ∃ h1, fillCells C val g h = (.ok (), h1) := by
  intro h
  have hrow : ∀ i, i < C.rows → ∀ (u : Unit) h, ∃ (a : Unit) (h1 : Heap),
      (fun i (_ : Unit) => forRange C.cols fun j => do
        let v ← val i j
        C.write i j (g v)) i u h = (.ok a, h1) := by
    intro i hi _ h
    apply forLoop_total
    intro j hj _ h2
    obtain ⟨a, h3, hrun⟩ := hval i j hi hj h2
    refine ⟨(), h3.set C.buf (C.base + i * C.stride + j) (g a), ?_⟩
    show (val i j >>= fun v => C.write i j (g v)) h2 = _
    rw [bind_ok hrun, write_ok C i j (g a) h3 hi hj]
  obtain ⟨_, h1, hrun⟩ := forLoop_total C.rows () _ hrow h
  exact ⟨h1, hrun⟩

/-- The inner loop of the naive strategy reads only and returns the dot product. -/
theorem naive_dot_run (A B : Matrix) (i j : Nat) (h : Heap) (hi : i < A.rows)
    (hj : j < B.cols) (hk : A.cols ≤ B.rows) :
    naive_dot A B i j h =
      (.ok (∑ k in Finset.range A.cols, A.get h i k * B.get h k j), h) := by
  have key : ∀ n, n ≤ A.cols →
      forLoop n (0 : Int) (fun k tmp => do
        let a ← A.read i k
        let b ← B.read k j
        pure (tmp + a * b)) h =
      (.ok (∑ k in Finset.range n, A.get h i k * B.get h k j), h) := by
    intro n
    induction n with
    | zero => intro _; rfl
    | succ n ih =>
      intro hn
      rw [forLoop_succ, Exec_bind_ok (ih (by omega)), bind_ok (read_ok A i n h hi (by omega)),
        bind_ok (read_ok B n j h (by omega) hj), Finset.sum_range_succ]
      rfl
  exact key A.cols (le_refl _)

/-- The inner loop of the transposed strategy reads only and returns the dot product of
two rows. -/
theorem trans_dot_run (A B : Matrix) (i j : Nat) (h : Heap) (hi : i < A.rows)
    (hj : j < B.rows) (hk : A.cols ≤ B.cols) :
    trans_dot A B i j h =
      (.ok (∑ k in Finset.range A.cols, A.get h i k * B.get h j k), h) := by
  have key : ∀ n, n ≤ A.cols →
      forLoop n (0 : Int) (fun k tmp => do
        let a ← A.read i k
        let b ← B.read j k
        pure (tmp + a * b)) h =
      (.ok (∑ k in Finset.range n, A.get h i k * B.get h j k), h) := by
    intro n
    induction n with
    | zero => intro _; rfl
    | succ n ih =>
      intro hn
      rw [forLoop_succ, Exec_bind_ok (ih (by omega)), bind_ok (read_ok A i n h hi (by omega)),
        bind_ok (read_ok B j n h hj (by omega)), Finset.sum_range_succ]
      rfl
  exact key A.cols (le_refl _)

theorem shape_check_iff (A B C : Matrix) :
    shape_check A B C = true ↔ (A.rows = C.rows ∧ A.cols = B.rows ∧ B.cols = C.cols) := by
  simp [shape_check, and_assoc]

/-- A cell in another buffer reads the same in two heaps that agree off `C`. -/
theorem get_agree (M C : Matrix) (h h1 : Heap) (hM : M.buf ≠ C.buf)
    (hag : ∀ b o, ¬ C.covers b o → h1.cell b o = h.cell b o) (i j : Nat) :
    M.get h1 i j = M.get h i j := hag _ _ (fun hx => hM hx.1)

/-- An element of a matrix disjoint from `C` reads the same in two heaps that agree off
`C`. -/
theorem get_agree_disjoint (M C : Matrix) (h h1 : Heap) (hM : M.disjoint C)
    (hag : ∀ b o, ¬ C.covers b o → h1.cell b o = h.cell b o) (i j : Nat) (hi : i < M.rows)
    (hj : j < M.cols) : M.get h1 i j = M.get h i j :=
  hag _ _ (hM _ _ ⟨rfl, i, j, hi, hj, rfl⟩)

/-- Matrices in different buffers are disjoint. -/
theorem disjoint_of_buf_ne (M C : Matrix) (hM : M.buf ≠ C.buf) : M.disjoint C :=
  fun _ _ hm hc => hM (hm.1.symm.trans hc.1)

/-- C2, amended: with exact arithmetic (no overflow, no rounding), for all `A` (m x n),
`B` (n x p) and `C` (m x p), `C` a well-formed matrix (stride at least its column count)
sharing no element with `A` or `B`, `matmul_naive` returns without error, so every checked
access was inside the declared shapes; afterwards every cell `C[i][j]` holds the sum over
`k < n` of `A[i][k] * B[k][j]` on the values before the call (the empty sum 0 when
`n = 0`), and no heap cell outside the declared shape of `C` has changed. -/
theorem matmul_naive_correct (A B C : Matrix) (h : Heap)
    (hshape : A.rows = C.rows ∧ A.cols = B.rows ∧ B.cols = C.cols)
    (hstride : C.cols ≤ C.stride) (hA : A.disjoint C) (hB : B.disjoint C) :
    ∃ h1, matmul_naive A B C h = (.ok (), h1) ∧
      (∀ i j, i < C.rows → j < C.cols →
        C.get h1 i j = ∑ k in Finset.range A.cols, A.get h i k * B.get h k j) ∧
      (∀ b o, ¬ C.covers b o → h1.cell b o = h.cell b o) ∧ h1.next = h.next := by
  obtain ⟨hr, hk, hc⟩ := hshape
  obtain ⟨h1, hrun, hnext, hvals, hframe⟩ :=
    fillCells_spec C (naive_dot A B) id
      (fun i j => ∑ k in Finset.range A.cols, A.get h i k * B.get h k j) h hstride
      (fun h1 hag i j hi hj => ⟨_, naive_dot_run A B i j h1 (by omega) (by omega) (by omega), by
        simp only [id]
        exact Finset.sum_congr rfl (fun k hk => by
          have hkn := Finset.mem_range.1 hk
          rw [get_agree_disjoint A C h h1 hA hag i k (by omega) hkn,
            get_agree_disjoint B C h h1 hB hag k j (by omega) (by omega)])⟩)
  refine ⟨h1, ?_, hvals, hframe, hnext⟩
  rw [matmul_naive_unfold, (shape_check_iff A B C).2 ⟨hr, hk, hc⟩]
  exact hrun

/-- The guarded loop nest of the naive strategies: it fails exactly when the shape assertion
fails, and then with the heap untouched. -/
theorem guarded_naive_run (A B C : Matrix) (h : Heap) :
    (shape_check A B C = true →
      ∃ h1, Exec.bind (assert (shape_check A B C) .shapeMismatch)
        (fun _ => fillCells C (naive_dot A B) id) h = (.ok (), h1)) ∧
    (shape_check A B C = false →
      Exec.bind (assert (shape_check A B C) .shapeMismatch)
        (fun _ => fillCells C (naive_dot A B) id) h = (.error .shapeMismatch, h)) := by
  constructor
  · intro hs
    obtain ⟨hr, hk, hc⟩ := (shape_check_iff A B C).1 hs
    obtain ⟨h1, hrun⟩ := fillCells_total C (naive_dot A B) id
      (fun i j hi hj h2 => ⟨_, h2, naive_dot_run A B i j h2 (by omega) (by omega) (by omega)⟩) h
    exact ⟨h1, by rw [hs]; exact hrun⟩
  · intro hs
    rw [hs]
    rfl

/-- C4: for 2x2 operands addressed through base pointers `a`, `b` with any row strides,
and an output addressed through `c` with row stride at least 2 (the stride of a 2x2
matrix is at least its column count), `_strassen_2x2` returns and leaves in `c[0]`, `c[1]`,
`c[stride_c]`, `c[stride_c+1]` the four entries of the 2x2 product of the operands as they
were before the call; no other cell of any buffer changes. -/
theorem strassen_2x2_correct (h : Heap) (a b c : Ptr) (stride_a stride_b stride_c : Nat)
    (hc : 2 ≤ stride_c) :
    let a00 := h.cell a.buf a.off
    let a01 := h.cell a.buf (a.off + 1)
    let a10 := h.cell a.buf (a.off + stride_a)
    let a11 := h.cell a.buf (a.off + (stride_a + 1))
    let b00 := h.cell b.buf b.off
    let b01 := h.cell b.buf (b.off + 1)
    let b10 := h.cell b.buf (b.off + stride_b)
    let b11 := h.cell b.buf (b.off + (stride_b + 1))
    let r := _strassen_2x2 a stride_a b stride_b c stride_c h
    r.1 = .ok () ∧
    r.2.cell c.buf c.off = a00 * b00 + a01 * b10 ∧
    r.2.cell c.buf (c.off + 1) = a00 * b01 + a01 * b11 ∧
    r.2.cell c.buf (c.off + stride_c) = a10 * b00 + a11 * b10 ∧
    r.2.cell c.buf (c.off + (stride_c + 1)) = a10 * b01 + a11 * b11 ∧
    (∀ bf o, ¬ (bf = c.buf ∧ (o = c.off ∨ o = c.off + 1 ∨ o = c.off + stride_c ∨
        o = c.off + (stride_c + 1))) → r.2.cell bf o = h.cell bf o) ∧
    r.2.next = h.next := by
  simp only [_strassen_2x2, bind_run, load_run, store_run, pure_run, set_cell, set_next,
    Nat.add_zero]
  have e1 : ¬ (c.off = c.off + (stride_c + 1)) := by omega
  have e2 : ¬ (c.off = c.off + stride_c) := by omega
  have e3 : ¬ (c.off = c.off + 1) := by omega
  have e4 : ¬ (c.off + 1 = c.off + (stride_c + 1)) := by omega
  have e5 : ¬ (c.off + 1 = c.off + stride_c) := by omega
  have e6 : ¬ (c.off + stride_c = c.off + (stride_c + 1)) := by omega
  refine ⟨trivial, ?_, ?_, ?_, ?_, ?_, trivial⟩
  · simp only [e1, e2, e3, and_false, and_true, if_false, if_true]; ring
  · simp only [e4, e5, and_false, and_true, if_false, if_true]; ring
  · simp only [e6, and_false, and_true, if_false, if_true]; ring
  · simp only [and_true, if_true]; ring
  · intro bf o hne
    have hne2 : ¬ (bf = c.buf ∧ o = c.off + (stride_c + 1)) := fun hx => hne ⟨hx.1, by simp [hx.2]⟩
    have hne3 : ¬ (bf = c.buf ∧ o = c.off + stride_c) := fun hx => hne ⟨hx.1, by simp [hx.2]⟩
    have hne4 : ¬ (bf = c.buf ∧ o = c.off + 1) := fun hx => hne ⟨hx.1, by simp [hx.2]⟩
    have hne5 : ¬ (bf = c.buf ∧ o = c.off) := fun hx => hne ⟨hx.1, by simp [hx.2]⟩
    simp only [hne2, hne3, hne4, hne5, if_false]

/-- Witness of C4: `[[1,2],[3,4]] * [[5,6],[7,8]] = [[19,22],[43,50]]`. -/
theorem strassen_2x2_witness :
    (2 ≤ 2) ∧
    (_strassen_2x2 ⟨0, 0⟩ 2 ⟨1, 0⟩ 2 ⟨2, 0⟩ 2
        (Heap.ofLists [[1, 2, 3, 4], [5, 6, 7, 8], [0, 0, 0, 0]])).1 = .ok () ∧
    (_strassen_2x2 ⟨0, 0⟩ 2 ⟨1, 0⟩ 2 ⟨2, 0⟩ 2
        (Heap.ofLists [[1, 2, 3, 4], [5, 6, 7, 8], [0, 0, 0, 0]])).2.cell 2 0 = 19 ∧
    (_strassen_2x2 ⟨0, 0⟩ 2 ⟨1, 0⟩ 2 ⟨2, 0⟩ 2
        (Heap.ofLists [[1, 2, 3, 4], [5, 6, 7, 8], [0, 0, 0, 0]])).2.cell 2 1 = 22 ∧
    (_strassen_2x2 ⟨0, 0⟩ 2 ⟨1, 0⟩ 2 ⟨2, 0⟩ 2
        (Heap.ofLists [[1, 2, 3, 4], [5, 6, 7, 8], [0, 0, 0, 0]])).2.cell 2 2 = 43 ∧
    (_strassen_2x2 ⟨0, 0⟩ 2 ⟨1, 0⟩ 2 ⟨2, 0⟩ 2
        (Heap.ofLists [[1, 2, 3, 4], [5, 6, 7, 8], [0, 0, 0, 0]])).2.cell 2 3 = 50 :=
  have w := strassen_2x2_correct (Heap.ofLists [[1, 2, 3, 4], [5, 6, 7, 8], [0, 0, 0, 0]])
    ⟨0, 0⟩ ⟨1, 0⟩ ⟨2, 0⟩ 2 2 2 (by decide)
  ⟨by decide, w.1, w.2.1, w.2.2.1, w.2.2.2.1, w.2.2.2.2.1⟩

/-- Witness of C2: a 2x3 by 3x2 product. -/
theorem matmul_naive_witness :
    ∃ h1, matmul_naive (Matrix.dense 0 2 3) (Matrix.dense 1 3 2) (Matrix.dense 2 2 2)
        (Heap.ofLists [[1, 2, 3, 4, 5, 6], [1, 0, 0, 1, 1, 1], [9, 9, 9, 9]]) = (.ok (), h1) ∧
      (Matrix.dense 2 2 2).get h1 0 0 = 4 ∧ (Matrix.dense 2 2 2).get h1 0 1 = 5 ∧
      (Matrix.dense 2 2 2).get h1 1 0 = 10 ∧ (Matrix.dense 2 2 2).get h1 1 1 = 11 := by
  obtain ⟨h1, hrun, hv, _, _⟩ := matmul_naive_correct (Matrix.dense 0 2 3) (Matrix.dense 1 3 2)
    (Matrix.dense 2 2 2) (Heap.ofLists [[1, 2, 3, 4, 5, 6], [1, 0, 0, 1, 1, 1], [9, 9, 9, 9]])
    ⟨rfl, rfl, rfl⟩ (le_refl _) (disjoint_of_buf_ne _ _ (by decide))
    (disjoint_of_buf_ne _ _ (by decide))
  exact ⟨h1, hrun, by rw [hv 0 0 (by decide) (by decide)]; rfl,
    by rw [hv 0 1 (by decide) (by decide)]; rfl,
    by rw [hv 1 0 (by decide) (by decide)]; rfl,
    by rw [hv 1 1 (by decide) (by decide)]; rfl⟩

/-- Counterexample to C2 as stated, which speaks of all matrices and of every element type.
(1) `matmul_naive(A, B, A)` with `A` and `B` 2x2 of ones returns with `A[0][1] = 3`, while
the sum over `k < 2` of `A[0][k] * B[k][1]` is 2 on the values before the call and 5 on the
values after it.  (2) `matmul_naive(A, B, B)` on the same operands returns with
`B[1][0] = 3`, while the sum for cell `(1, 0)` is 2 before the call and 5 after it.
(3) At `Dtype = int`, `A = [[50000, 50000]]` and `B = [[50000], [50000]]`: the call stores
`C[0][0] = 705032704`, the sum wrapped to 32 bits, while the sum of the two products is
5000000000, which no 32-bit `int` holds. -/
theorem naive_claim_fails_aliased_or_int32 :
    ((matmul_naive (Matrix.dense 0 2 2) (Matrix.dense 1 2 2) (Matrix.dense 0 2 2)
        (Heap.ofLists [[1, 1, 1, 1], [1, 1, 1, 1]])).1 = .ok () ∧
      (Matrix.dense 0 2 2).get
        (matmul_naive (Matrix.dense 0 2 2) (Matrix.dense 1 2 2) (Matrix.dense 0 2 2)
          (Heap.ofLists [[1, 1, 1, 1], [1, 1, 1, 1]])).2 0 1 = 3 ∧
      (∑ k in Finset.range 2,
        (Matrix.dense 0 2 2).get (Heap.ofLists [[1, 1, 1, 1], [1, 1, 1, 1]]) 0 k *
        (Matrix.dense 1 2 2).get (Heap.ofLists [[1, 1, 1, 1], [1, 1, 1, 1]]) k 1) = 2 ∧
      (∑ k in Finset.range 2,
        (Matrix.dense 0 2 2).get
          (matmul_naive (Matrix.dense 0 2 2) (Matrix.dense 1 2 2) (Matrix.dense 0 2 2)
            (Heap.ofLists [[1, 1, 1, 1], [1, 1, 1, 1]])).2 0 k *
        (Matrix.dense 1 2 2).get
          (matmul_naive (Matrix.dense 0 2 2) (Matrix.dense 1 2 2) (Matrix.dense 0 2 2)
            (Heap.ofLists [[1, 1, 1, 1], [1, 1, 1, 1]])).2 k 1) = 5) ∧
    ((matmul_naive (Matrix.dense 0 2 2) (Matrix.dense 1 2 2) (Matrix.dense 1 2 2)
        (Heap.ofLists [[1, 1, 1, 1], [1, 1, 1, 1]])).1 = .ok () ∧
      (Matrix.dense 1 2 2).get
        (matmul_naive (Matrix.dense 0 2 2) (Matrix.dense 1 2 2) (Matrix.dense 1 2 2)
          (Heap.ofLists [[1, 1, 1, 1], [1, 1, 1, 1]])).2 1 0 = 3 ∧
      (∑ k in Finset.range 2,
        (Matrix.dense 0 2 2).get (Heap.ofLists [[1, 1, 1, 1], [1, 1, 1, 1]]) 1 k *
        (Matrix.dense 1 2 2).get (Heap.ofLists [[1, 1, 1, 1], [1, 1, 1, 1]]) k 0) = 2 ∧
      (∑ k in Finset.range 2,
        (Matrix.dense 0 2 2).get
          (matmul_naive (Matrix.dense 0 2 2) (Matrix.dense 1 2 2) (Matrix.dense 1 2 2)
            (Heap.ofLists [[1, 1, 1, 1], [1, 1, 1, 1]])).2 1 k *
        (Matrix.dense 1 2 2).get
          (matmul_naive (Matrix.dense 0 2 2) (Matrix.dense 1 2 2) (Matrix.dense 1 2 2)
            (Heap.ofLists [[1, 1, 1, 1], [1, 1, 1, 1]])).2 k 0) = 5) ∧
    ((matmul_naive_int32 (Matrix.dense 0 1 2) (Matrix.dense 1 2 1) (Matrix.dense 2 1 1)
        (Heap.ofLists [[50000, 50000], [50000, 50000], [0]])).1 = .ok () ∧
      (Matrix.dense 2 1 1).get
        (matmul_naive_int32 (Matrix.dense 0 1 2) (Matrix.dense 1 2 1) (Matrix.dense 2 1 1)
          (Heap.ofLists [[50000, 50000], [50000, 50000], [0]])).2 0 0 = 705032704 ∧
      (∑ k in Finset.range 2,
        (Matrix.dense 0 1 2).get (Heap.ofLists [[50000, 50000], [50000, 50000], [0]]) 0 k *
        (Matrix.dense 1 2 1).get (Heap.ofLists [[50000, 50000], [50000, 50000], [0]]) k 0)
        = 5000000000 ∧
      wrap32 5000000000 = 705032704 ∧ (2147483647 : Int) < 5000000000) := by
  refine ⟨⟨by decide!, by decide!, by decide!, by decide!⟩,
    ⟨by decide!, by decide!, by decide!, by decide!⟩,
    by decide!, by decide!, by decide!, by decide!, by decide!⟩

/-- C9: `matmul_naive` and `matmul_openmp` (its loop read sequentially) end in an error if
and only if the shapes violate `A.rows == C.rows`, `A.cols == B.rows`, `B.cols == C.cols`;
the error is then the shape error and the heap, hence every cell of `C`, is as it was
before the call. -/
theorem naive_openmp_fail_iff (A B C : Matrix) (h : Heap) :
    ((∃ e, (matmul_naive A B C h).1 = .error e) ↔
      ¬ (A.rows = C.rows ∧ A.cols = B.rows ∧ B.cols = C.cols)) ∧
    ((∃ e, (matmul_naive A B C h).1 = .error e) →
      matmul_naive A B C h = (.error .shapeMismatch, h)) ∧
    ((∃ e, (matmul_openmp A B C h).1 = .error e) ↔
      ¬ (A.rows = C.rows ∧ A.cols = B.rows ∧ B.cols = C.cols)) ∧
    ((∃ e, (matmul_openmp A B C h).1 = .error e) →
      matmul_openmp A B C h = (.error .shapeMismatch, h)) := by
  rw [matmul_naive_unfold, matmul_openmp_unfold, ← shape_check_iff]
  obtain ⟨hok, hbad⟩ := guarded_naive_run A B C h
  have hiff : (∃ e, (Exec.bind (assert (shape_check A B C) .shapeMismatch)
      (fun _ => fillCells C (naive_dot A B) id) h).1 = .error e) ↔
      ¬ (shape_check A B C = true) := by
    constructor
    · rintro ⟨e, he⟩ hs
      obtain ⟨h1, hrun⟩ := hok hs
      rw [hrun] at he
      cases he
    · intro hs
      exact ⟨.shapeMismatch, by rw [hbad (by simpa using hs)]⟩
  have hkeep : (∃ e, (Exec.bind (assert (shape_check A B C) .shapeMismatch)
      (fun _ => fillCells C (naive_dot A B) id) h).1 = .error e) →
      Exec.bind (assert (shape_check A B C) .shapeMismatch)
        (fun _ => fillCells C (naive_dot A B) id) h = (.error .shapeMismatch, h) :=
    fun he => hbad (by simpa using hiff.1 he)
  exact ⟨hiff, hkeep, hiff, hkeep⟩

/-- C3: on `A` = [[1,2]] (1x2) and the non-square `B` = [[3],[4]] (2x1), `matmul_naive`
returns and stores `1*3 + 2*4 = 11`, while `matmul_trans`, given the transpose
`Bt` = [[3,4]] (1x2), stops at its assertion (`A.cols = 2`, `Bt.rows = 1`) and leaves the
heap as it was. -/
theorem matmul_trans_rejects_nonsquare :
    matmul_trans (Matrix.dense 0 1 2) (Matrix.dense 2 1 2) (Matrix.dense 3 1 1)
        (Heap.ofLists [[1, 2], [3, 4], [3, 4], [0]]) =
      (.error .shapeMismatch, Heap.ofLists [[1, 2], [3, 4], [3, 4], [0]]) ∧
    (matmul_naive (Matrix.dense 0 1 2) (Matrix.dense 1 2 1) (Matrix.dense 3 1 1)
        (Heap.ofLists [[1, 2], [3, 4], [3, 4], [0]])).1 = .ok () ∧
    (Matrix.dense 3 1 1).get
      (matmul_naive (Matrix.dense 0 1 2) (Matrix.dense 1 2 1) (Matrix.dense 3 1 1)
        (Heap.ofLists [[1, 2], [3, 4], [3, 4], [0]])).2 0 0 = 11 :=
  ⟨rfl, rfl, by decide⟩

/-! ## The recursive strategy on concrete inputs -/

theorem pow2_check_zero : pow2_check 0 = true := by decide!

theorem pow2_check_one : pow2_check 1 = true := by decide

/-- The bit trick on positive numbers: `(m + 1) & m` is zero exactly for powers of two. -/
theorem land_succ_self_iff (m : Nat) : (m + 1) &&& m = 0 ↔ ∃ k, m + 1 = 2 ^ k := by
  induction m using Nat.strong_induction_on with
  | _ m ih =>
    rcases Nat.even_or_odd' m with ⟨q, rfl | rfl⟩
    · have key : Nat.bit true q &&& Nat.bit false q = Nat.bit false (q &&& q) :=
        Nat.land_bit true q false q
      simp only [Nat.bit_val, Bool.toNat_true, Bool.toNat_false, Nat.add_zero,
        Nat.and_self] at key
      rw [key]
      constructor
      · intro h0
        exact ⟨0, by omega⟩
      · rintro ⟨k, hk⟩
        cases k with
        | zero => simp at hk; omega
        | succ k => rw [pow_succ] at hk; omega
    · have key : Nat.bit false (q + 1) &&& Nat.bit true q = Nat.bit false ((q + 1) &&& q) :=
        Nat.land_bit false (q + 1) true q
      simp only [Nat.bit_val, Bool.toNat_true, Bool.toNat_false, Nat.add_zero] at key
      have e : 2 * q + 1 + 1 = 2 * (q + 1) := by ring
      rw [e, key]
      have ihq := ih q (by omega)
      constructor
      · intro h0
        obtain ⟨k, hk⟩ := ihq.1 (by omega)
        exact ⟨k + 1, by rw [pow_succ]; omega⟩
      · rintro ⟨k, hk⟩
        cases k with
        | zero => simp at hk
        | succ k =>
          rw [pow_succ] at hk
          have := ihq.2 ⟨k, by omega⟩
          omega

/-- On a positive side the test of line 150 passes exactly for the powers of two. -/
theorem pow2_check_pos (n : Nat) (hn : 0 < n) : pow2_check n = true ↔ ∃ k, n = 2 ^ k := by
  obtain ⟨m, rfl⟩ : ∃ m, n = m + 1 := ⟨n - 1, by omega⟩
  have e : ((m + 1 : Nat) : Int) - 1 = (m : Int) := by push_cast; ring
  have e2 : Int.land ((m + 1 : Nat) : Int) (m : Int) = (((m + 1) &&& m : Nat) : Int) := rfl
  rw [← land_succ_self_iff]
  simp only [pow2_check, e, e2, beq_iff_eq]
  exact Int.natCast_eq_zero

/-- A square operand of side 0 or 1 passes both assertions and recurses on operands of
side 0 without end: whatever the fuel, the call is cut off. -/
theorem strassen_small_diverges : ∀ (fuel : Nat) (A B C : Matrix) (h : Heap),
    A.rows = A.cols → A.rows < 2 → (matmul_strassen fuel A B C h).1 = .error .fuel := by
  intro fuel
  induction fuel with
  | zero => intros; rfl
  | succ fuel ih =>
    intro A B C h hsq hlt
    have hp : pow2_check A.rows = true := by
      interval_cases hA : A.rows
      · exact pow2_check_zero
      · exact pow2_check_one
    have hhalf : A.rows >>> 1 = 0 := by
      interval_cases hA : A.rows <;> rfl
    have hne : A.rows ≠ 2 := by omega
    rw [matmul_strassen]
    simp only [← hsq, hp, hhalf, hne, beq_self_eq_true, bind_run, assert_true_run, if_false,
      Matrix.view, Nat.zero_add, Nat.add_zero, Nat.zero_le, and_self, if_true, Exec_pure_run,
      Matrix.sub, Matrix.add, Matrix.alloc]
    split
    · rename_i heq
      have h3 := congrArg Prod.fst heq
      rw [ih] at h3
      · cases h3
      · rfl
      · exact Nat.zero_lt_two
    · rename_i heq
      have h3 := congrArg Prod.fst heq
      rw [ih] at h3
      · exact h3.symm
      · rfl
      · exact Nat.zero_lt_two

/-- C1: on the 4x4 operands `A` (a single 1 at row 0, column 2) and `B` (the identity),
with views built from (parent, row-offset, col-offset, rows, cols), both strategies return,
`matmul_naive` leaves `C[0][2] = 1`, the sum over `k` of `A[0][k] * B[k][2]`, and
`matmul_strassen` leaves `C[0][2] = 0` (and the 1 in `C[2][0]`). -/
theorem strassen_differs_from_naive_4x4 :
    (matmul_strassen 2 (Matrix.dense 0 4 4) (Matrix.dense 1 4 4) (Matrix.dense 2 4 4)
      (Heap.ofLists [unit02, ident4, zeros16])).1 = .ok () ∧
    (matmul_naive (Matrix.dense 0 4 4) (Matrix.dense 1 4 4) (Matrix.dense 2 4 4)
      (Heap.ofLists [unit02, ident4, zeros16])).1 = .ok () ∧
    (Matrix.dense 2 4 4).get
      (matmul_naive (Matrix.dense 0 4 4) (Matrix.dense 1 4 4) (Matrix.dense 2 4 4)
        (Heap.ofLists [unit02, ident4, zeros16])).2 0 2 = 1 ∧
    (Matrix.dense 2 4 4).get
      (matmul_strassen 2 (Matrix.dense 0 4 4) (Matrix.dense 1 4 4) (Matrix.dense 2 4 4)
        (Heap.ofLists [unit02, ident4, zeros16])).2 0 2 = 0 ∧
    (Matrix.dense 2 4 4).get
      (matmul_strassen 2 (Matrix.dense 0 4 4) (Matrix.dense 1 4 4) (Matrix.dense 2 4 4)
        (Heap.ofLists [unit02, ident4, zeros16])).2 2 0 = 1 := by
  decide!

/-- C5: with `A` the 4x4 identity and `B` the 4x4 matrix with a single 1 at row 0,
column 2, `matmul_strassen` returns and leaves `C[0][2] = 0` and `C[2][0] = 1`, while
`B[0][2] = 1` and `B[2][0] = 0`. -/
theorem strassen_identity_4x4_not_B :
    (matmul_strassen 2 (Matrix.dense 0 4 4) (Matrix.dense 1 4 4) (Matrix.dense 2 4 4)
      (Heap.ofLists [ident4, unit02, zeros16])).1 = .ok () ∧
    (Matrix.dense 2 4 4).get
      (matmul_strassen 2 (Matrix.dense 0 4 4) (Matrix.dense 1 4 4) (Matrix.dense 2 4 4)
        (Heap.ofLists [ident4, unit02, zeros16])).2 0 2 = 0 ∧
    (Matrix.dense 1 4 4).get (Heap.ofLists [ident4, unit02, zeros16]) 0 2 = 1 ∧
    (Matrix.dense 2 4 4).get
      (matmul_strassen 2 (Matrix.dense 0 4 4) (Matrix.dense 1 4 4) (Matrix.dense 2 4 4)
        (Heap.ofLists [ident4, unit02, zeros16])).2 2 0 = 1 ∧
    (Matrix.dense 1 4 4).get (Heap.ofLists [ident4, unit02, zeros16]) 2 0 = 0 := by
  decide!

/-- C6: a 1x1 operand passes both assertions of `matmul_strassen` (`1 & 0 == 0`), and the
call never returns: the recursion goes to operands of side 0, never to the `n == 2` base
case, so for every amount of fuel the call is cut off. -/
theorem strassen_1x1_never_returns (fuel : Nat) :
    pow2_check 1 = true ∧
    (matmul_strassen fuel (Matrix.dense 0 1 1) (Matrix.dense 1 1 1) (Matrix.dense 2 1 1)
      (Heap.ofLists [[3], [5], [0]])).1 = .error .fuel :=
  ⟨pow2_check_one, strassen_small_diverges fuel _ _ _ _ rfl (by decide)⟩

/-- C7: the test `(n & n-1) == 0` of line 150 passes at `n = 0`, which is no power of two;
a 0x0 operand is therefore not rejected (the call recurses until it is cut off). -/
theorem pow2_check_accepts_zero (fuel : Nat) :
    pow2_check 0 = true ∧ (∀ k : Nat, (0 : Nat) ≠ 2 ^ k) ∧
    (matmul_strassen fuel (Matrix.dense 0 0 0) (Matrix.dense 1 0 0) (Matrix.dense 2 0 0)
      (Heap.ofLists [[], [], []])).1 = .error .fuel :=
  ⟨pow2_check_zero, fun k hk => absurd hk.symm (pow_ne_zero k (by decide)),
    strassen_small_diverges fuel _ _ _ _ rfl (by decide)⟩

/-! ## The SIMD strategies -/

theorem matmul_omp_sse_unfold (A Bt C : Matrix) :
    matmul_omp_sse A Bt C = fillCells C (simd_acc 4 A Bt) hsum4 := rfl

theorem matmul_omp_avx_unfold (A Bt C : Matrix) :
    matmul_omp_avx A Bt C = fillCells C (simd_acc 8 A Bt) hsum8 := rfl

theorem mm_load_ok (w : Nat) (p : Ptr) (off : Nat) (h : Heap) (hal : (p.off + off) % w = 0) :
    mm_load w p off h = (.ok (fun l => h.cell p.buf (p.off + off + l.val)), h) := by
  simp [mm_load, hal]

/-- The vector loop, all its loads aligned, reads only; lane `l` of its result is the sum
of the products at offsets `w * k + l` of the two rows. -/
theorem simd_acc_run (w : Nat) (A Bt : Matrix) (i j : Nat) (h : Heap)
    (hal : ∀ k, k < A.cols / w →
      (A.base + (i * A.cols + w * k)) % w = 0 ∧ (Bt.base + (j * Bt.cols + w * k)) % w = 0) :
    simd_acc w A Bt i j h =
      (.ok (fun l => ∑ k in Finset.range (A.cols / w),
        h.cell A.buf (A.base + (i * A.cols + w * k) + l.val) *
        h.cell Bt.buf (Bt.base + (j * Bt.cols + w * k) + l.val)), h) := by
  have key : ∀ n, n ≤ A.cols / w →
      forLoop n (mm_setzero w) (fun k partial_sum => do
        let a ← mm_load w A.data (i * A.cols + w * k)
        let b ← mm_load w Bt.data (j * Bt.cols + w * k)
        let c := mm_mul a b
        pure (mm_add partial_sum c)) h =
      (.ok (fun l => ∑ k in Finset.range n,
        h.cell A.buf (A.base + (i * A.cols + w * k) + l.val) *
        h.cell Bt.buf (Bt.base + (j * Bt.cols + w * k) + l.val)), h) := by
    intro n
    induction n with
    | zero => intro _; rfl
    | succ n ih =>
      intro hn
      obtain ⟨ha, hb⟩ := hal n (by omega)
      rw [forLoop_succ, Exec_bind_ok (ih (by omega)),
        bind_ok (mm_load_ok w A.data (i * A.cols + w * n) h ha),
        bind_ok (mm_load_ok w Bt.data (j * Bt.cols + w * n) h hb)]
      simp only [pure_run, Prod.mk.injEq, Except.ok.injEq, and_true]
      funext l
      rw [Finset.sum_range_succ]
      rfl
  exact key (A.cols / w) (le_refl _)

/-- Regrouping a sum over `4 * n` indices into four lanes. -/
theorem sum_lanes4 (F : Nat → Int) (n : Nat) :
    ∑ k in Finset.range n, F (4 * k) + ∑ k in Finset.range n, F (4 * k + 1) +
      ∑ k in Finset.range n, F (4 * k + 2) + ∑ k in Finset.range n, F (4 * k + 3) =
    ∑ m in Finset.range (4 * n), F m := by
  induction n with
  | zero => simp
  | succ n ih =>
    have e : 4 * (n + 1) = 4 * n + 1 + 1 + 1 + 1 := by ring
    rw [e]
    simp only [Finset.sum_range_succ]
    rw [← ih]
    ring

/-- Regrouping a sum over `8 * n` indices into eight lanes. -/
theorem sum_lanes8 (F : Nat → Int) (n : Nat) :
    ∑ k in Finset.range n, F (8 * k) + ∑ k in Finset.range n, F (8 * k + 1) +
      ∑ k in Finset.range n, F (8 * k + 2) + ∑ k in Finset.range n, F (8 * k + 3) +
      ∑ k in Finset.range n, F (8 * k + 4) + ∑ k in Finset.range n, F (8 * k + 5) +
      ∑ k in Finset.range n, F (8 * k + 6) + ∑ k in Finset.range n, F (8 * k + 7) =
    ∑ m in Finset.range (8 * n), F m := by
  induction n with
  | zero => simp
  | succ n ih =>
    have e : 8 * (n + 1) = 8 * n + 1 + 1 + 1 + 1 + 1 + 1 + 1 + 1 := by ring
    rw [e]
    simp only [Finset.sum_range_succ]
    rw [← ih]
    ring

/-- On densely packed operands the four lanes of the SSE loop add up to the dot product of
the two rows truncated to whole chunks. -/
theorem sse_cell (A Bt : Matrix) (i j : Nat) (h : Heap) (hA : A.stride = A.cols)
    (hBt : Bt.stride = Bt.cols)
    (hal : ∀ k, k < A.cols / 4 →
      (A.base + (i * A.cols + 4 * k)) % 4 = 0 ∧ (Bt.base + (j * Bt.cols + 4 * k)) % 4 = 0) :
    ∃ v, simd_acc 4 A Bt i j h = (.ok v, h) ∧
      hsum4 v = ∑ k in Finset.range (4 * (A.cols / 4)), A.get h i k * Bt.get h j k := by
  refine ⟨_, simd_acc_run 4 A Bt i j h hal, ?_⟩
  rw [← sum_lanes4]
  simp only [hsum4, Matrix.get, hA, hBt]
  have e : ∀ (x y z : Nat), x + (y + z) + 0 = x + y + z := fun x y z => by omega
  have e1 : ∀ (x y z t : Nat), x + (y + z) + t = x + y + (z + t) := fun x y z t => by omega
  simp only [Fin.val_zero, Fin.val_one, Fin.val_two, e, e1,
    show ((3 : Fin 4) : Nat) = 3 from rfl]

/-- On densely packed operands the eight lanes of the AVX loop add up to the dot product
of the two rows truncated to whole chunks. -/
theorem avx_cell (A Bt : Matrix) (i j : Nat) (h : Heap) (hA : A.stride = A.cols)
    (hBt : Bt.stride = Bt.cols)
    (hal : ∀ k, k < A.cols / 8 →
      (A.base + (i * A.cols + 8 * k)) % 8 = 0 ∧ (Bt.base + (j * Bt.cols + 8 * k)) % 8 = 0) :
    ∃ v, simd_acc 8 A Bt i j h = (.ok v, h) ∧
      hsum8 v = ∑ k in Finset.range (8 * (A.cols / 8)), A.get h i k * Bt.get h j k := by
  refine ⟨_, simd_acc_run 8 A Bt i j h hal, ?_⟩
  rw [← sum_lanes8]
  simp only [hsum8, Matrix.get, hA, hBt]
  have e : ∀ (x y z : Nat), x + (y + z) + 0 = x + y + z := fun x y z => by omega
  have e1 : ∀ (x y z t : Nat), x + (y + z) + t = x + y + (z + t) := fun x y z t => by omega
  simp only [Fin.val_zero, Fin.val_one, Fin.val_two, e, e1,
    show ((3 : Fin 8) : Nat) = 3 from rfl, show ((4 : Fin 8) : Nat) = 4 from rfl,
    show ((5 : Fin 8) : Nat) = 5 from rfl, show ((6 : Fin 8) : Nat) = 6 from rfl,
    show ((7 : Fin 8) : Nat) = 7 from rfl]

/-! ## What a successful run of `matmul_trans` has stored -/

theorem Exec_bind_ok_inv {α β : Type} {x : Exec α} {f : α → Exec β} {h h2 : Heap} {b : β}
    (hrun : Exec.bind x f h = (.ok b, h2)) :
    ∃ a h1, x h = (.ok a, h1) ∧ f a h1 = (.ok b, h2) := by
  unfold Exec.bind at hrun
  rcases hx : x h with ⟨r, h1⟩
  rw [hx] at hrun
  cases r with
  | ok a => exact ⟨a, h1, rfl, hrun⟩
  | error e => cases hrun

theorem bind_ok_inv {α β : Type} {x : Exec α} {f : α → Exec β} {h h2 : Heap} {b : β}
    (hrun : (x >>= f) h = (.ok b, h2)) :
    ∃ a h1, x h = (.ok a, h1) ∧ f a h1 = (.ok b, h2) :=
  Exec_bind_ok_inv hrun

theorem read_ok_inv (M : Matrix) (i j : Nat) (h h1 : Heap) (v : Int)
    (hrun : M.read i j h = (.ok v, h1)) : i < M.rows ∧ j < M.cols := by
  unfold Matrix.read at hrun
  by_cases hc : i < M.rows ∧ j < M.cols
  · exact hc
  · rw [if_neg hc] at hrun
    cases hrun

/-- In a loop that ended without error every iteration ended without error. -/
theorem forLoop_ok_body {α : Type} (n : Nat) (init : α) (body : Nat → α → Exec α) :
    ∀ (h h2 : Heap) (a : α), forLoop n init body h = (.ok a, h2) →
      ∀ k, k < n → ∃ a1 h1 a2 h3, body k a1 h1 = (.ok a2, h3) := by
  induction n with
  | zero => intro _ _ _ _ k hk; exact absurd hk (Nat.not_lt_zero k)
  | succ n ih =>
    intro h h2 a hrun k hk
    rw [forLoop_succ] at hrun
    obtain ⟨a1, h1, hpre, hlast⟩ := Exec_bind_ok_inv hrun
    by_cases hkn : k = n
    · subst hkn
      exact ⟨a1, h1, a, h2, hlast⟩
    · exact ih h h1 a1 hpre k (by omega)

/-- The inner loop of the transposed strategy, with the bounds it needs only when it
iterates. -/
theorem trans_dot_run_of (A B : Matrix) (i j : Nat) (h : Heap)
    (hb : 0 < A.cols → i < A.rows ∧ j < B.rows ∧ A.cols ≤ B.cols) :
    trans_dot A B i j h =
      (.ok (∑ k in Finset.range A.cols, A.get h i k * B.get h j k), h) := by
  by_cases h0 : 0 < A.cols
  · obtain ⟨hi, hj, hk⟩ := hb h0
    exact trans_dot_run A B i j h hi hj hk
  · have hz : A.cols = 0 := by omega
    unfold trans_dot
    rw [hz]
    rfl

/-- A successful inner loop of the transposed strategy stayed inside both shapes. -/
theorem trans_dot_ok_bounds (A B : Matrix) (i j : Nat) (h h1 : Heap) (v : Int)
    (hrun : trans_dot A B i j h = (.ok v, h1)) (h0 : 0 < A.cols) :
    i < A.rows ∧ j < B.rows ∧ A.cols ≤ B.cols := by
  obtain ⟨a1, h2, a2, h3, hbody⟩ :=
    forLoop_ok_body A.cols (0 : Int) _ h h1 v hrun (A.cols - 1) (by omega)
  obtain ⟨a, h4, hra, hrest⟩ := bind_ok_inv hbody
  obtain ⟨b, h5, hrb, _⟩ := bind_ok_inv hrest
  have ha := read_ok_inv A i (A.cols - 1) h2 h4 a hra
  have hb := read_ok_inv B j (A.cols - 1) h4 h5 b hrb
  exact ⟨ha.1, hb.1, by omega⟩

/-- In a loop nest that ended without error every cell computation ended without error. -/
theorem fillCells_ok_val {α : Type} (C : Matrix) (val : Nat → Nat → Exec α) (g : α → Int)
    (h h2 : Heap) (hrun : fillCells C val g h = (.ok (), h2)) (i j : Nat) (hi : i < C.rows)
    (hj : j < C.cols) : ∃ h1 a h3, val i j h1 = (.ok a, h3) := by
  obtain ⟨_, h1, _, h3, hrow⟩ := forLoop_ok_body C.rows () _ h h2 () hrun i hi
  obtain ⟨_, h4, _, h5, hcell⟩ := forLoop_ok_body C.cols () _ h1 h3 () hrow j hj
  obtain ⟨a, h6, hv, _⟩ := bind_ok_inv hcell
  exact ⟨h4, a, h6, hv⟩

/-- Whenever `matmul_trans` returns, every cell of `C` holds the dot product of row `i` of
`A` and row `j` of its second argument, provided no element read is an element of `C`. -/
theorem matmul_trans_ok_values_apart (A B C : Matrix) (h h2 : Heap)
    (hrun : matmul_trans A B C h = (.ok (), h2)) (hstride : C.cols ≤ C.stride)
    (hap : ∀ i j k, i < C.rows → j < C.cols → k < A.cols →
      ¬ C.covers A.buf (A.base + i * A.stride + k) ∧
      ¬ C.covers B.buf (B.base + j * B.stride + k))
    (i j : Nat) (hi : i < C.rows) (hj : j < C.cols) :
    C.get h2 i j = ∑ k in Finset.range A.cols, A.get h i k * B.get h j k := by
  rw [matmul_trans_unfold] at hrun
  obtain ⟨_, h0, hassert, hfill⟩ := Exec_bind_ok_inv hrun
  have hh0 : h0 = h := by
    unfold assert at hassert
    split at hassert
    · simp only [Exec_pure_run, Prod.mk.injEq] at hassert
      exact hassert.2.symm
    · cases hassert
  subst hh0
  have hbounds : ∀ i j, i < C.rows → j < C.cols → 0 < A.cols →
      i < A.rows ∧ j < B.rows ∧ A.cols ≤ B.cols := by
    intro i j hi hj hpos
    obtain ⟨h1, a, h3, hv⟩ := fillCells_ok_val C (trans_dot A B) id h0 h2 hfill i j hi hj
    exact trans_dot_ok_bounds A B i j h1 h3 a hv hpos
  obtain ⟨h1, hrun1, _, hvals, _⟩ :=
    fillCells_spec C (trans_dot A B) id
      (fun i j => ∑ k in Finset.range A.cols, A.get h0 i k * B.get h0 j k) h0 hstride
      (fun h1 hag i j hi hj => ⟨_, trans_dot_run_of A B i j h1 (hbounds i j hi hj), by
        simp only [id]
        exact Finset.sum_congr rfl (fun k hk => by
          obtain ⟨ha, hb⟩ := hap i j k hi hj (Finset.mem_range.mp hk)
          show h1.cell A.buf (A.base + i * A.stride + k) *
              h1.cell B.buf (B.base + j * B.stride + k) =
            h0.cell A.buf (A.base + i * A.stride + k) *
              h0.cell B.buf (B.base + j * B.stride + k)
          rw [hag _ _ ha, hag _ _ hb])⟩)
  rw [hfill] at hrun1
  have : h2 = h1 := by
    simpa using hrun1
  rw [this]
  exact hvals i j hi hj

/-- A sum over `n` indices split into its whole chunks of width `w` and the trailing
`n % w` terms. -/
theorem sum_split_trailing (w n : Nat) (G : Nat → Int) :
    ∑ k in Finset.range n, G k =
      ∑ k in Finset.range (w * (n / w)), G k +
        ∑ t in Finset.range (n % w), G (w * (n / w) + t) := by
  rw [← Finset.sum_range_add, Nat.div_add_mod]

/-- The loop nest of a SIMD strategy of width `w`, given what one cell computes. -/
theorem simd_fill {α : Type} (w : Nat) (A Bt C : Matrix) (h : Heap)
    (val : Nat → Nat → Exec α) (g : α → Int)
    (hcell : ∀ i j h1, i < C.rows → j < C.cols → ∃ v, val i j h1 = (.ok v, h1) ∧
      g v = ∑ k in Finset.range (w * (A.cols / w)), A.get h1 i k * Bt.get h1 j k)
    (hA : A.stride = A.cols) (hBt : Bt.stride = Bt.cols)
    (hstride : C.cols ≤ C.stride) (hap : simd_apart w A Bt C) :
    ∃ h1, fillCells C val g h = (.ok (), h1) ∧ ∀ i j, i < C.rows → j < C.cols →
      C.get h1 i j = ∑ k in Finset.range (w * (A.cols / w)), A.get h i k * Bt.get h j k ∧
      (∑ k in Finset.range A.cols, A.get h i k * Bt.get h j k =
        C.get h1 i j + ∑ t in Finset.range (A.cols % w),
          A.get h i (w * (A.cols / w) + t) * Bt.get h j (w * (A.cols / w) + t)) ∧
      (w ∣ A.cols →
        C.get h1 i j = ∑ k in Finset.range A.cols, A.get h i k * Bt.get h j k) ∧
      (w ∣ A.cols → ∀ h2, matmul_trans A Bt C h = (.ok (), h2) →
        C.get h1 i j = C.get h2 i j) := by
  obtain ⟨h1, hrun, _, hvals, _⟩ :=
    fillCells_spec C val g
      (fun i j => ∑ k in Finset.range (w * (A.cols / w)), A.get h i k * Bt.get h j k)
      h hstride
      (fun h1 hag i j hi hj => by
        obtain ⟨v, hv, hg⟩ := hcell i j h1 hi hj
        refine ⟨v, hv, hg.trans (Finset.sum_congr rfl (fun k hk => ?_))⟩
        obtain ⟨ha, hb⟩ := hap i j k hi hj (Finset.mem_range.mp hk)
        rw [← hA] at ha
        rw [← hBt] at hb
        show h1.cell A.buf (A.base + i * A.stride + k) *
            h1.cell Bt.buf (Bt.base + j * Bt.stride + k) =
          h.cell A.buf (A.base + i * A.stride + k) *
            h.cell Bt.buf (Bt.base + j * Bt.stride + k)
        rw [hag _ _ ha, hag _ _ hb])
  refine ⟨h1, hrun, fun i j hi hj => ?_⟩
  have hv := hvals i j hi hj
  have hfull : w ∣ A.cols →
      C.get h1 i j = ∑ k in Finset.range A.cols, A.get h i k * Bt.get h j k := by
    intro hdvd
    rw [hv, Nat.mul_div_cancel' hdvd]
  refine ⟨hv, ?_, hfull, ?_⟩
  · rw [hv]
    exact sum_split_trailing w A.cols (fun k => A.get h i k * Bt.get h j k)
  · intro hdvd h2 htrans
    rw [hfull hdvd]
    refine (matmul_trans_ok_values_apart A Bt C h h2 htrans hstride ?_ i j hi hj).symm
    intro i j k hi hj hk
    have := hap i j k hi hj (by rw [Nat.mul_div_cancel' hdvd]; exact hk)
    rw [hA, hBt]
    exact this

/-- C10, amended: with exact arithmetic, `A` and `Bt` densely packed (`stride == cols`),
`C` a well-formed matrix (stride at least its column count), every vector load aligned
(`simd_aligned`) and no loaded element an element of `C` (`simd_apart`), `matmul_omp_sse`
(`w = 4`) and `matmul_omp_avx` (`w = 8`) return and leave in every cell `C[i][j]` the sum
over `k < w * (A.cols / w)` of `A[i][k] * Bt[j][k]`.  The full dot product is that value
plus the trailing `A.cols % w` products, which are left out; when `w` divides `A.cols` the
value is the full dot product, and it is the value `matmul_trans` stores whenever
`matmul_trans` returns on the same operands. -/
theorem simd_truncated_dot (A Bt C : Matrix) (h : Heap) (hA : A.stride = A.cols)
    (hBt : Bt.stride = Bt.cols) (hstride : C.cols ≤ C.stride) :
    (simd_aligned 4 A Bt C → simd_apart 4 A Bt C →
      ∃ h1, matmul_omp_sse A Bt C h = (.ok (), h1) ∧ ∀ i j, i < C.rows → j < C.cols →
      C.get h1 i j = ∑ k in Finset.range (4 * (A.cols / 4)), A.get h i k * Bt.get h j k ∧
      (∑ k in Finset.range A.cols, A.get h i k * Bt.get h j k =
        C.get h1 i j + ∑ t in Finset.range (A.cols % 4),
          A.get h i (4 * (A.cols / 4) + t) * Bt.get h j (4 * (A.cols / 4) + t)) ∧
      (4 ∣ A.cols →
        C.get h1 i j = ∑ k in Finset.range A.cols, A.get h i k * Bt.get h j k) ∧
      (4 ∣ A.cols → ∀ h2, matmul_trans A Bt C h = (.ok (), h2) →
        C.get h1 i j = C.get h2 i j)) ∧
    (simd_aligned 8 A Bt C → simd_apart 8 A Bt C →
      ∃ h1, matmul_omp_avx A Bt C h = (.ok (), h1) ∧ ∀ i j, i < C.rows → j < C.cols →
      C.get h1 i j = ∑ k in Finset.range (8 * (A.cols / 8)), A.get h i k * Bt.get h j k ∧
      (∑ k in Finset.range A.cols, A.get h i k * Bt.get h j k =
        C.get h1 i j + ∑ t in Finset.range (A.cols % 8),
          A.get h i (8 * (A.cols / 8) + t) * Bt.get h j (8 * (A.cols / 8) + t)) ∧
      (8 ∣ A.cols →
        C.get h1 i j = ∑ k in Finset.range A.cols, A.get h i k * Bt.get h j k) ∧
      (8 ∣ A.cols → ∀ h2, matmul_trans A Bt C h = (.ok (), h2) →
        C.get h1 i j = C.get h2 i j)) :=
  ⟨fun hal hap => simd_fill 4 A Bt C h (simd_acc 4 A Bt) hsum4
      (fun i j h1 hi hj => sse_cell A Bt i j h1 hA hBt (fun k hk => hal i j k hi hj hk))
      hA hBt hstride hap,
   fun hal hap => simd_fill 8 A Bt C h (simd_acc 8 A Bt) hsum8
      (fun i j h1 hi hj => avx_cell A Bt i j h1 hA hBt (fun k hk => hal i j k hi hj hk))
      hA hBt hstride hap⟩

/-- Witness of C10: one row of fourteen elements `1 .. 14` against a row of ones, every
load aligned.  The SSE strategy adds the first twelve products (78 out of 105), the AVX
strategy the first eight (36). -/
theorem simd_truncated_dot_witness :
    (∃ h1, matmul_omp_sse (Matrix.dense 0 1 14) (Matrix.dense 1 1 14) (Matrix.dense 2 1 1)
        (Heap.ofLists [[1, 2, 3, 4, 5, 6, 7, 8, 9, 10, 11, 12, 13, 14],
          [1, 1, 1, 1, 1, 1, 1, 1, 1, 1, 1, 1, 1, 1], [7]]) = (.ok (), h1) ∧
      (Matrix.dense 2 1 1).get h1 0 0 = 78) ∧
    (∃ h1, matmul_omp_avx (Matrix.dense 0 1 14) (Matrix.dense 1 1 14) (Matrix.dense 2 1 1)
        (Heap.ofLists [[1, 2, 3, 4, 5, 6, 7, 8, 9, 10, 11, 12, 13, 14],
          [1, 1, 1, 1, 1, 1, 1, 1, 1, 1, 1, 1, 1, 1], [7]]) = (.ok (), h1) ∧
      (Matrix.dense 2 1 1).get h1 0 0 = 36) := by
  have hal : ∀ w, simd_aligned w (Matrix.dense 0 1 14) (Matrix.dense 1 1 14)
      (Matrix.dense 2 1 1) := by
    intro w i j k hi hj _
    have hi0 : i = 0 := Nat.lt_one_iff.mp hi
    have hj0 : j = 0 := Nat.lt_one_iff.mp hj
    subst hi0 hj0
    simp [Matrix.dense]
  have hap : ∀ w, simd_apart w (Matrix.dense 0 1 14) (Matrix.dense 1 1 14)
      (Matrix.dense 2 1 1) :=
    fun _ _ _ _ _ _ _ => ⟨fun hc => absurd hc.1 (by decide), fun hc => absurd hc.1 (by decide)⟩
  obtain ⟨hsse, havx⟩ :=
    simd_truncated_dot (Matrix.dense 0 1 14) (Matrix.dense 1 1 14) (Matrix.dense 2 1 1)
      (Heap.ofLists [[1, 2, 3, 4, 5, 6, 7, 8, 9, 10, 11, 12, 13, 14],
        [1, 1, 1, 1, 1, 1, 1, 1, 1, 1, 1, 1, 1, 1], [7]]) rfl rfl (le_refl _)
  obtain ⟨h1, hrun1, hv1⟩ := hsse (hal 4) (hap 4)
  obtain ⟨h2, hrun2, hv2⟩ := havx (hal 8) (hap 8)
  exact ⟨⟨h1, hrun1, by rw [(hv1 0 0 (by decide) (by decide)).1]; rfl⟩,
    ⟨h2, hrun2, by rw [(hv2 0 0 (by decide) (by decide)).1]; rfl⟩⟩

/-- Counterexample to C10 as stated, which asks neither for aligned loads nor for `C` to be
stored apart from the operands.  (1) `A` dense 2x6: row 1 starts at element 6 (byte 24),
so the first `_mm_load_ps` of row 1 faults.  (2) `A` dense 2x12: row 1 starts at element 12
(byte 48), so the first `_mm256_load_ps` of row 1 faults.  (3) `matmul_omp_sse(A, Bt, A)`
with `A` a 1x4 row of ones and `Bt` 4x4 of ones returns with `A[0][1] = 7`, while the sum
over `k < 4` of `A[0][k] * Bt[1][k]` is 4 on the values before the call and 49 on the
values after it.  (4) `matmul_omp_sse(A, Bt, Bt)` with `A` and `Bt` 4x4 of ones returns
with `Bt[1][1] = 19`, while that sum for cell `(1, 1)` is 4 before the call and 43 after
it. -/
theorem simd_claim_fails_unaligned_or_aliased :
    (matmul_omp_sse (Matrix.dense 0 2 6) (Matrix.dense 1 1 6) (Matrix.dense 2 2 1)
        (Heap.ofLists [[1, 2, 3, 4, 5, 6, 1, 2, 3, 4, 5, 6], [1, 1, 1, 1, 1, 1], [0, 0]])).1
      = .error .misaligned ∧
    (matmul_omp_avx (Matrix.dense 0 2 12) (Matrix.dense 1 1 12) (Matrix.dense 2 2 1)
        (Heap.ofLists [[1, 1, 1, 1, 1, 1, 1, 1, 1, 1, 1, 1, 1, 1, 1, 1, 1, 1, 1, 1, 1, 1, 1, 1],
          [1, 1, 1, 1, 1, 1, 1, 1, 1, 1, 1, 1], [0, 0]])).1
      = .error .misaligned ∧
    ((matmul_omp_sse (Matrix.dense 0 1 4) (Matrix.dense 1 4 4) (Matrix.dense 0 1 4)
        (Heap.ofLists [[1, 1, 1, 1], [1, 1, 1, 1, 1, 1, 1, 1, 1, 1, 1, 1, 1, 1, 1, 1]])).1
      = .ok () ∧
      (Matrix.dense 0 1 4).get
        (matmul_omp_sse (Matrix.dense 0 1 4) (Matrix.dense 1 4 4) (Matrix.dense 0 1 4)
          (Heap.ofLists [[1, 1, 1, 1], [1, 1, 1, 1, 1, 1, 1, 1, 1, 1, 1, 1, 1, 1, 1, 1]])).2
        0 1 = 7 ∧
      (∑ k in Finset.range 4,
        (Matrix.dense 0 1 4).get
          (Heap.ofLists [[1, 1, 1, 1], [1, 1, 1, 1, 1, 1, 1, 1, 1, 1, 1, 1, 1, 1, 1, 1]]) 0 k *
        (Matrix.dense 1 4 4).get
          (Heap.ofLists [[1, 1, 1, 1], [1, 1, 1, 1, 1, 1, 1, 1, 1, 1, 1, 1, 1, 1, 1, 1]]) 1 k)
        = 4 ∧
      (∑ k in Finset.range 4,
        (Matrix.dense 0 1 4).get
          (matmul_omp_sse (Matrix.dense 0 1 4) (Matrix.dense 1 4 4) (Matrix.dense 0 1 4)
            (Heap.ofLists [[1, 1, 1, 1], [1, 1, 1, 1, 1, 1, 1, 1, 1, 1, 1, 1, 1, 1, 1, 1]])).2
          0 k *
        (Matrix.dense 1 4 4).get
          (matmul_omp_sse (Matrix.dense 0 1 4) (Matrix.dense 1 4 4) (Matrix.dense 0 1 4)
            (Heap.ofLists [[1, 1, 1, 1], [1, 1, 1, 1, 1, 1, 1, 1, 1, 1, 1, 1, 1, 1, 1, 1]])).2
          1 k) = 49) ∧
    ((matmul_omp_sse (Matrix.dense 0 4 4) (Matrix.dense 1 4 4) (Matrix.dense 1 4 4)
        (Heap.ofLists [[1, 1, 1, 1, 1, 1, 1, 1, 1, 1, 1, 1, 1, 1, 1, 1],
          [1, 1, 1, 1, 1, 1, 1, 1, 1, 1, 1, 1, 1, 1, 1, 1]])).1 = .ok () ∧
      (Matrix.dense 1 4 4).get
        (matmul_omp_sse (Matrix.dense 0 4 4) (Matrix.dense 1 4 4) (Matrix.dense 1 4 4)
          (Heap.ofLists [[1, 1, 1, 1, 1, 1, 1, 1, 1, 1, 1, 1, 1, 1, 1, 1],
            [1, 1, 1, 1, 1, 1, 1, 1, 1, 1, 1, 1, 1, 1, 1, 1]])).2 1 1 = 19 ∧
      (∑ k in Finset.range 4,
        (Matrix.dense 0 4 4).get
          (Heap.ofLists [[1, 1, 1, 1, 1, 1, 1, 1, 1, 1, 1, 1, 1, 1, 1, 1],
            [1, 1, 1, 1, 1, 1, 1, 1, 1, 1, 1, 1, 1, 1, 1, 1]]) 1 k *
        (Matrix.dense 1 4 4).get
          (Heap.ofLists [[1, 1, 1, 1, 1, 1, 1, 1, 1, 1, 1, 1, 1, 1, 1, 1],
            [1, 1, 1, 1, 1, 1, 1, 1, 1, 1, 1, 1, 1, 1, 1, 1]]) 1 k) = 4 ∧
      (∑ k in Finset.range 4,
        (Matrix.dense 0 4 4).get
          (matmul_omp_sse (Matrix.dense 0 4 4) (Matrix.dense 1 4 4) (Matrix.dense 1 4 4)
            (Heap.ofLists [[1, 1, 1, 1, 1, 1, 1, 1, 1, 1, 1, 1, 1, 1, 1, 1],
              [1, 1, 1, 1, 1, 1, 1, 1, 1, 1, 1, 1, 1, 1, 1, 1]])).2 1 k *
        (Matrix.dense 1 4 4).get
          (matmul_omp_sse (Matrix.dense 0 4 4) (Matrix.dense 1 4 4) (Matrix.dense 1 4 4)
            (Heap.ofLists [[1, 1, 1, 1, 1, 1, 1, 1, 1, 1, 1, 1, 1, 1, 1, 1],
              [1, 1, 1, 1, 1, 1, 1, 1, 1, 1, 1, 1, 1, 1, 1, 1]])).2 1 k) = 43) := by
  refine ⟨by decide!, by decide!, ⟨by decide!, by decide!, by decide!, by decide!⟩,
    by decide!, by decide!, by decide!, by decide!⟩

/-- C8: none of the three strategies checks the shapes of its operands against each other.
`matmul_strassen` with 2x2 `A`, `B` and a 3x3 `C`, `matmul_omp_sse` with `A` 1x4 and `Bt`
1x8 (`A.cols != Bt.cols`), and `matmul_omp_avx` with `A` 2x8 and `C` 1x1
(`C.rows != A.rows`) all return without error and have overwritten `C[0][0]`. -/
theorem unchecked_shapes_write_C :
    ((matmul_strassen 1 (Matrix.dense 0 2 2) (Matrix.dense 1 2 2) (Matrix.dense 2 3 3)
        (Heap.ofLists [[1, 2, 3, 4], [5, 6, 7, 8], [0, 0, 0, 0, 0, 0, 0, 0, 0]])).1 = .ok () ∧
      (Matrix.dense 2 3 3).get
        (Heap.ofLists [[1, 2, 3, 4], [5, 6, 7, 8], [0, 0, 0, 0, 0, 0, 0, 0, 0]]) 0 0 = 0 ∧
      (Matrix.dense 2 3 3).get
        (matmul_strassen 1 (Matrix.dense 0 2 2) (Matrix.dense 1 2 2) (Matrix.dense 2 3 3)
          (Heap.ofLists [[1, 2, 3, 4], [5, 6, 7, 8], [0, 0, 0, 0, 0, 0, 0, 0, 0]])).2 0 0
        = 19) ∧
    ((matmul_omp_sse (Matrix.dense 0 1 4) (Matrix.dense 1 1 8) (Matrix.dense 2 1 1)
        (Heap.ofLists [[1, 2, 3, 4], [1, 1, 1, 1, 1, 1, 1, 1], [0]])).1 = .ok () ∧
      (Matrix.dense 2 1 1).get
        (Heap.ofLists [[1, 2, 3, 4], [1, 1, 1, 1, 1, 1, 1, 1], [0]]) 0 0 = 0 ∧
      (Matrix.dense 2 1 1).get
        (matmul_omp_sse (Matrix.dense 0 1 4) (Matrix.dense 1 1 8) (Matrix.dense 2 1 1)
          (Heap.ofLists [[1, 2, 3, 4], [1, 1, 1, 1, 1, 1, 1, 1], [0]])).2 0 0 = 10) ∧
    ((matmul_omp_avx (Matrix.dense 0 2 8) (Matrix.dense 1 1 8) (Matrix.dense 2 1 1)
        (Heap.ofLists [[1, 2, 3, 4, 5, 6, 7, 8, 9, 9, 9, 9, 9, 9, 9, 9],
          [1, 1, 1, 1, 1, 1, 1, 1], [0]])).1 = .ok () ∧
      (Matrix.dense 2 1 1).get
        (Heap.ofLists [[1, 2, 3, 4, 5, 6, 7, 8, 9, 9, 9, 9, 9, 9, 9, 9],
          [1, 1, 1, 1, 1, 1, 1, 1], [0]]) 0 0 = 0 ∧
      (Matrix.dense 2 1 1).get
        (matmul_omp_avx (Matrix.dense 0 2 8) (Matrix.dense 1 1 8) (Matrix.dense 2 1 1)
          (Heap.ofLists [[1, 2, 3, 4, 5, 6, 7, 8, 9, 9, 9, 9, 9, 9, 9, 9],
            [1, 1, 1, 1, 1, 1, 1, 1], [0]])).2 0 0 = 36) := by
  decide!

/-! ## The data-parallel strategy -/

/-- C11: read as a sequential loop nest, `matmul_openmp` is `matmul_naive`: on every heap
and all operands the two calls end with the same result (the same error or both none) and
the same heap, hence the same value in every cell of `C`. -/
theorem openmp_eq_naive (A B C : Matrix) (h : Heap) :
    matmul_openmp A B C h = matmul_naive A B C h ∧
    (∀ e, (matmul_openmp A B C h).1 = .error e ↔ (matmul_naive A B C h).1 = .error e) ∧
    (∀ i j, C.get (matmul_openmp A B C h).2 i j = C.get (matmul_naive A B C h).2 i j) :=
  ⟨rfl, fun _ => Iff.rfl, fun _ _ => rfl⟩

/-- C12: with `A` = [[2],[3]], `B` = [[5]] and two workers (worker 0 on row 0, worker 1 on
row 1), the schedule that runs the workers one after the other ends with `C` = [[10],[15]],
the values `matmul_naive` stores; a schedule in which worker 0 executes `++k` after worker 1
has executed `k = 0` ends, both workers done, with `C[1][0] = 0`: the shared `k` is written
by one worker and read by the other, and the result depends on the schedule. -/
theorem openmp_shared_k_race :
    ((omp_run (Matrix.dense 0 2 1) (Matrix.dense 1 1 1) (Matrix.dense 2 2 1) sched_sequential
        (omp_start (Heap.ofLists [[2, 3], [5], [7, 7]]))).w0.pc = .done ∧
      (omp_run (Matrix.dense 0 2 1) (Matrix.dense 1 1 1) (Matrix.dense 2 2 1) sched_sequential
        (omp_start (Heap.ofLists [[2, 3], [5], [7, 7]]))).w1.pc = .done ∧
      (Matrix.dense 2 2 1).get
        (omp_run (Matrix.dense 0 2 1) (Matrix.dense 1 1 1) (Matrix.dense 2 2 1) sched_sequential
          (omp_start (Heap.ofLists [[2, 3], [5], [7, 7]]))).shared.heap 0 0 = 10 ∧
      (Matrix.dense 2 2 1).get
        (omp_run (Matrix.dense 0 2 1) (Matrix.dense 1 1 1) (Matrix.dense 2 2 1) sched_sequential
          (omp_start (Heap.ofLists [[2, 3], [5], [7, 7]]))).shared.heap 1 0 = 15) ∧
    ((omp_run (Matrix.dense 0 2 1) (Matrix.dense 1 1 1) (Matrix.dense 2 2 1) sched_racy
        (omp_start (Heap.ofLists [[2, 3], [5], [7, 7]]))).w0.pc = .done ∧
      (omp_run (Matrix.dense 0 2 1) (Matrix.dense 1 1 1) (Matrix.dense 2 2 1) sched_racy
        (omp_start (Heap.ofLists [[2, 3], [5], [7, 7]]))).w1.pc = .done ∧
      (Matrix.dense 2 2 1).get
        (omp_run (Matrix.dense 0 2 1) (Matrix.dense 1 1 1) (Matrix.dense 2 2 1) sched_racy
          (omp_start (Heap.ofLists [[2, 3], [5], [7, 7]]))).shared.heap 0 0 = 10 ∧
      (Matrix.dense 2 2 1).get
        (omp_run (Matrix.dense 0 2 1) (Matrix.dense 1 1 1) (Matrix.dense 2 2 1) sched_racy
          (omp_start (Heap.ofLists [[2, 3], [5], [7, 7]]))).shared.heap 1 0 = 0) ∧
    ((matmul_naive (Matrix.dense 0 2 1) (Matrix.dense 1 1 1) (Matrix.dense 2 2 1)
        (Heap.ofLists [[2, 3], [5], [7, 7]])).1 = .ok () ∧
      (Matrix.dense 2 2 1).get
        (matmul_naive (Matrix.dense 0 2 1) (Matrix.dense 1 1 1) (Matrix.dense 2 2 1)
          (Heap.ofLists [[2, 3], [5], [7, 7]])).2 1 0 = 15) := by
  decide!

/-! ## Views, the transposed strategy and the SIMD strategies on concrete inputs -/

/-- What a view addresses: element `(i, j)` of the view is element
`(i + rowOff, j + colOff)` of its parent. -/
theorem view_get (P : Matrix) (rowOff colOff rows cols : Nat) (h h1 : Heap)
    (hr : rowOff + rows ≤ P.rows) (hc : colOff + cols ≤ P.cols) :
    ∃ V, Matrix.view P rowOff colOff rows cols h = (.ok V, h) ∧
      V.rows = rows ∧ V.cols = cols ∧ V.stride = P.stride ∧ V.buf = P.buf ∧
      ∀ i j, V.get h1 i j = P.get h1 (i + rowOff) (j + colOff) := by
  refine ⟨{ buf := P.buf, base := P.base + rowOff * P.stride + colOff, stride := P.stride,
            rows := rows, cols := cols }, by simp [Matrix.view, hr, hc], rfl, rfl, rfl, rfl,
    fun i j => ?_⟩
  simp only [Matrix.get]
  congr 1
  rw [Nat.add_mul]
  omega

/-- C14: on a 4x4 matrix `A` whose element `(i, j)` is `4 * i + j` (so `half_n = 2`), the
view `A12` of line 159 has `A12[0][0] = 8 = A[2][0]` and `A12[1][1] = 13 = A[3][1]`: it
covers rows [2,4) x cols [0,2), the bottom-left quadrant; the view `A21` of line 160 has
`A21[0][0] = 2 = A[0][2]` and `A21[1][1] = 7 = A[1][3]`: it covers rows [0,2) x cols [2,4),
the top-right quadrant. -/
theorem strassen_views_swapped :
    ((Matrix.view (Matrix.dense 0 4 4) 2 0 2 2 (Heap.ofLists [count16])).1 =
        .ok { buf := 0, base := 8, stride := 4, rows := 2, cols := 2 } ∧
      (Matrix.get { buf := 0, base := 8, stride := 4, rows := 2, cols := 2 }
        (Heap.ofLists [count16]) 0 0 = 8 ∧
       (Matrix.dense 0 4 4).get (Heap.ofLists [count16]) 2 0 = 8 ∧
       (Matrix.dense 0 4 4).get (Heap.ofLists [count16]) 0 2 = 2 ∧
       Matrix.get { buf := 0, base := 8, stride := 4, rows := 2, cols := 2 }
        (Heap.ofLists [count16]) 1 1 = 13)) ∧
    ((Matrix.view (Matrix.dense 0 4 4) 0 2 2 2 (Heap.ofLists [count16])).1 =
        .ok { buf := 0, base := 2, stride := 4, rows := 2, cols := 2 } ∧
      (Matrix.get { buf := 0, base := 2, stride := 4, rows := 2, cols := 2 }
        (Heap.ofLists [count16]) 0 0 = 2 ∧
       Matrix.get { buf := 0, base := 2, stride := 4, rows := 2, cols := 2 }
        (Heap.ofLists [count16]) 1 1 = 7)) := by
  decide!

/-- C17: on `A` = [[2]] (1x1), `B` = [[3,4]] (1x2) and `C` 1x2 the shape assertion of
`matmul_trans` passes, and the call stops with an index error: for `j = 1`, `k = 0` it
reads `B[1][0]`, while `B` has one row. -/
theorem matmul_trans_reads_out_of_range :
    shape_check (Matrix.dense 0 1 1) (Matrix.dense 1 1 2) (Matrix.dense 2 1 2) = true ∧
    (matmul_trans (Matrix.dense 0 1 1) (Matrix.dense 1 1 2) (Matrix.dense 2 1 2)
      (Heap.ofLists [[2], [3, 4], [0, 0]])).1 = .error .indexOutOfRange ∧
    ((Matrix.dense 1 1 2).read 1 0 (Heap.ofLists [[2], [3, 4], [0, 0]])).1 =
      .error .indexOutOfRange ∧
    ¬ (1 < (Matrix.dense 1 1 2).rows) := by
  decide!

/-- C19: `A` is the 2x4 view with rows 1,2,3,4 and 5,6,7,8 of a buffer with row stride 8,
`D` a dense copy of it, `Bt` = [[1,1,1,1]].  The view and the copy hold the same elements,
but `matmul_omp_sse` stores 26 in `C[1][0]` for the copy and 36 (the padding 9,9,9,9) for
the view.  Likewise `matmul_omp_avx` on a 2x8 view of stride 16 whose second row is all 2:
16 for the dense copy, 72 for the view. -/
theorem simd_ignores_stride :
    ((∀ i, i < 2 → ∀ k, k < 4 →
        Matrix.get { buf := 0, base := 0, stride := 8, rows := 2, cols := 4 }
          (Heap.ofLists [padded2x4, [1, 2, 3, 4, 5, 6, 7, 8], [1, 1, 1, 1], [0, 0]]) i k =
        (Matrix.dense 1 2 4).get
          (Heap.ofLists [padded2x4, [1, 2, 3, 4, 5, 6, 7, 8], [1, 1, 1, 1], [0, 0]]) i k) ∧
      (Matrix.dense 3 2 1).get
        (matmul_omp_sse (Matrix.dense 1 2 4) (Matrix.dense 2 1 4) (Matrix.dense 3 2 1)
          (Heap.ofLists [padded2x4, [1, 2, 3, 4, 5, 6, 7, 8], [1, 1, 1, 1], [0, 0]])).2 1 0
        = 26 ∧
      (Matrix.dense 3 2 1).get
        (matmul_omp_sse { buf := 0, base := 0, stride := 8, rows := 2, cols := 4 }
          (Matrix.dense 2 1 4) (Matrix.dense 3 2 1)
          (Heap.ofLists [padded2x4, [1, 2, 3, 4, 5, 6, 7, 8], [1, 1, 1, 1], [0, 0]])).2 1 0
        = 36) ∧
    ((∀ i, i < 2 → ∀ k, k < 8 →
        Matrix.get { buf := 0, base := 0, stride := 16, rows := 2, cols := 8 }
          (Heap.ofLists [padded2x8, [1, 1, 1, 1, 1, 1, 1, 1, 2, 2, 2, 2, 2, 2, 2, 2],
            [1, 1, 1, 1, 1, 1, 1, 1], [0, 0]]) i k =
        (Matrix.dense 1 2 8).get
          (Heap.ofLists [padded2x8, [1, 1, 1, 1, 1, 1, 1, 1, 2, 2, 2, 2, 2, 2, 2, 2],
            [1, 1, 1, 1, 1, 1, 1, 1], [0, 0]]) i k) ∧
      (Matrix.dense 3 2 1).get
        (matmul_omp_avx (Matrix.dense 1 2 8) (Matrix.dense 2 1 8) (Matrix.dense 3 2 1)
          (Heap.ofLists [padded2x8, [1, 1, 1, 1, 1, 1, 1, 1, 2, 2, 2, 2, 2, 2, 2, 2],
            [1, 1, 1, 1, 1, 1, 1, 1], [0, 0]])).2 1 0 = 16 ∧
      (Matrix.dense 3 2 1).get
        (matmul_omp_avx { buf := 0, base := 0, stride := 16, rows := 2, cols := 8 }
          (Matrix.dense 2 1 8) (Matrix.dense 3 2 1)
          (Heap.ofLists [padded2x8, [1, 1, 1, 1, 1, 1, 1, 1, 2, 2, 2, 2, 2, 2, 2, 2],
            [1, 1, 1, 1, 1, 1, 1, 1], [0, 0]])).2 1 0 = 72) := by
  decide!

/-! ## The recursive strategy in general -/

theorem matmul_strassen_succ (fuel : Nat) (A B C : Matrix) :
    matmul_strassen (fuel + 1) A B C =
      strassen_body plain_base (matmul_strassen fuel) A B C := rfl

/-- The source function is the recursion over `strassen_body` with the plain base case. -/
theorem matmul_strassen_eq_gen : ∀ fuel, matmul_strassen fuel = strassen_gen plain_base fuel := by
  intro fuel
  induction fuel with
  | zero => rfl
  | succ fuel ih =>
    funext A B C
    rw [matmul_strassen_succ, ih]
    rfl

theorem alloc_run (rows cols : Nat) (f : Nat → Nat → Int) (h : Heap) :
    Matrix.alloc rows cols f h = (.ok (Matrix.dense h.next rows cols), h.allocd rows cols f) :=
  rfl

theorem add_run (X Y : Matrix) (h : Heap) (hr : X.rows = Y.rows) (hc : X.cols = Y.cols) :
    Matrix.add X Y h =
      (.ok (Matrix.dense h.next X.rows X.cols),
        h.allocd X.rows X.cols (fun i j => X.get h i j + Y.get h i j)) := by
  simp [Matrix.add, hr, hc, alloc_run]

theorem sub_run (X Y : Matrix) (h : Heap) (hr : X.rows = Y.rows) (hc : X.cols = Y.cols) :
    Matrix.sub X Y h =
      (.ok (Matrix.dense h.next X.rows X.cols),
        h.allocd X.rows X.cols (fun i j => X.get h i j - Y.get h i j)) := by
  simp [Matrix.sub, hr, hc, alloc_run]

@[simp] theorem allocd_next (h : Heap) (rows cols : Nat) (f : Nat → Nat → Int) :
    (h.allocd rows cols f).next = h.next + 1 := rfl

/-- An allocation leaves the other buffers as they are. -/
theorem allocd_cell_other (h : Heap) (rows cols : Nat) (f : Nat → Nat → Int) (b o : Nat)
    (hb : b ≠ h.next) : (h.allocd rows cols f).cell b o = h.cell b o := by
  simp [Heap.allocd, hb]

/-- The elements of a freshly allocated matrix. -/
theorem allocd_get (h : Heap) (rows cols : Nat) (f : Nat → Nat → Int) (i j : Nat)
    (hi : i < rows) (hj : j < cols) :
    (Matrix.dense h.next rows cols).get (h.allocd rows cols f) i j = f i j := by
  have hpos : 0 < cols := by omega
  have hlt : i * cols + j < rows * cols := by
    calc i * cols + j < i * cols + cols := by omega
      _ = (i + 1) * cols := by ring
      _ ≤ rows * cols := Nat.mul_le_mul_right cols (by omega)
  have hdiv : (i * cols + j) / cols = i := by
    rw [Nat.mul_comm, Nat.mul_add_div hpos, Nat.div_eq_of_lt hj]; simp
  have hmod : (i * cols + j) % cols = j := by
    rw [Nat.mul_comm, Nat.mul_add_mod, Nat.mod_eq_of_lt hj]
  simp [Matrix.get, Matrix.dense, Heap.allocd, hlt, hdiv, hmod]

theorem view_run (P : Matrix) (rowOff colOff rows cols : Nat) (h : Heap)
    (hr : rowOff + rows ≤ P.rows) (hc : colOff + cols ≤ P.cols) :
    Matrix.view P rowOff colOff rows cols h = (.ok (P.window rowOff colOff rows cols), h) := by
  simp [Matrix.view, Matrix.window, hr, hc]

theorem window_get (P : Matrix) (rowOff colOff rows cols : Nat) (h : Heap) (i j : Nat) :
    (P.window rowOff colOff rows cols).get h i j = P.get h (i + rowOff) (j + colOff) := by
  simp only [Matrix.get, Matrix.window]
  congr 1
  rw [Nat.add_mul]
  omega

/-- A loop nest over the cells of `Q` whose body stores `f i j` in cell `(i, j)`: every
cell of `Q` holds its value, nothing else changed. -/
theorem nest_spec (Q : Matrix) (body : Nat → Nat → Exec Unit) (f : Nat → Nat → Int)
    (h : Heap) (hstride : Q.cols ≤ Q.stride)
    (hbody : ∀ h1, (∀ b o, ¬ Q.covers b o → h1.cell b o = h.cell b o) → ∀ i j, i < Q.rows →
      j < Q.cols → body i j h1 = (.ok (), h1.set Q.buf (Q.base + i * Q.stride + j) (f i j))) :
    ∃ h1, forRange Q.rows (fun i => forRange Q.cols fun j => body i j) h = (.ok (), h1) ∧
      h1.next = h.next ∧
      (∀ i j, i < Q.rows → j < Q.cols → Q.get h1 i j = f i j) ∧
      (∀ b o, ¬ Q.covers b o → h1.cell b o = h.cell b o) := by
  have row : ∀ i, i < Q.rows → ∀ h1, (∀ b o, ¬ Q.covers b o → h1.cell b o = h.cell b o) →
      ∀ m, m ≤ Q.cols → ∃ h2, forRange m (fun j => body i j) h1 = (.ok (), h2) ∧
        h2.next = h1.next ∧ (∀ j, j < m → Q.get h2 i j = f i j) ∧
        (∀ b o, ¬ (b = Q.buf ∧ ∃ j, j < m ∧ o = Q.base + i * Q.stride + j) →
          h2.cell b o = h1.cell b o) := by
    intro i hi h1 hag m
    induction m with
    | zero =>
      intro _
      exact ⟨h1, rfl, rfl, fun j hj => absurd hj (Nat.not_lt_zero j), fun _ _ _ => rfl⟩
    | succ m ih =>
      intro hm
      obtain ⟨h2, hrun, hnext, hvals, hframe⟩ := ih (by omega)
      have hag2 : ∀ b o, ¬ Q.covers b o → h2.cell b o = h.cell b o := fun b o hb =>
        (hframe b o (fun hx => hb ⟨hx.1, by
          obtain ⟨j, hj, ho⟩ := hx.2
          exact ⟨i, j, hi, by omega, ho⟩⟩)).trans (hag b o hb)
      refine ⟨h2.set Q.buf (Q.base + i * Q.stride + m) (f i m), ?_, ?_, ?_, ?_⟩
      · rw [forRange_succ, Exec_bind_ok hrun]
        exact hbody h2 hag2 i m hi (by omega)
      · simpa using hnext
      · intro j hj
        by_cases hjm : j = m
        · subst hjm
          simp [Matrix.get, set_cell]
        · have hne : ¬ (Q.base + i * Q.stride + j = Q.base + i * Q.stride + m) := by omega
          have := hvals j (by omega)
          simpa [Matrix.get, set_cell, hne] using this
      · intro b o hno
        have h3 : ¬ (b = Q.buf ∧ o = Q.base + i * Q.stride + m) :=
          fun hx => hno ⟨hx.1, m, by omega, hx.2⟩
        rw [set_cell, if_neg h3]
        exact hframe b o (fun hx => hno ⟨hx.1, by
          obtain ⟨j, hj, ho⟩ := hx.2
          exact ⟨j, by omega, ho⟩⟩)
  have key : ∀ r, r ≤ Q.rows → ∃ h1,
      forRange r (fun i => forRange Q.cols fun j => body i j) h = (.ok (), h1) ∧
      h1.next = h.next ∧
      (∀ i j, i < r → j < Q.cols → Q.get h1 i j = f i j) ∧
      (∀ b o, ¬ (b = Q.buf ∧ ∃ i j, i < r ∧ j < Q.cols ∧ o = Q.base + i * Q.stride + j) →
        h1.cell b o = h.cell b o) := by
    intro r
    induction r with
    | zero =>
      intro _
      exact ⟨h, rfl, rfl, fun i j hi => absurd hi (Nat.not_lt_zero i), fun _ _ _ => rfl⟩
    | succ r ih =>
      intro hr
      obtain ⟨h1, hrun, hnext, hvals, hframe⟩ := ih (by omega)
      have hag : ∀ b o, ¬ Q.covers b o → h1.cell b o = h.cell b o := fun b o hb =>
        hframe b o (fun hx => hb ⟨hx.1, by
          obtain ⟨i, j, hi, hj, ho⟩ := hx.2
          exact ⟨i, j, by omega, hj, ho⟩⟩)
      obtain ⟨h2, hrun2, hnext2, hvals2, hframe2⟩ := row r (by omega) h1 hag Q.cols (le_refl _)
      refine ⟨h2, ?_, hnext2.trans hnext, ?_, ?_⟩
      · rw [forRange_succ, Exec_bind_ok hrun]
        exact hrun2
      · intro i j hi hj
        by_cases hir : i = r
        · subst hir
          exact hvals2 j hj
        · have hlt : i < r := by omega
          have hkeep : h2.cell Q.buf (Q.base + i * Q.stride + j) =
              h1.cell Q.buf (Q.base + i * Q.stride + j) := by
            apply hframe2
            rintro ⟨_, j1, hj1, ho⟩
            have := offset_inj Q.stride Q.cols i j r j1 hstride hj hj1 (by omega)
            omega
          simpa [Matrix.get, hkeep] using hvals i j hlt hj
      · intro b o hno
        rw [hframe2 b o (fun hx => hno ⟨hx.1, by
          obtain ⟨j, hj, ho⟩ := hx.2
          exact ⟨r, j, by omega, hj, ho⟩⟩)]
        exact hframe b o (fun hx => hno ⟨hx.1, by
          obtain ⟨i, j, hi, hj, ho⟩ := hx.2
          exact ⟨i, j, by omega, hj, ho⟩⟩)
  obtain ⟨h1, hrun, hnext, hvals, hframe⟩ := key Q.rows (le_refl _)
  exact ⟨h1, hrun, hnext, hvals, fun b o hno => hframe b o (fun hx => hno hx)⟩

/-- Different cells of a well-formed matrix have different offsets. -/
theorem cell_ne (C : Matrix) (i j i1 j1 : Nat) (hs : C.cols ≤ C.stride) (hj : j < C.cols)
    (hj1 : j1 < C.cols) (hne : i ≠ i1 ∨ j ≠ j1) :
    C.base + i * C.stride + j ≠ C.base + i1 * C.stride + j1 := by
  intro he
  have := offset_inj C.stride C.cols i j i1 j1 hs hj hj1 (by omega)
  omega

/-- A loop nest that stores `f i j` in cell `(i + r, j + c)` of `C` for `i, j < m`: the
cells of that quadrant hold their values, nothing else changed. -/
theorem quad_nest (C : Matrix) (m r c : Nat) (body : Nat → Nat → Exec Unit)
    (f : Nat → Nat → Int) (h : Heap) (hc : c + m ≤ C.cols) (hCs : C.cols ≤ C.stride)
    (hbody : ∀ h1, (∀ b o, b ≠ C.buf → h1.cell b o = h.cell b o) → ∀ i j, i < m → j < m →
      body i j h1 = (.ok (), h1.set C.buf (C.base + (i + r) * C.stride + (j + c)) (f i j))) :
    ∃ h1, forRange m (fun i => forRange m fun j => body i j) h = (.ok (), h1) ∧
      h1.next = h.next ∧
      (∀ i j, i < m → j < m → C.get h1 (i + r) (j + c) = f i j) ∧
      (∀ b o, ¬ (b = C.buf ∧ ∃ i j, i < m ∧ j < m ∧
        o = C.base + (i + r) * C.stride + (j + c)) → h1.cell b o = h.cell b o) := by
  have hoff : ∀ i j, (C.window r c m m).base + i * (C.window r c m m).stride + j =
      C.base + (i + r) * C.stride + (j + c) := by
    intro i j
    simp only [Matrix.window]
    rw [Nat.add_mul]
    omega
  obtain ⟨h1, hrun, hnext, hvals, hframe⟩ :=
    nest_spec (C.window r c m m) body f h (by simp only [Matrix.window]; omega)
      (fun h1 hag i j hi hj => by
        rw [hoff]
        exact hbody h1 (fun b o hb => hag b o (fun hx => hb hx.1)) i j hi hj)
  refine ⟨h1, hrun, hnext, fun i j hi hj => ?_, fun b o hno => hframe b o (fun hx => hno ?_)⟩
  · have := hvals i j hi hj
    rw [window_get] at this
    exact this
  · obtain ⟨hb, i, j, hi, hj, ho⟩ := hx
    exact ⟨hb, i, j, hi, hj, by rw [ho, hoff]⟩

/-- Reading an auxiliary matrix stored apart from `C` in a heap that differs from `h` only
in the buffer of `C`. -/
theorem read_aux (P C : Matrix) (m : Nat) (hP : AuxOf C m P) (h h1 : Heap) (hag : ∀ b o, b ≠ C.buf → h1.cell b o = h.cell b o) (i j : Nat)
    (hi : i < m) (hj : j < m) : P.read i j h1 = (.ok (P.get h i j), h1) := by
  obtain ⟨hr, hc, hb⟩ := hP
  rw [read_ok P i j h1 (by omega) (by omega)]
  simp only [Matrix.get, hag _ _ hb]

/-- The merge loops: the four quadrants of `C` receive the four combinations of the
auxiliary matrices, nothing outside `C` changes. -/
theorem merge_spec (C : Matrix) (m : Nat) (P1 P2 P3 P4 P52 P62 P72 : Matrix) (h : Heap)
    (hCr : C.rows = 2 * m) (hCc : C.cols = 2 * m) (hCs : C.cols ≤ C.stride)
    (hP1 : AuxOf C m P1)
    (hP2 : AuxOf C m P2)
    (hP3 : AuxOf C m P3)
    (hP4 : AuxOf C m P4)
    (hP52 : AuxOf C m P52)
    (hP62 : AuxOf C m P62)
    (hP72 : AuxOf C m P72) :
    ∃ h1, strassen_merge C m P1 P2 P3 P4 P52 P62 P72 h = (.ok (), h1) ∧ h1.next = h.next ∧
      (∀ i j, i < m → j < m →
        C.get h1 i j = P52.get h i j + P4.get h i j - P2.get h i j + P62.get h i j ∧
        C.get h1 i (j + m) = P1.get h i j + P2.get h i j ∧
        C.get h1 (i + m) j = P3.get h i j + P4.get h i j ∧
        C.get h1 (i + m) (j + m) =
          P1.get h i j + P52.get h i j - P3.get h i j - P72.get h i j) ∧
      (∀ b o, ¬ C.covers b o → h1.cell b o = h.cell b o) := by
  have ag0 : ∀ b o, b ≠ C.buf → h.cell b o = h.cell b o := fun _ _ _ => rfl
  -- first loop nest
  obtain ⟨h1, run1, next1, v1, fr1⟩ := quad_nest C m 0 0
    (fun i j => do
      C.write i j ((← P52.read i j) + (← P4.read i j) - (← P2.read i j) + (← P62.read i j)))
    (fun i j => P52.get h i j + P4.get h i j - P2.get h i j + P62.get h i j) h
    (by omega) hCs
    (fun h1 hag i j hi hj => by
      show (P52.read i j >>= fun a => P4.read i j >>= fun b => P2.read i j >>= fun c =>
        P62.read i j >>= fun d => C.write i j (a + b - c + d)) h1 = _
      rw [bind_ok (read_aux P52 C m hP52 h h1 hag i j hi hj),
        bind_ok (read_aux P4 C m hP4 h h1 hag i j hi hj),
        bind_ok (read_aux P2 C m hP2 h h1 hag i j hi hj),
        bind_ok (read_aux P62 C m hP62 h h1 hag i j hi hj),
        write_ok C i j _ h1 (by omega) (by omega)]
      rfl)
  have ag1 : ∀ b o, b ≠ C.buf → h1.cell b o = h.cell b o := fun b o hb =>
    fr1 b o (fun hx => hb hx.1)
  -- second loop nest
  obtain ⟨h2, run2, next2, v2, fr2⟩ := quad_nest C m 0 m
    (fun i j => do C.write i (j + m) ((← P1.read i j) + (← P2.read i j)))
    (fun i j => P1.get h i j + P2.get h i j) h1 (by omega) hCs
    (fun h2 hag i j hi hj => by
      have hag2 : ∀ b o, b ≠ C.buf → h2.cell b o = h.cell b o := fun b o hb =>
        (hag b o hb).trans (ag1 b o hb)
      show (P1.read i j >>= fun a => P2.read i j >>= fun b => C.write i (j + m) (a + b)) h2
        = _
      rw [bind_ok (read_aux P1 C m hP1 h h2 hag2 i j hi hj),
        bind_ok (read_aux P2 C m hP2 h h2 hag2 i j hi hj),
        write_ok C i (j + m) _ h2 (by omega) (by omega)]
      rfl)
  have ag2 : ∀ b o, b ≠ C.buf → h2.cell b o = h.cell b o := fun b o hb =>
    (fr2 b o (fun hx => hb hx.1)).trans (ag1 b o hb)
  -- third loop nest
  obtain ⟨h3, run3, next3, v3, fr3⟩ := quad_nest C m m 0
    (fun i j => do C.write (i + m) j ((← P3.read i j) + (← P4.read i j)))
    (fun i j => P3.get h i j + P4.get h i j) h2 (by omega) hCs
    (fun h3 hag i j hi hj => by
      have hag3 : ∀ b o, b ≠ C.buf → h3.cell b o = h.cell b o := fun b o hb =>
        (hag b o hb).trans (ag2 b o hb)
      show (P3.read i j >>= fun a => P4.read i j >>= fun b => C.write (i + m) j (a + b)) h3
        = _
      rw [bind_ok (read_aux P3 C m hP3 h h3 hag3 i j hi hj),
        bind_ok (read_aux P4 C m hP4 h h3 hag3 i j hi hj),
        write_ok C (i + m) j _ h3 (by omega) (by omega)]
      rfl)
  have ag3 : ∀ b o, b ≠ C.buf → h3.cell b o = h.cell b o := fun b o hb =>
    (fr3 b o (fun hx => hb hx.1)).trans (ag2 b o hb)
  -- fourth loop nest
  obtain ⟨h4, run4, next4, v4, fr4⟩ := quad_nest C m m m
    (fun i j => do
      C.write (i + m) (j + m)
        ((← P1.read i j) + (← P52.read i j) - (← P3.read i j) - (← P72.read i j)))
    (fun i j => P1.get h i j + P52.get h i j - P3.get h i j - P72.get h i j) h3
    (by omega) hCs
    (fun h4 hag i j hi hj => by
      have hag4 : ∀ b o, b ≠ C.buf → h4.cell b o = h.cell b o := fun b o hb =>
        (hag b o hb).trans (ag3 b o hb)
      show (P1.read i j >>= fun a => P52.read i j >>= fun b => P3.read i j >>= fun c =>
        P72.read i j >>= fun d => C.write (i + m) (j + m) (a + b - c - d)) h4 = _
      rw [bind_ok (read_aux P1 C m hP1 h h4 hag4 i j hi hj),
        bind_ok (read_aux P52 C m hP52 h h4 hag4 i j hi hj),
        bind_ok (read_aux P3 C m hP3 h h4 hag4 i j hi hj),
        bind_ok (read_aux P72 C m hP72 h h4 hag4 i j hi hj),
        write_ok C (i + m) (j + m) _ h4 (by omega) (by omega)])
  refine ⟨h4, ?_, ?_, ?_, ?_⟩
  · unfold strassen_merge
    rw [bind_ok run1, bind_ok run2, bind_ok run3]
    exact run4
  · rw [next4, next3, next2, next1]
  · intro i j hi hj
    -- a cell of `C` kept by a later nest
    have keep : ∀ (ha hb : Heap) (r c : Nat) (i1 j1 : Nat), j1 < C.cols → c + m ≤ C.cols →
        (∀ b o, ¬ (b = C.buf ∧ ∃ i j, i < m ∧ j < m ∧
          o = C.base + (i + r) * C.stride + (j + c)) → hb.cell b o = ha.cell b o) →
        (∀ i2 j2, i2 < m → j2 < m → (i1 ≠ i2 + r ∨ j1 ≠ j2 + c)) →
        C.get hb i1 j1 = C.get ha i1 j1 := by
      intro ha hb r c i1 j1 hj1 hc hfr hne
      apply hfr
      rintro ⟨_, i2, j2, hi2, hj2, ho⟩
      exact cell_ne C i1 j1 (i2 + r) (j2 + c) hCs hj1 (by omega) (hne i2 j2 hi2 hj2) ho
    refine ⟨?_, ?_, ?_, ?_⟩
    · rw [keep h3 h4 m m i j (by omega) (by omega) fr4 (fun _ _ _ _ => by omega),
        keep h2 h3 m 0 i j (by omega) (by omega) fr3 (fun _ _ _ _ => by omega),
        keep h1 h2 0 m i j (by omega) (by omega) fr2 (fun _ _ _ _ => by omega)]
      simpa using v1 i j hi hj
    · rw [keep h3 h4 m m i (j + m) (by omega) (by omega) fr4 (fun _ _ _ _ => by omega),
        keep h2 h3 m 0 i (j + m) (by omega) (by omega) fr3 (fun _ _ _ _ => by omega)]
      simpa using v2 i j hi hj
    · rw [keep h3 h4 m m (i + m) j (by omega) (by omega) fr4 (fun _ _ _ _ => by omega)]
      simpa using v3 i j hi hj
    · exact v4 i j hi hj
  · intro b o hno
    have hq : ∀ r c, r + m ≤ C.rows → c + m ≤ C.cols →
        ¬ (b = C.buf ∧ ∃ i j, i < m ∧ j < m ∧
          o = C.base + (i + r) * C.stride + (j + c)) := by
      rintro r c hr hc ⟨hb, i, j, hi, hj, ho⟩
      exact hno ⟨hb, i + r, j + c, by omega, by omega, ho⟩
    rw [fr4 b o (hq m m (by omega) (by omega)), fr3 b o (hq m 0 (by omega) (by omega)),
      fr2 b o (hq 0 m (by omega) (by omega)), fr1 b o (hq 0 0 (by omega) (by omega))]

theorem KeepsBelow.trans {lim lim1 : Nat} {g g1 g2 : Heap} (h1 : KeepsBelow lim g g1)
    (h2 : KeepsBelow lim1 g1 g2) (hl : lim ≤ lim1) : KeepsBelow lim g g2 :=
  fun b o hb => (h2 b o (by omega)).trans (h1 b o hb)

theorem KeepsBelow.get {lim : Nat} {g g1 : Heap} (hk : KeepsBelow lim g g1) (M : Matrix)
    (hM : M.buf < lim) (i j : Nat) : M.get g1 i j = M.get g i j :=
  hk _ _ hM

/-- One allocation by `+`: the new matrix, its buffer, its elements in terms of the heap
`h0` that `g` still agrees with below `lim`. -/
theorem add_step (lim m : Nat) (X Y : Matrix) (g h0 : Heap) (hX : Square m X)
    (hY : Square m Y) (hXb : X.buf < lim) (hYb : Y.buf < lim) (hold : KeepsBelow lim h0 g) :
    ∃ P g1, Matrix.add X Y g = (.ok P, g1) ∧ Square m P ∧ P.stride = m ∧ P.buf = g.next ∧
      g1.next = g.next + 1 ∧
      (∀ i j, i < m → j < m → P.get g1 i j = X.get h0 i j + Y.get h0 i j) ∧
      KeepsBelow g.next g g1 := by
  obtain ⟨hXr, hXc⟩ := hX
  obtain ⟨hYr, hYc⟩ := hY
  refine ⟨_, _, add_run X Y g (by omega) (by omega), ⟨hXr, hXc⟩, hXc, rfl, rfl, ?_, ?_⟩
  · intro i j hi hj
    rw [allocd_get g X.rows X.cols _ i j (by omega) (by omega), hold.get X hXb, hold.get Y hYb]
  · intro b o hb
    exact allocd_cell_other g _ _ _ b o (by omega)

/-- One allocation by `-`. -/
theorem sub_step (lim m : Nat) (X Y : Matrix) (g h0 : Heap) (hX : Square m X)
    (hY : Square m Y) (hXb : X.buf < lim) (hYb : Y.buf < lim) (hold : KeepsBelow lim h0 g) :
    ∃ P g1, Matrix.sub X Y g = (.ok P, g1) ∧ Square m P ∧ P.stride = m ∧ P.buf = g.next ∧
      g1.next = g.next + 1 ∧
      (∀ i j, i < m → j < m → P.get g1 i j = X.get h0 i j - Y.get h0 i j) ∧
      KeepsBelow g.next g g1 := by
  obtain ⟨hXr, hXc⟩ := hX
  obtain ⟨hYr, hYc⟩ := hY
  refine ⟨_, _, sub_run X Y g (by omega) (by omega), ⟨hXr, hXc⟩, hXc, rfl, rfl, ?_, ?_⟩
  · intro i j hi hj
    rw [allocd_get g X.rows X.cols _ i j (by omega) (by omega), hold.get X hXb, hold.get Y hYb]
  · intro b o hb
    exact allocd_cell_other g _ _ _ b o (by omega)

/-- One recursive call under its contract, with the frame at the level of buffers. -/
theorem rec_step (rec : Matrix → Matrix → Matrix → Exec Unit) (F : Vals → Vals → Vals)
    (m : Nat) (hrec : RecSpec rec F m) (X Y Z : Matrix) (g : Heap) (hX : Square m X)
    (hY : Square m Y) (hZ : Square m Z) (hZs : Z.stride = m) (hXb : X.buf < g.next)
    (hYb : Y.buf < g.next) (hZb : Z.buf < g.next) :
    ∃ g1, rec X Y Z g = (.ok (), g1) ∧ g.next ≤ g1.next ∧
      (∀ i j, i < m → j < m → Z.get g1 i j = F (X.get g) (Y.get g) i j) ∧
      OnlyBuf Z.buf g g1 := by
  obtain ⟨g1, hrun, hnext, hvals, hframe⟩ :=
    hrec X Y Z g hX.1 hX.2 hY.1 hY.2 hZ.1 hZ.2 (by rw [hZ.2, hZs]) hXb hYb hZb
  exact ⟨g1, hrun, hnext, hvals, fun b o hb hne => hframe b o hb (fun hx => hne hx.1)⟩

theorem window_square (P : Matrix) (r c m : Nat) : Square m (P.window r c m m) := ⟨rfl, rfl⟩

/-- The values of the merge loops, given the values of the seven products. -/
theorem combine_vals (m : Nat) (F : Vals → Vals → Vals) (a b : Vals)
    (c p1 p2 p3 p4 p52 p62 p72 : Nat → Nat → Int)
    (hc : ∀ i j, i < m → j < m →
      c i j = p52 i j + p4 i j - p2 i j + p62 i j ∧
      c i (j + m) = p1 i j + p2 i j ∧
      c (i + m) j = p3 i j + p4 i j ∧
      c (i + m) (j + m) = p1 i j + p52 i j - p3 i j - p72 i j)
    (W1 : ∀ i j, i < m → j < m →
      p1 i j = F (fun i j => a i j) (fun i j => b (i + m) j - b (i + m) (j + m)) i j)
    (W2 : ∀ i j, i < m → j < m →
      p2 i j = F (fun i j => a i j + a (i + m) j) (fun i j => b (i + m) (j + m)) i j)
    (W3 : ∀ i j, i < m → j < m →
      p3 i j = F (fun i j => a i (j + m) + a (i + m) (j + m)) (fun i j => b i j) i j)
    (W4 : ∀ i j, i < m → j < m →
      p4 i j = F (fun i j => a (i + m) (j + m)) (fun i j => b i (j + m) - b i j) i j)
    (W5 : ∀ i j, i < m → j < m →
      p52 i j = F (fun i j => a i j + a (i + m) (j + m))
        (fun i j => b i j + b (i + m) (j + m)) i j)
    (W6 : ∀ i j, i < m → j < m →
      p62 i j = F (fun i j => a (i + m) j - a (i + m) (j + m))
        (fun i j => b i (j + m) + b (i + m) (j + m)) i j)
    (W7 : ∀ i j, i < m → j < m →
      p72 i j = F (fun i j => a i j - a i (j + m)) (fun i j => b i j + b (i + m) j) i j)
    (i j : Nat) (hi : i < 2 * m) (hj : j < 2 * m) :
    c i j = strassen_combine m F a b i j := by
  unfold strassen_combine
  dsimp only
  by_cases him : i < m
  · by_cases hjm : j < m
    · rw [if_pos him, if_pos hjm, (hc i j him hjm).1, W5 i j him hjm, W4 i j him hjm,
        W2 i j him hjm, W6 i j him hjm]
    · have hj1 : j - m < m := by omega
      have hv := (hc i (j - m) him hj1).2.1
      rw [Nat.sub_add_cancel (show m ≤ j by omega)] at hv
      rw [if_pos him, if_neg hjm, hv, W1 i (j - m) him hj1, W2 i (j - m) him hj1]
  · have hi1 : i - m < m := by omega
    by_cases hjm : j < m
    · have hv := (hc (i - m) j hi1 hjm).2.2.1
      rw [Nat.sub_add_cancel (show m ≤ i by omega)] at hv
      rw [if_neg him, if_pos hjm, hv, W3 (i - m) j hi1 hjm, W4 (i - m) j hi1 hjm]
    · have hj1 : j - m < m := by omega
      have hv := (hc (i - m) (j - m) hi1 hj1).2.2.2
      rw [Nat.sub_add_cancel (show m ≤ i by omega),
        Nat.sub_add_cancel (show m ≤ j by omega)] at hv
      rw [if_neg him, if_neg hjm, hv, W1 (i - m) (j - m) hi1 hj1,
        W5 (i - m) (j - m) hi1 hj1, W3 (i - m) (j - m) hi1 hj1, W7 (i - m) (j - m) hi1 hj1]

/-- The recursive step of `strassen_body` under the contract of its recursive calls: the
call returns, `C` holds the combination of the seven products, and of the cells that
existed before the call only those of `C` may have changed. -/
theorem body_spec (base rec : Matrix → Matrix → Matrix → Exec Unit) (F : Vals → Vals → Vals)
    (m : Nat) (hm : 2 ≤ m) (hpow : pow2_check (2 * m) = true) (hrec : RecSpec rec F m)
    (hF : LocalOn F m) (A B C : Matrix) (h : Heap) (hA : Square (2 * m) A)
    (hB : Square (2 * m) B) (hC : Square (2 * m) C) (hCs : C.cols ≤ C.stride)
    (hAb : A.buf < h.next) (hBb : B.buf < h.next) (hCb : C.buf < h.next) :
    ∃ h1, strassen_body base rec A B C h = (.ok (), h1) ∧ h.next ≤ h1.next ∧
      (∀ i j, i < 2 * m → j < 2 * m →
        C.get h1 i j = strassen_combine m F (A.get h) (B.get h) i j) ∧
      (∀ b o, b < h.next → ¬ C.covers b o → h1.cell b o = h.cell b o) := by
  obtain ⟨hAr, hAc⟩ := hA
  obtain ⟨hBr, hBc⟩ := hB
  obtain ⟨hCr, hCc⟩ := hC
  have e1 : (A.rows == A.cols) = true := by rw [hAr, hAc]; exact beq_self_eq_true _
  have e2 : pow2_check A.rows = true := by rw [hAr]; exact hpow
  have hne : ¬ (A.rows = 2) := by omega
  have hhalf : A.rows >>> 1 = m := by rw [hAr, Nat.shiftRight_eq_div_pow]; omega
  have K0 : KeepsBelow h.next h h := fun _ _ _ => rfl
  unfold strassen_body
  dsimp only
  rw [hhalf, e1, e2, bind_ok (assert_true_run _ h), bind_ok (assert_true_run _ h), if_neg hne,
    bind_ok (view_run A 0 0 m m h (by omega) (by omega)),
    bind_ok (view_run A m 0 m m h (by omega) (by omega)),
    bind_ok (view_run A 0 m m m h (by omega) (by omega)),
    bind_ok (view_run A m m m m h (by omega) (by omega)),
    bind_ok (view_run B 0 0 m m h (by omega) (by omega)),
    bind_ok (view_run B m 0 m m h (by omega) (by omega)),
    bind_ok (view_run B 0 m m m h (by omega) (by omega)),
    bind_ok (view_run B m m m m h (by omega) (by omega))]
  obtain ⟨P1, a1, runP1, sqP1, stP1, bfP1, nx1, vlP1, kp1⟩ :=
    sub_step h.next m (B.window m 0 m m) (B.window m m m m) h h (window_square _ _ _ _)
      (window_square _ _ _ _) hBb hBb K0
  rw [bind_ok runP1]
  have K1 : KeepsBelow h.next h a1 := K0.trans kp1 (by omega)
  obtain ⟨P2, a2, runP2, sqP2, stP2, bfP2, nx2, vlP2, kp2⟩ :=
    add_step h.next m (A.window 0 0 m m) (A.window m 0 m m) a1 h (window_square _ _ _ _)
      (window_square _ _ _ _) hAb hAb K1
  rw [bind_ok runP2]
  have K2 : KeepsBelow h.next h a2 := K1.trans kp2 (by omega)
  obtain ⟨P3, a3, runP3, sqP3, stP3, bfP3, nx3, vlP3, kp3⟩ :=
    add_step h.next m (A.window 0 m m m) (A.window m m m m) a2 h (window_square _ _ _ _)
      (window_square _ _ _ _) hAb hAb K2
  rw [bind_ok runP3]
  have K3 : KeepsBelow h.next h a3 := K2.trans kp3 (by omega)
  obtain ⟨P4, a4, runP4, sqP4, stP4, bfP4, nx4, vlP4, kp4⟩ :=
    sub_step h.next m (B.window 0 m m m) (B.window 0 0 m m) a3 h (window_square _ _ _ _)
      (window_square _ _ _ _) hBb hBb K3
  rw [bind_ok runP4]
  have K4 : KeepsBelow h.next h a4 := K3.trans kp4 (by omega)
  obtain ⟨P51, a5, runP51, sqP51, stP51, bfP51, nx5, vlP51, kp5⟩ :=
    add_step h.next m (A.window 0 0 m m) (A.window m m m m) a4 h (window_square _ _ _ _)
      (window_square _ _ _ _) hAb hAb K4
  rw [bind_ok runP51]
  have K5 : KeepsBelow h.next h a5 := K4.trans kp5 (by omega)
  obtain ⟨P52, a6, runP52, sqP52, stP52, bfP52, nx6, vlP52, kp6⟩ :=
    add_step h.next m (B.window 0 0 m m) (B.window m m m m) a5 h (window_square _ _ _ _)
      (window_square _ _ _ _) hBb hBb K5
  rw [bind_ok runP52]
  have K6 : KeepsBelow h.next h a6 := K5.trans kp6 (by omega)
  obtain ⟨P61, a7, runP61, sqP61, stP61, bfP61, nx7, vlP61, kp7⟩ :=
    sub_step h.next m (A.window m 0 m m) (A.window m m m m) a6 h (window_square _ _ _ _)
      (window_square _ _ _ _) hAb hAb K6
  rw [bind_ok runP61]
  have K7 : KeepsBelow h.next h a7 := K6.trans kp7 (by omega)
  obtain ⟨P62, a8, runP62, sqP62, stP62, bfP62, nx8, vlP62, kp8⟩ :=
    add_step h.next m (B.window 0 m m m) (B.window m m m m) a7 h (window_square _ _ _ _)
      (window_square _ _ _ _) hBb hBb K7
  rw [bind_ok runP62]
  have K8 : KeepsBelow h.next h a8 := K7.trans kp8 (by omega)
  obtain ⟨P71, a9, runP71, sqP71, stP71, bfP71, nx9, vlP71, kp9⟩ :=
    sub_step h.next m (A.window 0 0 m m) (A.window 0 m m m) a8 h (window_square _ _ _ _)
      (window_square _ _ _ _) hAb hAb K8
  rw [bind_ok runP71]
  have K9 : KeepsBelow h.next h a9 := K8.trans kp9 (by omega)
  obtain ⟨P72, a10, runP72, sqP72, stP72, bfP72, nx10, vlP72, kp10⟩ :=
    add_step h.next m (B.window 0 0 m m) (B.window m 0 m m) a9 h (window_square _ _ _ _)
      (window_square _ _ _ _) hBb hBb K9
  rw [bind_ok runP72]
  have K10 : KeepsBelow h.next h a10 := K9.trans kp10 (by omega)
  have E9 : KeepsBelow a9.next a9 a10 := kp10
  have E8 : KeepsBelow a8.next a8 a10 := kp9.trans E9 (by omega)
  have E7 : KeepsBelow a7.next a7 a10 := kp8.trans E8 (by omega)
  have E6 : KeepsBelow a6.next a6 a10 := kp7.trans E7 (by omega)
  have E5 : KeepsBelow a5.next a5 a10 := kp6.trans E6 (by omega)
  have E4 : KeepsBelow a4.next a4 a10 := kp5.trans E5 (by omega)
  have E3 : KeepsBelow a3.next a3 a10 := kp4.trans E4 (by omega)
  have E2 : KeepsBelow a2.next a2 a10 := kp3.trans E3 (by omega)
  have E1 : KeepsBelow a1.next a1 a10 := kp2.trans E2 (by omega)
  obtain ⟨g1, runC1, gn1, V1, O1⟩ :=
    rec_step rec F m hrec (A.window 0 0 m m) (P1) P1 a10 (window_square _ _ _ _) (sqP1) sqP1 stP1
      (show A.buf < _ by omega) (by omega) (by omega)
  rw [bind_ok runC1]
  have I1 : ∀ b o, b < a10.next → (b < h.next ∨ P1.buf < b) → g1.cell b o = a10.cell b o :=
    fun b o hb hc => O1 b o hb (by omega)
  obtain ⟨g2, runC2, gn2, V2, O2⟩ :=
    rec_step rec F m hrec (P2) (B.window m m m m) P2 g1 (sqP2) (window_square _ _ _ _) sqP2 stP2
      (by omega) (show B.buf < _ by omega) (by omega)
  rw [bind_ok runC2]
  have I2 : ∀ b o, b < a10.next → (b < h.next ∨ P2.buf < b) → g2.cell b o = a10.cell b o :=
    fun b o hb hc => (O2 b o (by omega) (by omega)).trans (I1 b o hb (by omega))
  obtain ⟨g3, runC3, gn3, V3, O3⟩ :=
    rec_step rec F m hrec (P3) (B.window 0 0 m m) P3 g2 (sqP3) (window_square _ _ _ _) sqP3 stP3
      (by omega) (show B.buf < _ by omega) (by omega)
  rw [bind_ok runC3]
  have I3 : ∀ b o, b < a10.next → (b < h.next ∨ P3.buf < b) → g3.cell b o = a10.cell b o :=
    fun b o hb hc => (O3 b o (by omega) (by omega)).trans (I2 b o hb (by omega))
  obtain ⟨g4, runC4, gn4, V4, O4⟩ :=
    rec_step rec F m hrec (A.window m m m m) (P4) P4 g3 (window_square _ _ _ _) (sqP4) sqP4 stP4
      (show A.buf < _ by omega) (by omega) (by omega)
  rw [bind_ok runC4]
  have I4 : ∀ b o, b < a10.next → (b < h.next ∨ P4.buf < b) → g4.cell b o = a10.cell b o :=
    fun b o hb hc => (O4 b o (by omega) (by omega)).trans (I3 b o hb (by omega))
  obtain ⟨g5, runC5, gn5, V5, O5⟩ :=
    rec_step rec F m hrec (P51) (P52) P52 g4 (sqP51) (sqP52) sqP52 stP52
      (by omega) (by omega) (by omega)
  rw [bind_ok runC5]
  have I5 : ∀ b o, b < a10.next → (b < h.next ∨ P52.buf < b) → g5.cell b o = a10.cell b o :=
    fun b o hb hc => (O5 b o (by omega) (by omega)).trans (I4 b o hb (by omega))
  obtain ⟨g6, runC6, gn6, V6, O6⟩ :=
    rec_step rec F m hrec (P61) (P62) P62 g5 (sqP61) (sqP62) sqP62 stP62
      (by omega) (by omega) (by omega)
  rw [bind_ok runC6]
  have I6 : ∀ b o, b < a10.next → (b < h.next ∨ P62.buf < b) → g6.cell b o = a10.cell b o :=
    fun b o hb hc => (O6 b o (by omega) (by omega)).trans (I5 b o hb (by omega))
  obtain ⟨g7, runC7, gn7, V7, O7⟩ :=
    rec_step rec F m hrec (P71) (P72) P72 g6 (sqP71) (sqP72) sqP72 stP72
      (by omega) (by omega) (by omega)
  rw [bind_ok runC7]
  have I7 : ∀ b o, b < a10.next → (b < h.next ∨ P72.buf < b) → g7.cell b o = a10.cell b o :=
    fun b o hb hc => (O7 b o (by omega) (by omega)).trans (I6 b o hb (by omega))
  simp only [window_get, Nat.add_zero] at vlP1 vlP2 vlP3 vlP4 vlP51 vlP52 vlP61 vlP62 vlP71 vlP72
  have pvP1 : ∀ i j, i < m → j < m → P1.get a10 i j = B.get h (i + m) j - B.get h (i + m) (j + m) :=
    fun i j hi hj => (E1.get P1 (by omega) i j).trans (vlP1 i j hi hj)
  have pvP2 : ∀ i j, i < m → j < m → P2.get a10 i j = A.get h i j + A.get h (i + m) j :=
    fun i j hi hj => (E2.get P2 (by omega) i j).trans (vlP2 i j hi hj)
  have pvP3 : ∀ i j, i < m → j < m → P3.get a10 i j = A.get h i (j + m) + A.get h (i + m) (j + m) :=
    fun i j hi hj => (E3.get P3 (by omega) i j).trans (vlP3 i j hi hj)
  have pvP4 : ∀ i j, i < m → j < m → P4.get a10 i j = B.get h i (j + m) - B.get h i j :=
    fun i j hi hj => (E4.get P4 (by omega) i j).trans (vlP4 i j hi hj)
  have pvP51 : ∀ i j, i < m → j < m → P51.get a10 i j = A.get h i j + A.get h (i + m) (j + m) :=
    fun i j hi hj => (E5.get P51 (by omega) i j).trans (vlP51 i j hi hj)
  have pvP52 : ∀ i j, i < m → j < m → P52.get a10 i j = B.get h i j + B.get h (i + m) (j + m) :=
    fun i j hi hj => (E6.get P52 (by omega) i j).trans (vlP52 i j hi hj)
  have pvP61 : ∀ i j, i < m → j < m → P61.get a10 i j = A.get h (i + m) j - A.get h (i + m) (j + m) :=
    fun i j hi hj => (E7.get P61 (by omega) i j).trans (vlP61 i j hi hj)
  have pvP62 : ∀ i j, i < m → j < m → P62.get a10 i j = B.get h i (j + m) + B.get h (i + m) (j + m) :=
    fun i j hi hj => (E8.get P62 (by omega) i j).trans (vlP62 i j hi hj)
  have pvP71 : ∀ i j, i < m → j < m → P71.get a10 i j = A.get h i j - A.get h i (j + m) :=
    fun i j hi hj => (E9.get P71 (by omega) i j).trans (vlP71 i j hi hj)
  have pvP72 : ∀ i j, i < m → j < m → P72.get a10 i j = B.get h i j + B.get h (i + m) j := vlP72
  have G0 : KeepsBelow h.next h a10 := K10
  have G1 : KeepsBelow h.next h g1 :=
    fun b o hb => (I1 b o (by omega) (Or.inl hb)).trans (K10 b o hb)
  have G2 : KeepsBelow h.next h g2 :=
    fun b o hb => (I2 b o (by omega) (Or.inl hb)).trans (K10 b o hb)
  have G3 : KeepsBelow h.next h g3 :=
    fun b o hb => (I3 b o (by omega) (Or.inl hb)).trans (K10 b o hb)
  have G4 : KeepsBelow h.next h g4 :=
    fun b o hb => (I4 b o (by omega) (Or.inl hb)).trans (K10 b o hb)
  have G5 : KeepsBelow h.next h g5 :=
    fun b o hb => (I5 b o (by omega) (Or.inl hb)).trans (K10 b o hb)
  have G6 : KeepsBelow h.next h g6 :=
    fun b o hb => (I6 b o (by omega) (Or.inl hb)).trans (K10 b o hb)
  have G7 : KeepsBelow h.next h g7 :=
    fun b o hb => (I7 b o (by omega) (Or.inl hb)).trans (K10 b o hb)
  have U6 : KeepsBelow P72.buf g6 g7 := fun b o hb => O7 b o (by omega) (by omega)
  have U5 : KeepsBelow P62.buf g5 g7 :=
    KeepsBelow.trans (show KeepsBelow P62.buf g5 g6 from
      fun b o hb => O6 b o (by omega) (by omega)) U6 (by omega)
  have U4 : KeepsBelow P52.buf g4 g7 :=
    KeepsBelow.trans (show KeepsBelow P52.buf g4 g5 from
      fun b o hb => O5 b o (by omega) (by omega)) U5 (by omega)
  have U3 : KeepsBelow P4.buf g3 g7 :=
    KeepsBelow.trans (show KeepsBelow P4.buf g3 g4 from
      fun b o hb => O4 b o (by omega) (by omega)) U4 (by omega)
  have U2 : KeepsBelow P3.buf g2 g7 :=
    KeepsBelow.trans (show KeepsBelow P3.buf g2 g3 from
      fun b o hb => O3 b o (by omega) (by omega)) U3 (by omega)
  have U1 : KeepsBelow P2.buf g1 g7 :=
    KeepsBelow.trans (show KeepsBelow P2.buf g1 g2 from
      fun b o hb => O2 b o (by omega) (by omega)) U2 (by omega)
  have W1 : ∀ i j, i < m → j < m →
      P1.get g7 i j = F (fun i j => A.get h i j) (fun i j => B.get h (i + m) j - B.get h (i + m) (j + m)) i j :=
    fun i j hi hj => ((U1.get P1 (by omega) i j).trans (V1 i j hi hj)).trans
      (hF _ _ _ _ (fun i j _ _ => ((window_get _ _ _ _ _ a10 i j).trans (G0.get A hAb _ _) :
        (A.window 0 0 m m).get a10 i j = A.get h i j))
      pvP1 i j hi hj)
  have W2 : ∀ i j, i < m → j < m →
      P2.get g7 i j = F (fun i j => A.get h i j + A.get h (i + m) j) (fun i j => B.get h (i + m) (j + m)) i j :=
    fun i j hi hj => ((U2.get P2 (by omega) i j).trans (V2 i j hi hj)).trans
      (hF _ _ _ _ (fun i j hi hj => ((I1 P2.buf _ (by omega) (Or.inr (by omega))).trans (pvP2 i j hi hj) :
        P2.get g1 i j = A.get h i j + A.get h (i + m) j))
      (fun i j _ _ => ((window_get _ _ _ _ _ g1 i j).trans (G1.get B hBb _ _) :
        (B.window m m m m).get g1 i j = B.get h (i + m) (j + m))) i j hi hj)
  have W3 : ∀ i j, i < m → j < m →
      P3.get g7 i j = F (fun i j => A.get h i (j + m) + A.get h (i + m) (j + m)) (fun i j => B.get h i j) i j :=
    fun i j hi hj => ((U3.get P3 (by omega) i j).trans (V3 i j hi hj)).trans
      (hF _ _ _ _ (fun i j hi hj => ((I2 P3.buf _ (by omega) (Or.inr (by omega))).trans (pvP3 i j hi hj) :
        P3.get g2 i j = A.get h i (j + m) + A.get h (i + m) (j + m)))
      (fun i j _ _ => ((window_get _ _ _ _ _ g2 i j).trans (G2.get B hBb _ _) :
        (B.window 0 0 m m).get g2 i j = B.get h i j)) i j hi hj)
  have W4 : ∀ i j, i < m → j < m →
      P4.get g7 i j = F (fun i j => A.get h (i + m) (j + m)) (fun i j => B.get h i (j + m) - B.get h i j) i j :=
    fun i j hi hj => ((U4.get P4 (by omega) i j).trans (V4 i j hi hj)).trans
      (hF _ _ _ _ (fun i j _ _ => ((window_get _ _ _ _ _ g3 i j).trans (G3.get A hAb _ _) :
        (A.window m m m m).get g3 i j = A.get h (i + m) (j + m)))
      (fun i j hi hj => ((I3 P4.buf _ (by omega) (Or.inr (by omega))).trans (pvP4 i j hi hj) :
        P4.get g3 i j = B.get h i (j + m) - B.get h i j)) i j hi hj)
  have W5 : ∀ i j, i < m → j < m →
      P52.get g7 i j = F (fun i j => A.get h i j + A.get h (i + m) (j + m)) (fun i j => B.get h i j + B.get h (i + m) (j + m)) i j :=
    fun i j hi hj => ((U5.get P52 (by omega) i j).trans (V5 i j hi hj)).trans
      (hF _ _ _ _ (fun i j hi hj => ((I4 P51.buf _ (by omega) (Or.inr (by omega))).trans (pvP51 i j hi hj) :
        P51.get g4 i j = A.get h i j + A.get h (i + m) (j + m)))
      (fun i j hi hj => ((I4 P52.buf _ (by omega) (Or.inr (by omega))).trans (pvP52 i j hi hj) :
        P52.get g4 i j = B.get h i j + B.get h (i + m) (j + m))) i j hi hj)
  have W6 : ∀ i j, i < m → j < m →
      P62.get g7 i j = F (fun i j => A.get h (i + m) j - A.get h (i + m) (j + m)) (fun i j => B.get h i (j + m) + B.get h (i + m) (j + m)) i j :=
    fun i j hi hj => ((U6.get P62 (by omega) i j).trans (V6 i j hi hj)).trans
      (hF _ _ _ _ (fun i j hi hj => ((I5 P61.buf _ (by omega) (Or.inr (by omega))).trans (pvP61 i j hi hj) :
        P61.get g5 i j = A.get h (i + m) j - A.get h (i + m) (j + m)))
      (fun i j hi hj => ((I5 P62.buf _ (by omega) (Or.inr (by omega))).trans (pvP62 i j hi hj) :
        P62.get g5 i j = B.get h i (j + m) + B.get h (i + m) (j + m))) i j hi hj)
  have W7 : ∀ i j, i < m → j < m →
      P72.get g7 i j = F (fun i j => A.get h i j - A.get h i (j + m)) (fun i j => B.get h i j + B.get h (i + m) j) i j :=
    fun i j hi hj => (V7 i j hi hj).trans
      (hF _ _ _ _ (fun i j hi hj => ((I6 P71.buf _ (by omega) (Or.inr (by omega))).trans (pvP71 i j hi hj) :
        P71.get g6 i j = A.get h i j - A.get h i (j + m)))
      (fun i j hi hj => ((I6 P72.buf _ (by omega) (Or.inr (by omega))).trans (pvP72 i j hi hj) :
        P72.get g6 i j = B.get h i j + B.get h (i + m) j)) i j hi hj)
  obtain ⟨hf, runM, nM, vM, frM⟩ := merge_spec C m P1 P2 P3 P4 P52 P62 P72 g7 hCr hCc hCs
    ⟨sqP1.1, sqP1.2, by omega⟩ ⟨sqP2.1, sqP2.2, by omega⟩ ⟨sqP3.1, sqP3.2, by omega⟩
    ⟨sqP4.1, sqP4.2, by omega⟩ ⟨sqP52.1, sqP52.2, by omega⟩ ⟨sqP62.1, sqP62.2, by omega⟩
    ⟨sqP72.1, sqP72.2, by omega⟩
  refine ⟨hf, runM, by omega, ?_, ?_⟩
  · intro i j hi hj
    exact combine_vals m F (A.get h) (B.get h) (C.get hf) (P1.get g7) (P2.get g7) (P3.get g7)
      (P4.get g7) (P52.get g7) (P62.get g7) (P72.get g7) vM W1 W2 W3 W4 W5 W6 W7 i j hi hj
  · intro b o hb hno
    rw [frM b o hno]
    exact G7 b o hb

/-- The 2x2 product depends only on the values on the 2x2 square. -/
theorem base_val_local : LocalOn base_val 2 := by
  intro a a1 b b1 ha hb i j hi hj
  simp only [base_val]
  rw [ha i 0 hi (by decide), ha i 1 hi (by decide), hb 0 j (by decide) hj,
    hb 1 j (by decide) hj]

/-- The recursive step on values keeps locality. -/
theorem strassen_combine_local (m : Nat) (F : Vals → Vals → Vals) (hF : LocalOn F m) :
    LocalOn (strassen_combine m F) (2 * m) := by
  intro a a1 b b1 ha hb i j hi hj
  have ep1 : ∀ i j, i < m → j < m →
      F (fun i j => a i j) (fun i j => b (i + m) j - b (i + m) (j + m)) i j =
      F (fun i j => a1 i j) (fun i j => b1 (i + m) j - b1 (i + m) (j + m)) i j :=
    fun i j hi hj => hF _ _ _ _
      (fun i j hi hj => by simp (disch := omega) only [ha, hb])
      (fun i j hi hj => by simp (disch := omega) only [ha, hb]) i j hi hj
  have ep2 : ∀ i j, i < m → j < m →
      F (fun i j => a i j + a (i + m) j) (fun i j => b (i + m) (j + m)) i j =
      F (fun i j => a1 i j + a1 (i + m) j) (fun i j => b1 (i + m) (j + m)) i j :=
    fun i j hi hj => hF _ _ _ _
      (fun i j hi hj => by simp (disch := omega) only [ha, hb])
      (fun i j hi hj => by simp (disch := omega) only [ha, hb]) i j hi hj
  have ep3 : ∀ i j, i < m → j < m →
      F (fun i j => a i (j + m) + a (i + m) (j + m)) (fun i j => b i j) i j =
      F (fun i j => a1 i (j + m) + a1 (i + m) (j + m)) (fun i j => b1 i j) i j :=
    fun i j hi hj => hF _ _ _ _
      (fun i j hi hj => by simp (disch := omega) only [ha, hb])
      (fun i j hi hj => by simp (disch := omega) only [ha, hb]) i j hi hj
  have ep4 : ∀ i j, i < m → j < m →
      F (fun i j => a (i + m) (j + m)) (fun i j => b i (j + m) - b i j) i j =
      F (fun i j => a1 (i + m) (j + m)) (fun i j => b1 i (j + m) - b1 i j) i j :=
    fun i j hi hj => hF _ _ _ _
      (fun i j hi hj => by simp (disch := omega) only [ha, hb])
      (fun i j hi hj => by simp (disch := omega) only [ha, hb]) i j hi hj
  have ep52 : ∀ i j, i < m → j < m →
      F (fun i j => a i j + a (i + m) (j + m)) (fun i j => b i j + b (i + m) (j + m)) i j =
      F (fun i j => a1 i j + a1 (i + m) (j + m)) (fun i j => b1 i j + b1 (i + m) (j + m)) i j :=
    fun i j hi hj => hF _ _ _ _
      (fun i j hi hj => by simp (disch := omega) only [ha, hb])
      (fun i j hi hj => by simp (disch := omega) only [ha, hb]) i j hi hj
  have ep62 : ∀ i j, i < m → j < m →
      F (fun i j => a (i + m) j - a (i + m) (j + m)) (fun i j => b i (j + m) + b (i + m) (j + m)) i j =
      F (fun i j => a1 (i + m) j - a1 (i + m) (j + m)) (fun i j => b1 i (j + m) + b1 (i + m) (j + m)) i j :=
    fun i j hi hj => hF _ _ _ _
      (fun i j hi hj => by simp (disch := omega) only [ha, hb])
      (fun i j hi hj => by simp (disch := omega) only [ha, hb]) i j hi hj
  have ep72 : ∀ i j, i < m → j < m →
      F (fun i j => a i j - a i (j + m)) (fun i j => b i j + b (i + m) j) i j =
      F (fun i j => a1 i j - a1 i (j + m)) (fun i j => b1 i j + b1 (i + m) j) i j :=
    fun i j hi hj => hF _ _ _ _
      (fun i j hi hj => by simp (disch := omega) only [ha, hb])
      (fun i j hi hj => by simp (disch := omega) only [ha, hb]) i j hi hj
  unfold strassen_combine
  dsimp only
  by_cases him : i < m
  · by_cases hjm : j < m
    · rw [if_pos him, if_pos hjm, if_pos him, if_pos hjm, ep52 i j him hjm, ep4 i j him hjm,
        ep2 i j him hjm, ep62 i j him hjm]
    · have hj1 : j - m < m := by omega
      rw [if_pos him, if_neg hjm, if_pos him, if_neg hjm, ep1 i (j - m) him hj1,
        ep2 i (j - m) him hj1]
  · have hi1 : i - m < m := by omega
    by_cases hjm : j < m
    · rw [if_neg him, if_pos hjm, if_neg him, if_pos hjm, ep3 (i - m) j hi1 hjm,
        ep4 (i - m) j hi1 hjm]
    · have hj1 : j - m < m := by omega
      rw [if_neg him, if_neg hjm, if_neg him, if_neg hjm, ep1 (i - m) (j - m) hi1 hj1,
        ep52 (i - m) (j - m) hi1 hj1, ep3 (i - m) (j - m) hi1 hj1,
        ep72 (i - m) (j - m) hi1 hj1]

/-- The values of `matmul_strassen` on side `2 ^ (k + 1)` depend only on the values of the
operands on that square. -/
theorem strassen_val_local : ∀ k, LocalOn (strassen_val k) (2 ^ (k + 1)) := by
  intro k
  induction k with
  | zero => exact base_val_local
  | succ k ih =>
    have e : 2 ^ (k + 1 + 1) = 2 * 2 ^ (k + 1) := by rw [pow_succ]; ring
    rw [e]
    exact strassen_combine_local (2 ^ (k + 1)) (strassen_val k) ih

/-- The exact product depends only on the values on the square. -/
theorem mat_prod_local (m : Nat) : LocalOn (mat_prod m) m := by
  intro a a1 b b1 ha hb i j hi hj
  simp only [mat_prod]
  exact Finset.sum_congr rfl (fun k hk => by
    have hkm := Finset.mem_range.1 hk
    rw [ha i k hi hkm, hb k j hkm hj])

/-- The heap `_strassen_2x2` leaves: four stores after seven products of values read before
the first store. -/
theorem strassen_2x2_run (a : Ptr) (stride_a : Nat) (b : Ptr) (stride_b : Nat) (c : Ptr)
    (stride_c : Nat) (h : Heap) :
    ∃ h1, _strassen_2x2 a stride_a b stride_b c stride_c h = (.ok (), h1) ∧
      h1.next = h.next ∧
      (2 ≤ stride_c →
        h1.cell c.buf c.off =
          h.cell a.buf a.off * h.cell b.buf b.off +
            h.cell a.buf (a.off + 1) * h.cell b.buf (b.off + stride_b) ∧
        h1.cell c.buf (c.off + 1) =
          h.cell a.buf a.off * h.cell b.buf (b.off + 1) +
            h.cell a.buf (a.off + 1) * h.cell b.buf (b.off + (stride_b + 1)) ∧
        h1.cell c.buf (c.off + stride_c) =
          h.cell a.buf (a.off + stride_a) * h.cell b.buf b.off +
            h.cell a.buf (a.off + (stride_a + 1)) * h.cell b.buf (b.off + stride_b) ∧
        h1.cell c.buf (c.off + (stride_c + 1)) =
          h.cell a.buf (a.off + stride_a) * h.cell b.buf (b.off + 1) +
            h.cell a.buf (a.off + (stride_a + 1)) * h.cell b.buf (b.off + (stride_b + 1))) ∧
      (∀ bf o, ¬ (bf = c.buf ∧ (o = c.off ∨ o = c.off + 1 ∨ o = c.off + stride_c ∨
        o = c.off + (stride_c + 1))) → h1.cell bf o = h.cell bf o) := by
  refine ⟨_, rfl, rfl, ?_, ?_⟩
  · intro hc
    simp only [set_cell, Nat.add_zero]
    have e1 : ¬ (c.off = c.off + (stride_c + 1)) := by omega
    have e2 : ¬ (c.off = c.off + stride_c) := by omega
    have e3 : ¬ (c.off = c.off + 1) := by omega
    have e4 : ¬ (c.off + 1 = c.off + (stride_c + 1)) := by omega
    have e5 : ¬ (c.off + 1 = c.off + stride_c) := by omega
    have e6 : ¬ (c.off + stride_c = c.off + (stride_c + 1)) := by omega
    refine ⟨?_, ?_, ?_, ?_⟩
    · simp only [e1, e2, e3, and_false, and_true, if_false, if_true]; ring
    · simp only [e4, e5, and_false, and_true, if_false, if_true]; ring
    · simp only [e6, and_false, and_true, if_false, if_true]; ring
    · simp only [and_true, if_true]; ring
  · intro bf o hne
    have hne2 : ¬ (bf = c.buf ∧ o = c.off + (stride_c + 1)) := fun hx => hne ⟨hx.1, by simp [hx.2]⟩
    have hne3 : ¬ (bf = c.buf ∧ o = c.off + stride_c) := fun hx => hne ⟨hx.1, by simp [hx.2]⟩
    have hne4 : ¬ (bf = c.buf ∧ o = c.off + 1) := fun hx => hne ⟨hx.1, by simp [hx.2]⟩
    have hne5 : ¬ (bf = c.buf ∧ o = c.off) := fun hx => hne ⟨hx.1, by simp [hx.2]⟩
    simp only [set_cell, Nat.add_zero, hne2, hne3, hne4, hne5, if_false]

/-- The base case satisfies the contract of a multiplication of side 2, whatever the
aliasing of its output with its operands. -/
theorem plain_base_spec : RecSpec plain_base base_val 2 := by
  intro X Y Z g hXr hXc hYr hYc hZr hZc hZs hXb hYb hZb
  obtain ⟨g1, run, next, vals, frame⟩ :=
    strassen_2x2_run X.data X.stride Y.data Y.stride Z.data Z.stride g
  have hs : 2 ≤ Z.stride := by omega
  obtain ⟨v00, v01, v10, v11⟩ := vals hs
  simp only [Matrix.data] at v00 v01 v10 v11 frame
  refine ⟨g1, run, by omega, ?_, ?_⟩
  · intro i j hi hj
    interval_cases i <;> interval_cases j <;>
      simp only [Matrix.get, base_val, Nat.zero_mul, Nat.one_mul, Nat.add_zero, Nat.add_assoc]
    · exact v00
    · exact v01
    · exact v10
    · exact v11
  · intro b o _ hno
    apply frame
    rintro ⟨hb, ho⟩
    apply hno
    refine ⟨hb, ?_⟩
    rcases ho with ho | ho | ho | ho
    · exact ⟨0, 0, by omega, by omega, by rw [ho]; simp⟩
    · exact ⟨0, 1, by omega, by omega, by rw [ho]; simp⟩
    · exact ⟨1, 0, by omega, by omega, by rw [ho]; simp⟩
    · exact ⟨1, 1, by omega, by omega, by rw [ho]; simp; omega⟩

/-- The raw offsets of `_strassen_2x2` lie inside any matrix with two rows and two
columns. -/
theorem raw_offsets_hold (M : Matrix) (hr : M.rows = 2) (hc : M.cols = 2) :
    (raw_offsets M.stride).all M.holds = true := by
  simp [raw_offsets, Matrix.holds, hr, hc, List.range_succ]

/-- On 2x2 operands the checked base case is the plain base case. -/
theorem guarded_base_eq (X Y Z : Matrix) (hX : Square 2 X) (hY : Square 2 Y)
    (hZ : Square 2 Z) : guarded_base X Y Z = plain_base X Y Z := by
  funext g
  unfold guarded_base plain_base
  rw [raw_offsets_hold X hX.1 hX.2, raw_offsets_hold Y hY.1 hY.2,
    raw_offsets_hold Z hZ.1 hZ.2]
  exact bind_ok (assert_true_run _ g)

theorem guarded_base_spec : RecSpec guarded_base base_val 2 := by
  intro X Y Z g hXr hXc hYr hYc hZr hZc hZs hXb hYb hZb
  rw [guarded_base_eq X Y Z ⟨hXr, hXc⟩ ⟨hYr, hYc⟩ ⟨hZr, hZc⟩]
  exact plain_base_spec X Y Z g hXr hXc hYr hYc hZr hZc hZs hXb hYb hZb

theorem pow2_check_two : pow2_check 2 = true := by decide

/-- On operands of side 2 the body is the base case. -/
theorem body_base (base rec : Matrix → Matrix → Matrix → Exec Unit) (A B C : Matrix)
    (hr : A.rows = 2) (hc : A.cols = 2) :
    strassen_body base rec A B C = base A B C := by
  funext g
  unfold strassen_body
  dsimp only
  rw [hr, hc, pow2_check_two, beq_self_eq_true, bind_ok (assert_true_run _ g),
    bind_ok (assert_true_run _ g), if_pos rfl]

/-- The recursion over `strassen_body`: on operands of side `2 ^ (k + 1)` and with fuel
above `k`, the call returns, the output holds `strassen_val k` of the operands' values,
and of the cells that existed before only those of the output may have changed. -/
theorem gen_spec (base : Matrix → Matrix → Matrix → Exec Unit)
    (hbase : RecSpec base base_val 2) :
    ∀ k fuel, k + 1 ≤ fuel → RecSpec (strassen_gen base fuel) (strassen_val k) (2 ^ (k + 1)) := by
  intro k
  induction k with
  | zero =>
    intro fuel hfuel
    obtain ⟨f, rfl⟩ : ∃ f, fuel = f + 1 := ⟨fuel - 1, by omega⟩
    intro X Y Z g hXr hXc hYr hYc hZr hZc hZs hXb hYb hZb
    show ∃ h1, strassen_body base (strassen_gen base f) X Y Z g = _ ∧ _
    rw [body_base base _ X Y Z hXr hXc]
    exact hbase X Y Z g hXr hXc hYr hYc hZr hZc hZs hXb hYb hZb
  | succ k ih =>
    intro fuel hfuel
    obtain ⟨f, rfl⟩ : ∃ f, fuel = f + 1 := ⟨fuel - 1, by omega⟩
    have e : 2 ^ (k + 1 + 1) = 2 * 2 ^ (k + 1) := by rw [pow_succ]; ring
    have hge : 2 ≤ 2 ^ (k + 1) := by
      calc 2 = 2 ^ 1 := by norm_num
        _ ≤ 2 ^ (k + 1) := Nat.pow_le_pow_right (by norm_num) (by omega)
    have hpow : pow2_check (2 * 2 ^ (k + 1)) = true :=
      (pow2_check_pos _ (by omega)).2 ⟨k + 1 + 1, e.symm⟩
    intro X Y Z g hXr hXc hYr hYc hZr hZc hZs hXb hYb hZb
    rw [e] at hXr hXc hYr hYc hZr hZc
    obtain ⟨h1, run, next, vals, frame⟩ :=
      body_spec base (strassen_gen base f) (strassen_val k) (2 ^ (k + 1)) hge hpow
        (ih f (by omega)) (strassen_val_local k) X Y Z g ⟨hXr, hXc⟩ ⟨hYr, hYc⟩ ⟨hZr, hZc⟩
        hZs hXb hYb hZb
    refine ⟨h1, run, next, fun i j hi hj => ?_, frame⟩
    rw [e] at hi hj
    exact vals i j hi hj

theorem bind_congr_ok {α β : Type} {x : Exec α} {f1 f2 : α → Exec β} {g g1 : Heap} {a : α}
    (hx : x g = (.ok a, g1)) (hf : f1 a g1 = f2 a g1) : (x >>= f1) g = (x >>= f2) g := by
  rw [bind_ok hx, bind_ok hx, hf]

theorem bind_congr_all {α β : Type} {x1 x2 : Exec α} {f1 f2 : α → Exec β} {g : Heap}
    (hx : x1 g = x2 g) (hf : ∀ a g1, f1 a g1 = f2 a g1) : (x1 >>= f1) g = (x2 >>= f2) g := by
  rw [bind_run, bind_run, hx]
  rcases x2 g with ⟨r, g1⟩
  cases r with
  | ok a => exact hf a g1
  | error e => rfl

theorem dense_square (b m : Nat) : Square m (Matrix.dense b m m) := ⟨rfl, rfl⟩

/-- Two recursive calls that agree on square operands of side `m` give the same recursive
step on square operands of side `2 * m`. -/
theorem body_congr (base1 base2 rec1 rec2 : Matrix → Matrix → Matrix → Exec Unit) (m : Nat)
    (hm : 2 ≤ m)
    (hrec : ∀ X Y Z g, Square m X → Square m Y → Square m Z → rec1 X Y Z g = rec2 X Y Z g)
    (A B C : Matrix) (g : Heap) (hA : Square (2 * m) A) (hB : Square (2 * m) B) :
    strassen_body base1 rec1 A B C g = strassen_body base2 rec2 A B C g := by
  obtain ⟨hAr, hAc⟩ := hA
  obtain ⟨hBr, hBc⟩ := hB
  have hne : ¬ (A.rows = 2) := by omega
  have hhalf : A.rows >>> 1 = m := by rw [hAr, Nat.shiftRight_eq_div_pow]; omega
  have wA : ∀ r c, (A.window r c m m).rows = m ∧ (A.window r c m m).cols = m :=
    fun _ _ => ⟨rfl, rfl⟩
  unfold strassen_body
  dsimp only
  rw [hhalf, if_neg hne, if_neg hne]
  refine bind_congr_all rfl (fun _ g1 => bind_congr_all rfl (fun _ g2 => ?_))
  refine bind_congr_ok (view_run A 0 0 m m g2 (by omega) (by omega)) ?_
  refine bind_congr_ok (view_run A m 0 m m g2 (by omega) (by omega)) ?_
  refine bind_congr_ok (view_run A 0 m m m g2 (by omega) (by omega)) ?_
  refine bind_congr_ok (view_run A m m m m g2 (by omega) (by omega)) ?_
  refine bind_congr_ok (view_run B 0 0 m m g2 (by omega) (by omega)) ?_
  refine bind_congr_ok (view_run B m 0 m m g2 (by omega) (by omega)) ?_
  refine bind_congr_ok (view_run B 0 m m m g2 (by omega) (by omega)) ?_
  refine bind_congr_ok (view_run B m m m m g2 (by omega) (by omega)) ?_
  refine bind_congr_ok (sub_run _ _ _ rfl rfl) ?_
  refine bind_congr_ok (add_run _ _ _ rfl rfl) ?_
  refine bind_congr_ok (add_run _ _ _ rfl rfl) ?_
  refine bind_congr_ok (sub_run _ _ _ rfl rfl) ?_
  refine bind_congr_ok (add_run _ _ _ rfl rfl) ?_
  refine bind_congr_ok (add_run _ _ _ rfl rfl) ?_
  refine bind_congr_ok (sub_run _ _ _ rfl rfl) ?_
  refine bind_congr_ok (add_run _ _ _ rfl rfl) ?_
  refine bind_congr_ok (sub_run _ _ _ rfl rfl) ?_
  refine bind_congr_ok (add_run _ _ _ rfl rfl) ?_
  refine bind_congr_all (hrec _ _ _ _ ⟨rfl, rfl⟩ ⟨rfl, rfl⟩ ⟨rfl, rfl⟩) (fun _ _ => ?_)
  refine bind_congr_all (hrec _ _ _ _ ⟨rfl, rfl⟩ ⟨rfl, rfl⟩ ⟨rfl, rfl⟩) (fun _ _ => ?_)
  refine bind_congr_all (hrec _ _ _ _ ⟨rfl, rfl⟩ ⟨rfl, rfl⟩ ⟨rfl, rfl⟩) (fun _ _ => ?_)
  refine bind_congr_all (hrec _ _ _ _ ⟨rfl, rfl⟩ ⟨rfl, rfl⟩ ⟨rfl, rfl⟩) (fun _ _ => ?_)
  refine bind_congr_all (hrec _ _ _ _ ⟨rfl, rfl⟩ ⟨rfl, rfl⟩ ⟨rfl, rfl⟩) (fun _ _ => ?_)
  refine bind_congr_all (hrec _ _ _ _ ⟨rfl, rfl⟩ ⟨rfl, rfl⟩ ⟨rfl, rfl⟩) (fun _ _ => ?_)
  refine bind_congr_all (hrec _ _ _ _ ⟨rfl, rfl⟩ ⟨rfl, rfl⟩ ⟨rfl, rfl⟩) (fun _ _ => ?_)
  rfl

/-- On square operands of side `2 ^ (k + 1)` the checks of the base case change nothing:
the checked recursion and the recursion of the source end with the same result and the
same heap, whatever the fuel. -/
theorem checked_eq_plain : ∀ (k fuel : Nat) (X Y Z : Matrix) (g : Heap),
    Square (2 ^ (k + 1)) X → Square (2 ^ (k + 1)) Y → Square (2 ^ (k + 1)) Z →
    strassen_gen guarded_base fuel X Y Z g = strassen_gen plain_base fuel X Y Z g := by
  intro k
  induction k with
  | zero =>
    intro fuel X Y Z g hX hY hZ
    cases fuel with
    | zero => rfl
    | succ f =>
      show strassen_body guarded_base _ X Y Z g = strassen_body plain_base _ X Y Z g
      rw [body_base guarded_base _ X Y Z hX.1 hX.2, body_base plain_base _ X Y Z hX.1 hX.2,
        guarded_base_eq X Y Z hX hY hZ]
  | succ k ih =>
    intro fuel X Y Z g hX hY hZ
    have e : 2 ^ (k + 1 + 1) = 2 * 2 ^ (k + 1) := by rw [pow_succ]; ring
    have hge : 2 ≤ 2 ^ (k + 1) := by
      calc 2 = 2 ^ 1 := by norm_num
        _ ≤ 2 ^ (k + 1) := Nat.pow_le_pow_right (by norm_num) (by omega)
    rw [e] at hX hY
    cases fuel with
    | zero => rfl
    | succ f =>
      exact body_congr guarded_base plain_base _ _ (2 ^ (k + 1)) hge
        (fun X1 Y1 Z1 g1 h1 h2 h3 => ih f X1 Y1 Z1 g1 h1 h2 h3) X Y Z g hX hY

/-- The source function under the contract: on operands of side `2 ^ (k + 1)` and with fuel
above `k`. -/
theorem matmul_strassen_spec (k fuel : Nat) (hfuel : k + 1 ≤ fuel) :
    RecSpec (matmul_strassen fuel) (strassen_val k) (2 ^ (k + 1)) := by
  rw [matmul_strassen_eq_gen]
  exact gen_spec plain_base plain_base_spec k fuel hfuel

/-- C13: for operands of side `n = 2 ^ (k + 1)` held in buffers of the heap, `C` a
well-formed matrix in another buffer than `A` and `B`, and fuel above `k`,
`matmul_strassen` returns and every element of the buffers of `A` and of `B` is as before
the call: the recursive calls overwrite only the freshly allocated auxiliary matrices, the
merge loops only `C`. -/
theorem strassen_keeps_inputs (k fuel : Nat) (hfuel : k + 1 ≤ fuel) (A B C : Matrix)
    (h : Heap) (hA : Square (2 ^ (k + 1)) A) (hB : Square (2 ^ (k + 1)) B)
    (hC : Square (2 ^ (k + 1)) C) (hCs : C.cols ≤ C.stride) (hAb : A.buf < h.next)
    (hBb : B.buf < h.next) (hCb : C.buf < h.next) (hCA : C.buf ≠ A.buf)
    (hCB : C.buf ≠ B.buf) :
    ∃ h1, matmul_strassen fuel A B C h = (.ok (), h1) ∧
      (∀ o, h1.cell A.buf o = h.cell A.buf o) ∧ (∀ o, h1.cell B.buf o = h.cell B.buf o) := by
  obtain ⟨h1, run, _, _, frame⟩ :=
    matmul_strassen_spec k fuel hfuel A B C h hA.1 hA.2 hB.1 hB.2 hC.1 hC.2 hCs hAb hBb hCb
  exact ⟨h1, run, fun o => frame A.buf o hAb (fun hx => hCA hx.1.symm),
    fun o => frame B.buf o hBb (fun hx => hCB hx.1.symm)⟩

/-- Witness of C13: 4x4 operands in three buffers. -/
theorem strassen_keeps_inputs_witness :
    ∃ h1, matmul_strassen 2 (Matrix.dense 0 4 4) (Matrix.dense 1 4 4) (Matrix.dense 2 4 4)
        (Heap.ofLists [count16, ident4, zeros16]) = (.ok (), h1) ∧
      (∀ o, h1.cell 0 o = (Heap.ofLists [count16, ident4, zeros16]).cell 0 o) ∧
      (∀ o, h1.cell 1 o = (Heap.ofLists [count16, ident4, zeros16]).cell 1 o) :=
  strassen_keeps_inputs 1 2 (by decide) (Matrix.dense 0 4 4) (Matrix.dense 1 4 4)
    (Matrix.dense 2 4 4) (Heap.ofLists [count16, ident4, zeros16]) ⟨rfl, rfl⟩ ⟨rfl, rfl⟩
    ⟨rfl, rfl⟩ (le_refl _) (by decide) (by decide) (by decide) (by decide) (by decide)

/-- C16: for well-formed matrices `X`, `Y`, `C` of side `n = 2 ^ (k + 1)` held in buffers
of the heap and fuel above `k`, the three calls `matmul_strassen(X, Y, C)`,
`matmul_strassen(X, Y, Y)` and `matmul_strassen(X, Y, X)`, started from the same heap, all
return, and afterwards `Y` (second call) and `X` (third call) hold in every cell the value
that the first call left in `C`. -/
theorem strassen_output_may_alias (k fuel : Nat) (hfuel : k + 1 ≤ fuel) (X Y C : Matrix)
    (h : Heap) (hX : Square (2 ^ (k + 1)) X) (hY : Square (2 ^ (k + 1)) Y)
    (hC : Square (2 ^ (k + 1)) C) (hXs : X.cols ≤ X.stride) (hYs : Y.cols ≤ Y.stride)
    (hCs : C.cols ≤ C.stride) (hXb : X.buf < h.next) (hYb : Y.buf < h.next)
    (hCb : C.buf < h.next) :
    ∃ h1 h2 h3, matmul_strassen fuel X Y C h = (.ok (), h1) ∧
      matmul_strassen fuel X Y Y h = (.ok (), h2) ∧
      matmul_strassen fuel X Y X h = (.ok (), h3) ∧
      ∀ i j, i < 2 ^ (k + 1) → j < 2 ^ (k + 1) →
        Y.get h2 i j = C.get h1 i j ∧ X.get h3 i j = C.get h1 i j := by
  obtain ⟨h1, run1, _, v1, _⟩ :=
    matmul_strassen_spec k fuel hfuel X Y C h hX.1 hX.2 hY.1 hY.2 hC.1 hC.2 hCs hXb hYb hCb
  obtain ⟨h2, run2, _, v2, _⟩ :=
    matmul_strassen_spec k fuel hfuel X Y Y h hX.1 hX.2 hY.1 hY.2 hY.1 hY.2 hYs hXb hYb hYb
  obtain ⟨h3, run3, _, v3, _⟩ :=
    matmul_strassen_spec k fuel hfuel X Y X h hX.1 hX.2 hY.1 hY.2 hX.1 hX.2 hXs hXb hYb hXb
  exact ⟨h1, h2, h3, run1, run2, run3, fun i j hi hj =>
    ⟨(v2 i j hi hj).trans (v1 i j hi hj).symm, (v3 i j hi hj).trans (v1 i j hi hj).symm⟩⟩

/-- Witness of C16: 4x4 operands. -/
theorem strassen_output_may_alias_witness :
    ∃ h1 h2 h3,
      matmul_strassen 2 (Matrix.dense 0 4 4) (Matrix.dense 1 4 4) (Matrix.dense 2 4 4)
        (Heap.ofLists [count16, unit02, zeros16]) = (.ok (), h1) ∧
      matmul_strassen 2 (Matrix.dense 0 4 4) (Matrix.dense 1 4 4) (Matrix.dense 1 4 4)
        (Heap.ofLists [count16, unit02, zeros16]) = (.ok (), h2) ∧
      matmul_strassen 2 (Matrix.dense 0 4 4) (Matrix.dense 1 4 4) (Matrix.dense 0 4 4)
        (Heap.ofLists [count16, unit02, zeros16]) = (.ok (), h3) ∧
      ∀ i j, i < 2 ^ (1 + 1) → j < 2 ^ (1 + 1) →
        (Matrix.dense 1 4 4).get h2 i j = (Matrix.dense 2 4 4).get h1 i j ∧
        (Matrix.dense 0 4 4).get h3 i j = (Matrix.dense 2 4 4).get h1 i j :=
  strassen_output_may_alias 1 2 (by decide) (Matrix.dense 0 4 4) (Matrix.dense 1 4 4)
    (Matrix.dense 2 4 4) (Heap.ofLists [count16, unit02, zeros16]) ⟨rfl, rfl⟩ ⟨rfl, rfl⟩
    ⟨rfl, rfl⟩ (le_refl _) (le_refl _) (le_refl _) (by decide) (by decide) (by decide)

/-- C18: for well-formed operands of side `n = 2 ^ (k + 1)` held in buffers of the heap and
fuel above `k`, `matmul_strassen` returns without error: at every depth the views fit
their parents, the sums and differences have operands of equal shape, both assertions pass
and the base case is reached, and the checked reads and writes of the merge loops are in
range.  The recursion whose base case also checks that the offsets 0, 1, stride,
stride + 1 lie inside the three matrices ends in the same way with the same heap, so the
raw accesses of `_strassen_2x2` are inside the matrices as well. -/
theorem strassen_in_bounds (k fuel : Nat) (hfuel : k + 1 ≤ fuel) (A B C : Matrix)
    (h : Heap) (hA : Square (2 ^ (k + 1)) A) (hB : Square (2 ^ (k + 1)) B)
    (hC : Square (2 ^ (k + 1)) C) (hCs : C.cols ≤ C.stride) (hAb : A.buf < h.next)
    (hBb : B.buf < h.next) (hCb : C.buf < h.next) :
    ∃ h1, matmul_strassen fuel A B C h = (.ok (), h1) ∧
      matmul_strassen_checked fuel A B C h = (.ok (), h1) := by
  obtain ⟨h1, run, _, _, _⟩ :=
    matmul_strassen_spec k fuel hfuel A B C h hA.1 hA.2 hB.1 hB.2 hC.1 hC.2 hCs hAb hBb hCb
  refine ⟨h1, run, ?_⟩
  show strassen_gen guarded_base fuel A B C h = _
  rw [checked_eq_plain k fuel A B C h hA hB hC, ← matmul_strassen_eq_gen]
  exact run

/-- Witness of C18: 4x4 operands. -/
theorem strassen_in_bounds_witness :
    ∃ h1, matmul_strassen 2 (Matrix.dense 0 4 4) (Matrix.dense 1 4 4) (Matrix.dense 2 4 4)
        (Heap.ofLists [count16, ident4, zeros16]) = (.ok (), h1) ∧
      matmul_strassen_checked 2 (Matrix.dense 0 4 4) (Matrix.dense 1 4 4) (Matrix.dense 2 4 4)
        (Heap.ofLists [count16, ident4, zeros16]) = (.ok (), h1) :=
  strassen_in_bounds 1 2 (by decide) (Matrix.dense 0 4 4) (Matrix.dense 1 4 4)
    (Matrix.dense 2 4 4) (Heap.ofLists [count16, ident4, zeros16]) ⟨rfl, rfl⟩ ⟨rfl, rfl⟩
    ⟨rfl, rfl⟩ (le_refl _) (by decide) (by decide) (by decide)

/-- The 2x2 product is the exact product of side 2. -/
theorem base_val_eq_prod : base_val = mat_prod 2 := by
  funext a b i j
  simp [base_val, mat_prod, Finset.sum_range_succ]

/-- The algebra of the recursive step: with exact products for the seven calls, the merge
combinations are the block product of the quadrants. -/
theorem combine_prod (m : Nat) (a b : Vals) (i j : Nat) (hi : i < m) (hj : j < m) :
    strassen_combine m (mat_prod m) a b i j =
      ∑ k in Finset.range m, a i k * b k j +
        ∑ k in Finset.range m, a (i + m) k * b k (j + m) ∧
    strassen_combine m (mat_prod m) a b i (j + m) =
      ∑ k in Finset.range m, a i k * b (k + m) j +
        ∑ k in Finset.range m, a (i + m) k * b (k + m) (j + m) ∧
    strassen_combine m (mat_prod m) a b (i + m) j =
      ∑ k in Finset.range m, a i (k + m) * b k j +
        ∑ k in Finset.range m, a (i + m) (k + m) * b k (j + m) ∧
    strassen_combine m (mat_prod m) a b (i + m) (j + m) =
      ∑ k in Finset.range m, a i (k + m) * b (k + m) j +
        ∑ k in Finset.range m, a (i + m) (k + m) * b (k + m) (j + m) := by
  have h1 : ¬ (i + m < m) := by omega
  have h2 : ¬ (j + m < m) := by omega
  refine ⟨?_, ?_, ?_, ?_⟩
  · simp only [strassen_combine, mat_prod, if_pos hi, if_pos hj, ← Finset.sum_add_distrib,
      ← Finset.sum_sub_distrib]
    exact Finset.sum_congr rfl (fun k _ => by ring)
  · simp only [strassen_combine, mat_prod, if_pos hi, if_neg h2, Nat.add_sub_cancel,
      ← Finset.sum_add_distrib, ← Finset.sum_sub_distrib]
    exact Finset.sum_congr rfl (fun k _ => by ring)
  · simp only [strassen_combine, mat_prod, if_neg h1, if_pos hj, Nat.add_sub_cancel,
      ← Finset.sum_add_distrib, ← Finset.sum_sub_distrib]
    exact Finset.sum_congr rfl (fun k _ => by ring)
  · simp only [strassen_combine, mat_prod, if_neg h1, if_neg h2, Nat.add_sub_cancel,
      ← Finset.sum_add_distrib, ← Finset.sum_sub_distrib]
    exact Finset.sum_congr rfl (fun k _ => by ring)

/-- Every cell of a matrix of side `2 * m` is the target of exactly one iteration of
exactly one merge loop. -/
theorem merge_target_unique (m r c : Nat) (hr : r < 2 * m) (hc : c < 2 * m) :
    ∃! t : Nat × Nat × Nat, t.1 < 4 ∧ t.2.1 < m ∧ t.2.2 < m ∧
      merge_target m t.1 t.2.1 t.2.2 = (r, c) := by
  have huniq : ∀ (q i j q1 i1 j1 : Nat), q < 4 → i < m → j < m → q1 < 4 → i1 < m → j1 < m →
      merge_target m q i j = merge_target m q1 i1 j1 → q = q1 ∧ i = i1 ∧ j = j1 := by
    intro q i j q1 i1 j1 hq hi hj hq1 hi1 hj1 he
    interval_cases q <;> interval_cases q1 <;>
      simp only [merge_target, Prod.mk.injEq] at he <;> omega
  have hex : ∃ q i j, q < 4 ∧ i < m ∧ j < m ∧ merge_target m q i j = (r, c) := by
    by_cases h1 : r < m
    · by_cases h2 : c < m
      · exact ⟨0, r, c, by omega, h1, h2, rfl⟩
      · exact ⟨1, r, c - m, by omega, h1, by omega, by
          show (r, c - m + m) = (r, c)
          rw [Nat.sub_add_cancel (by omega)]⟩
    · by_cases h2 : c < m
      · exact ⟨2, r - m, c, by omega, by omega, h2, by
          show (r - m + m, c) = (r, c)
          rw [Nat.sub_add_cancel (by omega)]⟩
      · exact ⟨3, r - m, c - m, by omega, by omega, by omega, by
          show (r - m + m, c - m + m) = (r, c)
          rw [Nat.sub_add_cancel (by omega), Nat.sub_add_cancel (by omega)]⟩
  obtain ⟨q, i, j, hq, hi, hj, he⟩ := hex
  refine ⟨(q, i, j), ⟨hq, hi, hj, he⟩, ?_⟩
  rintro ⟨q1, i1, j1⟩ ⟨hq1, hi1, hj1, he1⟩
  obtain ⟨e1, e2, e3⟩ := huniq q1 i1 j1 q i j hq1 hi1 hj1 hq hi hj (he1.trans he.symm)
  rw [e1, e2, e3]

/-- C15: the recursive step on operands of side `2 * m` (a power of two, `m >= 2`), with
`A11`, `A12`, `A21`, `A22`, `B11`, `B12`, `B21`, `B22` the views of lines 158-166.  If each
recursive call returns the exact product of its first two arguments in its third (and
changes nothing else that existed before), then the step returns and the merge loops have
stored `A11*B11 + A12*B21` in `C[0..m)[0..m)`, `A11*B12 + A12*B22` in `C[0..m)[m..2m)`,
`A21*B11 + A22*B21` in `C[m..2m)[0..m)` and `A21*B12 + A22*B22` in `C[m..2m)[m..2m)`; every
cell of `C` is the target of exactly one iteration of exactly one merge loop. -/
theorem strassen_step_block_product (base rec : Matrix → Matrix → Matrix → Exec Unit)
    (m : Nat) (hm : 2 ≤ m) (hpow : pow2_check (2 * m) = true)
    (hrec : RecSpec rec (mat_prod m) m) (A B C : Matrix) (h : Heap)
    (hA : Square (2 * m) A) (hB : Square (2 * m) B) (hC : Square (2 * m) C)
    (hCs : C.cols ≤ C.stride) (hAb : A.buf < h.next) (hBb : B.buf < h.next)
    (hCb : C.buf < h.next) :
    ∃ h1, strassen_body base rec A B C h = (.ok (), h1) ∧
      (∀ i j, i < m → j < m →
        C.get h1 i j =
          mat_prod m ((A.window 0 0 m m).get h) ((B.window 0 0 m m).get h) i j +
            mat_prod m ((A.window m 0 m m).get h) ((B.window 0 m m m).get h) i j ∧
        C.get h1 i (j + m) =
          mat_prod m ((A.window 0 0 m m).get h) ((B.window m 0 m m).get h) i j +
            mat_prod m ((A.window m 0 m m).get h) ((B.window m m m m).get h) i j ∧
        C.get h1 (i + m) j =
          mat_prod m ((A.window 0 m m m).get h) ((B.window 0 0 m m).get h) i j +
            mat_prod m ((A.window m m m m).get h) ((B.window 0 m m m).get h) i j ∧
        C.get h1 (i + m) (j + m) =
          mat_prod m ((A.window 0 m m m).get h) ((B.window m 0 m m).get h) i j +
            mat_prod m ((A.window m m m m).get h) ((B.window m m m m).get h) i j) ∧
      (∀ r c, r < 2 * m → c < 2 * m →
        ∃! t : Nat × Nat × Nat, t.1 < 4 ∧ t.2.1 < m ∧ t.2.2 < m ∧
          merge_target m t.1 t.2.1 t.2.2 = (r, c)) := by
  obtain ⟨h1, run, _, vals, _⟩ :=
    body_spec base rec (mat_prod m) m hm hpow hrec (mat_prod_local m) A B C h hA hB hC hCs
      hAb hBb hCb
  refine ⟨h1, run, fun i j hi hj => ?_, fun r c hr hc => merge_target_unique m r c hr hc⟩
  obtain ⟨c11, c12, c21, c22⟩ := combine_prod m (A.get h) (B.get h) i j hi hj
  rw [vals i j (by omega) (by omega), vals i (j + m) (by omega) (by omega),
    vals (i + m) j (by omega) (by omega), vals (i + m) (j + m) (by omega) (by omega),
    c11, c12, c21, c22]
  simp only [mat_prod, window_get, Nat.add_zero, and_self]

/-- Witness of C15: side 4, the recursive calls being the 2x2 base case, which returns the
exact product; with `A[i][j] = 4 * i + j` and `B` the identity the step stores
`C[0][1] = 1`. -/
theorem strassen_step_block_product_witness :
    ∃ h1, strassen_body plain_base plain_base (Matrix.dense 0 4 4) (Matrix.dense 1 4 4)
        (Matrix.dense 2 4 4) (Heap.ofLists [count16, ident4, zeros16]) = (.ok (), h1) ∧
      (Matrix.dense 2 4 4).get h1 0 1 = 1 := by
  obtain ⟨h1, run, vals, _⟩ :=
    strassen_step_block_product plain_base plain_base 2 (le_refl _) (by decide)
      (base_val_eq_prod ▸ plain_base_spec) (Matrix.dense 0 4 4) (Matrix.dense 1 4 4)
      (Matrix.dense 2 4 4) (Heap.ofLists [count16, ident4, zeros16]) ⟨rfl, rfl⟩ ⟨rfl, rfl⟩
      ⟨rfl, rfl⟩ (le_refl _) (by decide) (by decide) (by decide)
  refine ⟨h1, run, ?_⟩
  rw [(vals 0 1 (by decide) (by decide)).1]
  rfl

end Matmul
